import Mathlib

/-!
Shallow embedding of the arbitrary-precision integer engine in
`src/libstd/bigint.rs` (an unsigned magnitude `BigUint` built from a vector
of half-machine-word digits, and a signed wrapper `BigInt`), together with
proofs of the specification claims about it.

The embedding targets the 64-bit (`x86_64`) configuration of the source:
`BigDigit = u32`, `BigDigit::bits = 32`, `BigDigit::base = 2^32`, and the
machine word type `uint = u64`.  Machine integers are modelled as `Nat`
with explicit truncation (`% 2^32`, `% 2^64`) at the points where the
source performs a cast or where 2013-era Rust wrapping arithmetic applies.
-/

namespace BigintRs

/-- Source `BigDigit::bits` (x86_64 configuration). -/
def digitBits : Nat := 32

/-- Source `BigDigit::base = 1 << bits`. -/
def digitBase : Nat := 2 ^ digitBits

/-- Width of the machine word `uint` (x86_64: 64 bits). -/
def uintBits : Nat := 64

/-- Source `uint::max_value` (`0 - 1` on a 64-bit unsigned word). -/
def uintMaxValue : Nat := 2 ^ uintBits - 1

/-- Source `int::max_value` on a 64-bit word. -/
def intMaxValue : Nat := 2 ^ 63 - 1

/-- Source `BigDigit::from_uint`: split one machine sized unsigned integer
into two BigDigits `(hi, lo)`.  The `% 2 ^ uintBits` reflects that the
argument is a `uint`: every arithmetic expression the source feeds in has
already been reduced modulo `2^64` by the machine. -/
def fromUint (n : Nat) : Nat × Nat :=
  ((n % 2 ^ uintBits) / digitBase, (n % 2 ^ uintBits) % digitBase)

/-- Source `BigDigit::to_uint`: join two BigDigits into one machine sized
unsigned integer (`lo | hi << bits`). -/
def toUint (hi lo : Nat) : Nat := lo + digitBase * hi

/-- Source `BigUint`: a big unsigned integer, a little-endian vector of
BigDigits (`data[0]` least significant). -/
structure BigUint where
  data : List Nat
deriving Repr, DecidableEq

/-- The number a `BigUint` represents, from the source doc comment:
`BigUint { data: @[a, b, c] }` represents `a + b*base + c*base^2`. -/
def BigUint.toVal (u : BigUint) : Nat :=
  u.data.foldr (fun d acc => d + digitBase * acc) 0

/-- Value of a raw digit list (same little-endian weighting). -/
def listVal (v : List Nat) : Nat :=
  v.foldr (fun d acc => d + digitBase * acc) 0

/-- Length of the prefix of `v` up to and including the last nonzero entry:
the `new_len` computed by `BigUint::new` via
`v.rposition(|n| *n != 0).map_default(0, |p| *p + 1)`. -/
def lastNonzeroLen : List Nat → Nat
  | [] => 0
  | d :: rest =>
    let r := lastNonzeroLen rest
    if r = 0 then (if d ≠ 0 then 1 else 0) else r + 1

/-- Source `BigUint::new`: creates a BigUint, omitting trailing zeros
(`v.truncate(new_len)`). -/
def BigUint.new (v : List Nat) : BigUint := ⟨v.take (lastNonzeroLen v)⟩

/-- Source `BigUint::from_slice` (copies the slice, then `new`). -/
def BigUint.from_slice (v : List Nat) : BigUint := BigUint.new v

/-- Source `Zero::zero()` for BigUint: `BigUint::new(~[])`. -/
def BigUint.zero : BigUint := BigUint.new []

/-- Source `One::one()` for BigUint: `BigUint::new(~[1])`. -/
def BigUint.one : BigUint := BigUint.new [1]

/-- Source `BigUint::from_uint`: splits a machine word into at most two
digits, dropping zero high parts. -/
def BigUint.from_uint (n : Nat) : BigUint :=
  match fromUint n with
  | (0, 0) => BigUint.zero
  | (0, n0) => BigUint.new [n0]
  | (n1, n0) => BigUint.new [n0, n1]

/-- Source `BigUint::is_zero`: `self.data.is_empty()`. -/
def BigUint.is_zero (u : BigUint) : Bool := u.data.isEmpty

/-- Source `BigUint::is_not_zero`. -/
def BigUint.is_not_zero (u : BigUint) : Bool := !u.data.isEmpty

/-- Spec-side normalization (§8 of the spec, stated independently of the
source): a digit array with its trailing zero digits removed. -/
def stripTrailingZeros (v : List Nat) : List Nat :=
  (v.reverse.dropWhile (fun d => d = 0)).reverse

/-- Representation invariant, trailing-zero half: the digit sequence has no
trailing (most-significant) zero digit; zero is the empty sequence. -/
def Normal (u : BigUint) : Prop := u.data.getLast? ≠ some 0

/-- Representation invariant, digit-range half: every digit fits the
`BigDigit` (u32) storage. -/
def Bounded (u : BigUint) : Prop := ∀ d ∈ u.data, d < digitBase

/-- Full well-formedness of a `BigUint` as produced by the source's public
constructors. -/
def WF (u : BigUint) : Prop := Bounded u ∧ Normal u

instance (u : BigUint) : Decidable (Normal u) := by
  unfold Normal; infer_instance

instance (u : BigUint) : Decidable (Bounded u) := by
  unfold Bounded; infer_instance

instance (u : BigUint) : Decidable (WF u) := by
  unfold WF; infer_instance

theorem digitBase_pos : 0 < digitBase := by decide

theorem digitBase_gt_one : 1 < digitBase := by decide

/-- `lastNonzeroLen` never exceeds the length. -/
theorem lastNonzeroLen_le_length (v : List Nat) : lastNonzeroLen v ≤ v.length := by
  induction v with
  | nil => simp [lastNonzeroLen]
  | cons d rest ih =>
    simp only [lastNonzeroLen, List.length_cons]
    split
    · split <;> omega
    · omega

/-- Appending a zero digit does not move the last nonzero position. -/
theorem lastNonzeroLen_append_zero (v : List Nat) :
    lastNonzeroLen (v ++ [0]) = lastNonzeroLen v := by
  induction v with
  | nil => simp [lastNonzeroLen]
  | cons d rest ih =>
    show (let r := lastNonzeroLen (rest ++ [0]);
      if r = 0 then (if d ≠ 0 then 1 else 0) else r + 1) = _
    simp only [ih, lastNonzeroLen]

/-- Appending a nonzero digit makes it the last nonzero position. -/
theorem lastNonzeroLen_append_nonzero (v : List Nat) (x : Nat) (hx : x ≠ 0) :
    lastNonzeroLen (v ++ [x]) = v.length + 1 := by
  induction v with
  | nil => simp [lastNonzeroLen, hx]
  | cons d rest ih =>
    show (let r := lastNonzeroLen (rest ++ [x]);
      if r = 0 then (if d ≠ 0 then 1 else 0) else r + 1) = _
    simp only [ih]
    rw [if_neg (Nat.succ_ne_zero _)]
    simp

/-- Taking up to the last nonzero is the same as stripping trailing zeros. -/
theorem new_data_eq_strip (v : List Nat) :
    (BigUint.new v).data = stripTrailingZeros v := by
  induction v using List.reverseRecOn with
  | nil => rfl
  | append_singleton xs x ih =>
    by_cases hx : x = 0
    · subst hx
      show (xs ++ [0]).take (lastNonzeroLen (xs ++ [0])) = _
      rw [lastNonzeroLen_append_zero]
      rw [List.take_append_of_le_length (lastNonzeroLen_le_length xs)]
      unfold stripTrailingZeros
      rw [List.reverse_append]
      simp only [List.reverse_singleton, List.singleton_append, List.dropWhile_cons]
      rw [if_pos (by simp)]
      exact ih
    · show (xs ++ [x]).take (lastNonzeroLen (xs ++ [x])) = _
      rw [lastNonzeroLen_append_nonzero xs x hx]
      rw [List.take_of_length_le (by simp)]
      unfold stripTrailingZeros
      rw [List.reverse_append]
      simp only [List.reverse_singleton, List.singleton_append, List.dropWhile_cons]
      rw [if_neg (by simpa using hx)]
      simp

/-- The stripped list has no trailing zero. -/
theorem strip_getLast_ne_zero (v : List Nat) :
    (stripTrailingZeros v).getLast? ≠ some 0 := by
  unfold stripTrailingZeros
  intro h
  rw [List.getLast?_reverse] at h
  rcases hd : v.reverse.dropWhile (fun d => d = 0) with _ | ⟨a, rest⟩
  · rw [hd] at h; simp at h
  · rw [hd] at h
    simp only [List.head?_cons, Option.some.injEq] at h
    subst h
    have := List.head?_dropWhile_not (fun d => decide (d = 0)) v.reverse
    rw [hd] at this
    simp at this

/-- `BigUint.new` always yields a normalized value. -/
theorem normal_new (v : List Nat) : Normal (BigUint.new v) := by
  unfold Normal
  rw [new_data_eq_strip]
  exact strip_getLast_ne_zero v

/-- `BigUint.new` keeps digit bounds. -/
theorem bounded_new (v : List Nat) (h : ∀ d ∈ v, d < digitBase) :
    Bounded (BigUint.new v) := by
  intro d hd
  exact h d (List.mem_of_mem_take hd)

/-- Appending a zero digit does not change the value. -/
theorem listVal_append_zero (v : List Nat) : listVal (v ++ [0]) = listVal v := by
  induction v with
  | nil => rfl
  | cons y ys ihy =>
    show y + digitBase * listVal (ys ++ [0]) = y + digitBase * listVal ys
    rw [ihy]

/-- Stripping trailing zeros does not change the value. -/
theorem listVal_strip (v : List Nat) : listVal (stripTrailingZeros v) = listVal v := by
  induction v using List.reverseRecOn with
  | nil => rfl
  | append_singleton xs x ih =>
    by_cases hx : x = 0
    · subst hx
      unfold stripTrailingZeros at *
      rw [List.reverse_append]
      simp only [List.reverse_singleton, List.singleton_append, List.dropWhile_cons]
      rw [if_pos (by simp)]
      rw [ih, listVal_append_zero]
    · unfold stripTrailingZeros
      rw [List.reverse_append]
      simp only [List.reverse_singleton, List.singleton_append, List.dropWhile_cons]
      rw [if_neg (by simpa using hx)]
      simp

/-- Value of `new v` equals the value of `v`. -/
theorem new_toVal (v : List Nat) : (BigUint.new v).toVal = listVal v := by
  show listVal (BigUint.new v).data = listVal v
  rw [new_data_eq_strip]
  exact listVal_strip v

theorem toVal_eq_listVal (u : BigUint) : u.toVal = listVal u.data := rfl

theorem listVal_nil : listVal [] = 0 := rfl

theorem listVal_cons (d : Nat) (v : List Nat) :
    listVal (d :: v) = d + digitBase * listVal v := rfl

/-- Bound on the value of a digit list by its length. -/
theorem listVal_lt (v : List Nat) (h : ∀ d ∈ v, d < digitBase) :
    listVal v < digitBase ^ v.length := by
  induction v with
  | nil => simp [listVal]
  | cons d rest ih =>
    have hd : d < digitBase := h d (by simp)
    have hrest : listVal rest < digitBase ^ rest.length :=
      ih (fun x hx => h x (by simp [hx]))
    rw [listVal_cons, List.length_cons, pow_succ]
    have h1 : d + digitBase * listVal rest < digitBase * (listVal rest + 1) := by
      rw [Nat.mul_succ]; omega
    have h2 : digitBase * (listVal rest + 1) ≤ digitBase * digitBase ^ rest.length :=
      Nat.mul_le_mul_left _ hrest
    exact lt_of_lt_of_le h1 (h2.trans_eq (by ring))

/-- Lower bound: a normalized nonempty digit list has value at least
`base^(len-1)`. -/
theorem listVal_ge_of_normal (v : List Nat) (hne : v ≠ [])
    (hn : v.getLast? ≠ some 0) : digitBase ^ (v.length - 1) ≤ listVal v := by
  induction v with
  | nil => exact absurd rfl hne
  | cons d rest ih =>
    rcases hrest : rest with _ | ⟨e, rest2⟩
    · subst hrest
      simp only [List.getLast?_singleton, ne_eq, Option.some.injEq] at hn
      show digitBase ^ (1 - 1) ≤ listVal [d]
      simp only [listVal_cons, listVal_nil, Nat.sub_self, pow_zero]
      omega
    · subst hrest
      have hlast : (e :: rest2).getLast? ≠ some 0 := by
        rwa [List.getLast?_cons_cons] at hn
      have := ih (by simp) hlast
      simp only [List.length_cons, listVal_cons] at *
      have hpow : digitBase ^ (rest2.length + 1 - 1 + 1) = digitBase * digitBase ^ rest2.length := by
        rw [Nat.add_sub_cancel, pow_succ, Nat.mul_comm]
      simp only [Nat.add_sub_cancel] at *
      rw [hpow]
      have := Nat.mul_le_mul_left digitBase this
      omega

/-- The tail of a no-trailing-zero list again has no trailing zero. -/
theorem getLast_tail_ne (d : Nat) (rest : List Nat)
    (h : (d :: rest).getLast? ≠ some 0) : rest.getLast? ≠ some 0 := by
  rcases rest with _ | ⟨y, ys⟩
  · simp
  · rwa [List.getLast?_cons_cons] at h

/-- Canonical representation on digit lists: bounded lists with no trailing
zero and equal values are equal. -/
theorem listVal_inj (va : List Nat) : ∀ vb : List Nat,
    (∀ d ∈ va, d < digitBase) → va.getLast? ≠ some 0 →
    (∀ d ∈ vb, d < digitBase) → vb.getLast? ≠ some 0 →
    listVal va = listVal vb → va = vb := by
  induction va with
  | nil =>
    intro vb _ _ hbb hbn h
    rcases vb with _ | ⟨d, rest⟩
    · rfl
    · exfalso
      have hge := listVal_ge_of_normal (d :: rest) (by simp) hbn
      have hpow : 1 ≤ digitBase ^ ((d :: rest).length - 1) := Nat.one_le_pow _ _ digitBase_pos
      simp only [listVal_nil] at h
      omega
  | cons d rest ih =>
    intro vb hab han hbb hbn h
    rcases vb with _ | ⟨e, rest2⟩
    · exfalso
      have hge := listVal_ge_of_normal (d :: rest) (by simp) han
      have hpow : 1 ≤ digitBase ^ ((d :: rest).length - 1) := Nat.one_le_pow _ _ digitBase_pos
      simp only [listVal_nil] at h
      omega
    · simp only [listVal_cons] at h
      have hd : d < digitBase := hab d (by simp)
      have he : e < digitBase := hbb e (by simp)
      have hmod : d = e := by
        have h1 : (d + digitBase * listVal rest) % digitBase = d := by
          rw [Nat.add_mul_mod_self_left, Nat.mod_eq_of_lt hd]
        have h2 : (e + digitBase * listVal rest2) % digitBase = e := by
          rw [Nat.add_mul_mod_self_left, Nat.mod_eq_of_lt he]
        rw [← h1, ← h2, h]
      subst hmod
      have hrec : listVal rest = listVal rest2 :=
        Nat.eq_of_mul_eq_mul_left digitBase_pos (by omega)
      have := ih rest2 (fun x hx => hab x (by simp [hx])) (getLast_tail_ne d rest han)
        (fun x hx => hbb x (by simp [hx])) (getLast_tail_ne d rest2 hbn) hrec
      rw [this]

/-- Canonical representation: two well-formed values with the same
denotation are equal. -/
theorem wf_val_inj (a b : BigUint) (ha : WF a) (hb : WF b)
    (h : a.toVal = b.toVal) : a = b := by
  rcases a with ⟨va⟩
  rcases b with ⟨vb⟩
  congr 1
  exact listVal_inj va vb ha.1 ha.2 hb.1 hb.2 h

/-- Splitting a machine word: the truncation is the identity below `2^64`. -/
theorem fromUint_spec (n : Nat) (h : n < 2 ^ uintBits) :
    fromUint n = (n / digitBase, n % digitBase) := by
  simp [fromUint, Nat.mod_eq_of_lt h]

theorem digitBase_sq : digitBase * digitBase = 2 ^ uintBits := by decide

/-- Digit-wise sum with carry: the `vec::from_fn(new_len)` loop of the
`Add` impl for BigUint (digits read as 0 beyond each operand's length),
with the final nonzero carry appended as one more digit. -/
def addData : List Nat → List Nat → Nat → List Nat
  | [], [], carry => if carry = 0 then [] else [carry]
  | [], bi :: bs, carry =>
    let p := fromUint (bi + carry)
    p.2 :: addData [] bs p.1
  | ai :: as_, [], carry =>
    let p := fromUint (ai + carry)
    p.2 :: addData as_ [] p.1
  | ai :: as_, bi :: bs, carry =>
    let p := fromUint (ai + bi + carry)
    p.2 :: addData as_ bs p.1

/-- Source `Add<BigUint, BigUint>`: digit-wise sum, normalized. -/
def BigUint.add (a b : BigUint) : BigUint := BigUint.new (addData a.data b.data 0)

/-- Carry/value invariant of the addition loop. -/
theorem addData_spec (xs : List Nat) : ∀ ys c, (∀ d ∈ xs, d < digitBase) →
    (∀ d ∈ ys, d < digitBase) → c < digitBase →
    listVal (addData xs ys c) = listVal xs + listVal ys + c ∧
    (∀ d ∈ addData xs ys c, d < digitBase) := by
  have hB2 : digitBase * digitBase = 2 ^ uintBits := digitBase_sq
  induction xs with
  | nil =>
    intro ys
    induction ys with
    | nil =>
      intro c _ _ hc
      unfold addData
      by_cases h0 : c = 0
      · subst h0; simp [listVal]
      · rw [if_neg h0]
        constructor
        · simp [listVal_cons, listVal_nil]
        · intro d hd; simp only [List.mem_singleton] at hd; omega
    | cons b bs ih =>
      intro c _ hys hc
      have hb : b < digitBase := hys b (by simp)
      have hlt : b + c < 2 ^ uintBits := by
        have h1 : b + c < digitBase * digitBase := by nlinarith [digitBase_gt_one]
        omega
      have hsplit := fromUint_spec (b + c) hlt
      have hcar : (b + c) / digitBase < digitBase := by
        apply Nat.div_lt_of_lt_mul
        omega
      obtain ⟨ihv, ihb⟩ := ih ((b + c) / digitBase) (by intro d hd; simp at hd)
        (fun d hd => hys d (by simp [hd])) hcar
      unfold addData
      rw [hsplit]
      constructor
      · simp only [listVal_cons, listVal_nil]
        rw [ihv]
        simp only [listVal_nil, listVal_cons]
        have := Nat.div_add_mod (b + c) digitBase
        ring_nf
        omega
      · intro d hd
        rcases List.mem_cons.mp hd with h | h
        · subst h; exact Nat.mod_lt _ digitBase_pos
        · exact ihb d h
  | cons a as_ ihx =>
    intro ys c hxs hys hc
    have ha : a < digitBase := hxs a (by simp)
    rcases ys with _ | ⟨b, bs⟩
    · have hlt : a + c < 2 ^ uintBits := by
        have h1 : a + c < digitBase * digitBase := by nlinarith [digitBase_gt_one]
        omega
      have hsplit := fromUint_spec (a + c) hlt
      have hcar : (a + c) / digitBase < digitBase := by
        apply Nat.div_lt_of_lt_mul; omega
      obtain ⟨ihv, ihb⟩ := ihx [] ((a + c) / digitBase)
        (fun d hd => hxs d (by simp [hd])) (by intro d hd; simp at hd) hcar
      unfold addData
      rw [hsplit]
      constructor
      · simp only [listVal_cons, listVal_nil]
        rw [ihv]
        simp only [listVal_nil]
        have := Nat.div_add_mod (a + c) digitBase
        ring_nf
        omega
      · intro d hd
        rcases List.mem_cons.mp hd with h | h
        · subst h; exact Nat.mod_lt _ digitBase_pos
        · exact ihb d h
    · have hb : b < digitBase := hys b (by simp)
      have hlt : a + b + c < 2 ^ uintBits := by
        have h1 : a + b + c < digitBase * digitBase := by nlinarith [digitBase_gt_one]
        omega
      have hsplit := fromUint_spec (a + b + c) hlt
      have hcar : (a + b + c) / digitBase < digitBase := by
        apply Nat.div_lt_of_lt_mul
        nlinarith [digitBase_gt_one]
      obtain ⟨ihv, ihb⟩ := ihx bs ((a + b + c) / digitBase)
        (fun d hd => hxs d (by simp [hd])) (fun d hd => hys d (by simp [hd])) hcar
      unfold addData
      rw [hsplit]
      constructor
      · simp only [listVal_cons]
        rw [ihv]
        have := Nat.div_add_mod (a + b + c) digitBase
        ring_nf
        omega
      · intro d hd
        rcases List.mem_cons.mp hd with h | h
        · subst h; exact Nat.mod_lt _ digitBase_pos
        · exact ihb d h

/-- Value of BigUint addition. -/
theorem add_toVal (a b : BigUint) (ha : Bounded a) (hb : Bounded b) :
    (BigUint.add a b).toVal = a.toVal + b.toVal := by
  unfold BigUint.add
  rw [new_toVal]
  have := (addData_spec a.data b.data 0 ha hb digitBase_pos).1
  simp only [toVal_eq_listVal]
  omega

/-- BigUint addition yields a well-formed value. -/
theorem add_wf (a b : BigUint) (ha : Bounded a) (hb : Bounded b) :
    WF (BigUint.add a b) := by
  constructor
  · exact bounded_new _ (addData_spec a.data b.data 0 ha hb digitBase_pos).2
  · exact normal_new _

/-- Digit-wise difference with borrow: the `vec::from_fn(new_len)` loop of
the `Sub` impl for BigUint (`from_uint(base + ai - bi - borrow)`; the next
borrow is 1 exactly when the split's high digit is 0).  Returns the digit
vector together with the final borrow, on which the source asserts
`fail_unless!(borrow == 0)`. -/
def subData : List Nat → List Nat → Nat → List Nat × Nat
  | [], [], borrow => ([], borrow)
  | [], bi :: bs, borrow =>
    let p := fromUint (digitBase + 0 - (bi + borrow))
    let rest := subData [] bs (if p.1 = 0 then 1 else 0)
    (p.2 :: rest.1, rest.2)
  | ai :: as_, [], borrow =>
    let p := fromUint (digitBase + ai - (0 + borrow))
    let rest := subData as_ [] (if p.1 = 0 then 1 else 0)
    (p.2 :: rest.1, rest.2)
  | ai :: as_, bi :: bs, borrow =>
    let p := fromUint (digitBase + ai - (bi + borrow))
    let rest := subData as_ bs (if p.1 = 0 then 1 else 0)
    (p.2 :: rest.1, rest.2)

/-- Source `Sub<BigUint, BigUint>`: digit-wise difference; the final
`fail_unless!(borrow == 0)` (equivalent to `a >= b`) is a fatal failure,
modelled as `none`. -/
def BigUint.sub? (a b : BigUint) : Option BigUint :=
  let r := subData a.data b.data 0
  if r.2 = 0 then some (BigUint.new r.1) else none

/-- The difference vector of the `Sub` loop without the final assertion;
used to embed internal call sites (Karatsuba's `sub_sign`) at which the
source has already established `a >= b` so the assertion cannot fire. -/
def BigUint.subUnchecked (a b : BigUint) : BigUint :=
  BigUint.new (subData a.data b.data 0).1

/-- One digit of the subtraction loop: the low split digit restores the
minuend digit up to the produced borrow. -/
theorem subStep (x y c : Nat) (hx : x < digitBase) (hy : y < digitBase) (hc : c ≤ 1) :
    (fromUint (digitBase + x - (y + c))).2 + (y + c) =
      x + (if (fromUint (digitBase + x - (y + c))).1 = 0 then 1 else 0) * digitBase ∧
    (fromUint (digitBase + x - (y + c))).2 < digitBase := by
  have hB2 : digitBase * digitBase = 2 ^ uintBits := digitBase_sq
  have hB1 : 1 < digitBase := digitBase_gt_one
  set s := digitBase + x - (y + c) with hs
  have hseq : s + (y + c) = digitBase + x := by omega
  have harg : s < 2 ^ uintBits := by nlinarith
  have hsplit := fromUint_spec s harg
  rw [hsplit]
  have hdm := Nat.div_add_mod s digitBase
  have hhi : s / digitBase ≤ 1 := by
    apply Nat.le_of_lt_succ
    apply Nat.div_lt_of_lt_mul
    omega
  refine ⟨?_, Nat.mod_lt _ digitBase_pos⟩
  by_cases h0 : s / digitBase = 0
  · rw [if_pos h0]
    rw [h0, Nat.mul_zero, Nat.zero_add] at hdm
    omega
  · have h1 : s / digitBase = 1 := Nat.le_antisymm hhi (Nat.one_le_iff_ne_zero.mpr h0)
    rw [if_neg h0]
    rw [h1, Nat.mul_one] at hdm
    omega

/-- Borrow/value invariant of the subtraction loop: the digit result plus
the subtrahend and incoming borrow equals the minuend plus the final borrow
at weight `base^len`. -/
theorem subData_spec (xs : List Nat) : ∀ ys c, (∀ d ∈ xs, d < digitBase) →
    (∀ d ∈ ys, d < digitBase) → c ≤ 1 →
    (subData xs ys c).2 ≤ 1 ∧
    (subData xs ys c).1.length = max xs.length ys.length ∧
    (∀ d ∈ (subData xs ys c).1, d < digitBase) ∧
    listVal (subData xs ys c).1 + (listVal ys + c) =
      listVal xs + (subData xs ys c).2 * digitBase ^ (max xs.length ys.length) := by
  induction xs with
  | nil =>
    intro ys
    induction ys with
    | nil =>
      intro c _ _ hc
      simp only [subData]
      refine ⟨hc, by simp, by intro d hd; simp at hd, ?_⟩
      simp [listVal_nil]
    | cons b bs ih =>
      intro c _ hys hc
      have hb : b < digitBase := hys b (by simp)
      obtain ⟨hstep, hlo⟩ := subStep 0 b c digitBase_pos hb hc
      simp only [subData]
      set brw := (if (fromUint (digitBase + 0 - (b + c))).1 = 0 then 1 else 0) with hbrw
      have hbrw1 : brw ≤ 1 := by rw [hbrw]; split <;> omega
      obtain ⟨ih2, ihlen, ihb, ihv⟩ := ih brw (by intro d hd; simp at hd)
        (fun d hd => hys d (by simp [hd])) hbrw1
      simp only [List.length_nil, listVal_nil] at ihv
      refine ⟨ih2, ?_, ?_, ?_⟩
      · simp only [List.length_cons, ihlen]
        simp
      · intro d hd
        rcases List.mem_cons.mp hd with h | h
        · subst h; exact hlo
        · exact ihb d h
      · simp only [listVal_cons, listVal_nil, List.length_nil, List.length_cons]
        have hmax : max 0 (bs.length + 1) = max 0 bs.length + 1 := by simp
        rw [hmax, pow_succ]
        have ihvB := congrArg (fun t => digitBase * t) ihv
        simp only [Nat.mul_add] at ihvB
        set P := listVal (subData [] bs brw).1
        set Y := listVal bs
        set r := (subData [] bs brw).2
        set K := digitBase ^ (max 0 bs.length)
        ring_nf at ihvB hstep ⊢
        linarith [ihvB, hstep]
  | cons a as_ ihx =>
    intro ys c hxs hys hc
    have ha : a < digitBase := hxs a (by simp)
    rcases ys with _ | ⟨b, bs⟩
    · obtain ⟨hstep, hlo⟩ := subStep a 0 c ha digitBase_pos hc
      simp only [subData]
      set brw := (if (fromUint (digitBase + a - (0 + c))).1 = 0 then 1 else 0) with hbrw
      have hbrw1 : brw ≤ 1 := by rw [hbrw]; split <;> omega
      obtain ⟨ih2, ihlen, ihb, ihv⟩ := ihx [] brw
        (fun d hd => hxs d (by simp [hd])) (by intro d hd; simp at hd) hbrw1
      simp only [List.length_nil, listVal_nil] at ihv
      refine ⟨ih2, ?_, ?_, ?_⟩
      · simp only [List.length_cons, ihlen]
        simp
      · intro d hd
        rcases List.mem_cons.mp hd with h | h
        · subst h; exact hlo
        · exact ihb d h
      · simp only [listVal_cons, listVal_nil, List.length_nil, List.length_cons]
        have hmax : max (as_.length + 1) 0 = max as_.length 0 + 1 := by simp
        rw [hmax, pow_succ]
        have ihvB := congrArg (fun t => digitBase * t) ihv
        simp only [Nat.mul_add] at ihvB
        set P := listVal (subData as_ [] brw).1
        set X := listVal as_
        set r := (subData as_ [] brw).2
        set K := digitBase ^ (max as_.length 0)
        ring_nf at ihvB hstep ⊢
        linarith [ihvB, hstep]
    · have hb : b < digitBase := hys b (by simp)
      obtain ⟨hstep, hlo⟩ := subStep a b c ha hb hc
      simp only [subData]
      set brw := (if (fromUint (digitBase + a - (b + c))).1 = 0 then 1 else 0) with hbrw
      have hbrw1 : brw ≤ 1 := by rw [hbrw]; split <;> omega
      obtain ⟨ih2, ihlen, ihb, ihv⟩ := ihx bs brw
        (fun d hd => hxs d (by simp [hd])) (fun d hd => hys d (by simp [hd])) hbrw1
      refine ⟨ih2, ?_, ?_, ?_⟩
      · simp only [List.length_cons, ihlen]
        omega
      · intro d hd
        rcases List.mem_cons.mp hd with h | h
        · subst h; exact hlo
        · exact ihb d h
      · simp only [listVal_cons, List.length_cons]
        have hmax : max (as_.length + 1) (bs.length + 1) = max as_.length bs.length + 1 := by
          omega
        rw [hmax, pow_succ]
        have ihvB := congrArg (fun t => digitBase * t) ihv
        simp only [Nat.mul_add] at ihvB
        set P := listVal (subData as_ bs brw).1
        set X := listVal as_
        set Y := listVal bs
        set r := (subData as_ bs brw).2
        set K := digitBase ^ (max as_.length bs.length)
        ring_nf at ihvB hstep ⊢
        linarith [ihvB, hstep]

/-- Length produced by `BigUint.new` never exceeds the input length. -/
theorem new_length_le (v : List Nat) : (BigUint.new v).data.length ≤ v.length := by
  show (v.take (lastNonzeroLen v)).length ≤ v.length
  simp [List.length_take]

/-- The success case of `sub?`: `a >= b` makes the assertion pass and the
difference restore the minuend, and the result is `subUnchecked`. -/
theorem sub?_of_le (a b : BigUint) (ha : Bounded a) (hb : Bounded b)
    (h : b.toVal ≤ a.toVal) :
    BigUint.sub? a b = some (BigUint.subUnchecked a b) ∧
    (BigUint.subUnchecked a b).toVal + b.toVal = a.toVal ∧
    WF (BigUint.subUnchecked a b) := by
  obtain ⟨hbrw, hlen, hdig, hval⟩ := subData_spec a.data b.data 0 ha hb (by omega)
  have hbz : (subData a.data b.data 0).2 = 0 := by
    by_contra hne
    have h1 : (subData a.data b.data 0).2 = 1 := by omega
    rw [h1, one_mul] at hval
    have hlt : listVal (subData a.data b.data 0).1 <
        digitBase ^ (max a.data.length b.data.length) := by
      have := listVal_lt (subData a.data b.data 0).1 hdig
      rwa [hlen] at this
    simp only [toVal_eq_listVal] at h
    omega
  refine ⟨?_, ?_, ?_⟩
  · unfold BigUint.sub? BigUint.subUnchecked
    rw [if_pos hbz]
  · unfold BigUint.subUnchecked
    rw [new_toVal]
    rw [hbz] at hval
    simp only [toVal_eq_listVal]
    omega
  · exact ⟨bounded_new _ hdig, normal_new _⟩

/-- The failure case of `sub?`: `a < b` fires the borrow assertion. -/
theorem sub?_of_lt (a b : BigUint) (ha : Bounded a) (hb : Bounded b)
    (h : a.toVal < b.toVal) : BigUint.sub? a b = none := by
  obtain ⟨hbrw, hlen, hdig, hval⟩ := subData_spec a.data b.data 0 ha hb (by omega)
  have hbz : (subData a.data b.data 0).2 ≠ 0 := by
    intro h0
    rw [h0] at hval
    simp only [toVal_eq_listVal] at h
    omega
  unfold BigUint.sub?
  rw [if_neg hbz]

/-- Most-significant-first digit comparison: the `rev_eachi` loop inside
`BigUint::cmp` (first differing digit decides; all equal means 0). -/
def cmpDigitsRev : List Nat → List Nat → Int
  | [], _ => 0
  | _ :: _, [] => 0
  | l :: ls, r :: rs =>
    if l < r then -1 else if r < l then 1 else cmpDigitsRev ls rs

/-- Source `BigUint::cmp`: unequal lengths decide the result, else compare
digit-wise from most significant. -/
def BigUint.cmp (a b : BigUint) : Int :=
  if a.data.length < b.data.length then -1
  else if b.data.length < a.data.length then 1
  else cmpDigitsRev a.data.reverse b.data.reverse

/-- Most-significant-first value of a digit list (proof device used to read
`cmpDigitsRev` numerically). -/
def msfVal (v : List Nat) : Nat := v.foldl (fun acc d => acc * digitBase + d) 0

theorem msfVal_foldl_init (xs : List Nat) : ∀ a : Nat,
    xs.foldl (fun acc d => acc * digitBase + d) a =
      a * digitBase ^ xs.length + msfVal xs := by
  induction xs with
  | nil => intro a; simp [msfVal]
  | cons x xs ih =>
    intro a
    show xs.foldl _ (a * digitBase + x) = _
    rw [ih (a * digitBase + x)]
    have h2 : msfVal (x :: xs) = x * digitBase ^ xs.length + msfVal xs := by
      show xs.foldl _ (0 * digitBase + x) = _
      rw [ih (0 * digitBase + x)]
      ring
    rw [List.length_cons, h2]
    ring

theorem msfVal_cons (x : Nat) (xs : List Nat) :
    msfVal (x :: xs) = x * digitBase ^ xs.length + msfVal xs := by
  show xs.foldl _ (0 * digitBase + x) = _
  rw [msfVal_foldl_init xs (0 * digitBase + x)]
  ring

theorem msfVal_append_singleton (v : List Nat) (d : Nat) :
    msfVal (v ++ [d]) = msfVal v * digitBase + d := by
  unfold msfVal
  rw [List.foldl_append]
  rfl

/-- MSF value of the reverse is the little-endian value. -/
theorem msfVal_reverse (v : List Nat) : msfVal v.reverse = listVal v := by
  induction v with
  | nil => rfl
  | cons d rest ih =>
    rw [List.reverse_cons, msfVal_append_singleton, ih, listVal_cons]
    ring

theorem msfVal_lt (xs : List Nat) (h : ∀ d ∈ xs, d < digitBase) :
    msfVal xs < digitBase ^ xs.length := by
  induction xs with
  | nil => simp [msfVal]
  | cons x xs ih =>
    rw [msfVal_cons, List.length_cons, pow_succ]
    have hx : x < digitBase := h x (by simp)
    have hxs := ih (fun d hd => h d (by simp [hd]))
    have h1 : x * digitBase ^ xs.length + msfVal xs <
        (x + 1) * digitBase ^ xs.length := by
      rw [Nat.succ_mul]
      omega
    have h2 : (x + 1) * digitBase ^ xs.length ≤ digitBase * digitBase ^ xs.length :=
      Nat.mul_le_mul_right _ (by omega)
    calc x * digitBase ^ xs.length + msfVal xs
        < (x + 1) * digitBase ^ xs.length := h1
      _ ≤ digitBase * digitBase ^ xs.length := h2
      _ = digitBase ^ xs.length * digitBase := by ring

/-- The rev comparison loop decides the MSF order of equal-length bounded
digit lists. -/
theorem cmpDigitsRev_spec (xs : List Nat) : ∀ ys : List Nat,
    xs.length = ys.length → (∀ d ∈ xs, d < digitBase) → (∀ d ∈ ys, d < digitBase) →
    (cmpDigitsRev xs ys = -1 ∧ msfVal xs < msfVal ys) ∨
    (cmpDigitsRev xs ys = 0 ∧ msfVal xs = msfVal ys) ∨
    (cmpDigitsRev xs ys = 1 ∧ msfVal ys < msfVal xs) := by
  induction xs with
  | nil =>
    intro ys hlen _ _
    have : ys = [] := by
      rcases ys with _ | ⟨y, ys⟩
      · rfl
      · simp at hlen
    subst this
    right; left
    exact ⟨rfl, rfl⟩
  | cons l ls ih =>
    intro ys hlen hxs hys
    rcases ys with _ | ⟨r, rs⟩
    · simp at hlen
    · have hlen2 : ls.length = rs.length := by simpa using hlen
      have hl : l < digitBase := hxs l (by simp)
      have hr : r < digitBase := hys r (by simp)
      have hmls := msfVal_lt ls (fun d hd => hxs d (by simp [hd]))
      have hmrs := msfVal_lt rs (fun d hd => hys d (by simp [hd]))
      rcases Nat.lt_trichotomy l r with hlr | hlr | hlr
      · left
        constructor
        · unfold cmpDigitsRev
          rw [if_pos hlr]
        · rw [msfVal_cons, msfVal_cons, hlen2]
          have h1 : l * digitBase ^ rs.length + msfVal ls <
              (l + 1) * digitBase ^ rs.length := by
            rw [Nat.succ_mul]
            rw [hlen2] at hmls
            omega
          have h2 : (l + 1) * digitBase ^ rs.length ≤ r * digitBase ^ rs.length :=
            Nat.mul_le_mul_right _ (by omega)
          omega
      · subst hlr
        have := ih rs hlen2 (fun d hd => hxs d (by simp [hd]))
          (fun d hd => hys d (by simp [hd]))
        have hcmp : cmpDigitsRev (l :: ls) (l :: rs) = cmpDigitsRev ls rs := by
          show (if l < l then (-1 : Int) else if l < l then 1 else cmpDigitsRev ls rs) = _
          rw [if_neg (lt_irrefl l), if_neg (lt_irrefl l)]
        rw [hcmp, msfVal_cons, msfVal_cons, hlen2]
        rcases this with ⟨h1, h2⟩ | ⟨h1, h2⟩ | ⟨h1, h2⟩
        · left; exact ⟨h1, by omega⟩
        · right; left; exact ⟨h1, by omega⟩
        · right; right; exact ⟨h1, by omega⟩
      · right; right
        constructor
        · unfold cmpDigitsRev
          rw [if_neg (by omega), if_pos hlr]
        · rw [msfVal_cons, msfVal_cons, hlen2]
          have h1 : r * digitBase ^ rs.length + msfVal rs <
              (r + 1) * digitBase ^ rs.length := by
            rw [Nat.succ_mul]
            omega
          have h2 : (r + 1) * digitBase ^ rs.length ≤ l * digitBase ^ rs.length :=
            Nat.mul_le_mul_right _ (by omega)
          omega

/-- `BigUint::cmp` decides the numerical order of well-formed values. -/
theorem cmp_spec (a b : BigUint) (ha : WF a) (hb : WF b) :
    (a.cmp b = -1 ∧ a.toVal < b.toVal) ∨
    (a.cmp b = 0 ∧ a.toVal = b.toVal) ∨
    (a.cmp b = 1 ∧ b.toVal < a.toVal) := by
  unfold BigUint.cmp
  have hlt : ∀ x y : BigUint, WF x → WF y → x.data.length < y.data.length →
      x.toVal < y.toVal := by
    intro x y hx hy hl
    have h1 : x.toVal < digitBase ^ x.data.length := listVal_lt x.data hx.1
    have hyne : y.data ≠ [] := by
      intro h
      rw [h] at hl
      simp at hl
    have h2 : digitBase ^ (y.data.length - 1) ≤ y.toVal :=
      listVal_ge_of_normal y.data hyne hy.2
    have h3 : digitBase ^ x.data.length ≤ digitBase ^ (y.data.length - 1) :=
      Nat.pow_le_pow_right digitBase_pos (by omega)
    simp only [toVal_eq_listVal] at *
    omega
  by_cases h1 : a.data.length < b.data.length
  · rw [if_pos h1]
    left
    exact ⟨rfl, hlt a b ha hb h1⟩
  · rw [if_neg h1]
    by_cases h2 : b.data.length < a.data.length
    · rw [if_pos h2]
      right; right
      exact ⟨rfl, hlt b a hb ha h2⟩
    · rw [if_neg h2]
      have hlen : a.data.reverse.length = b.data.reverse.length := by
        simp only [List.length_reverse]
        omega
      have := cmpDigitsRev_spec a.data.reverse b.data.reverse hlen
        (by intro d hd; exact ha.1 d (List.mem_reverse.mp hd))
        (by intro d hd; exact hb.1 d (List.mem_reverse.mp hd))
      rw [msfVal_reverse, msfVal_reverse] at this
      simpa only [toVal_eq_listVal] using this

/-- Convenient order-reading corollaries of `cmp_spec`. -/
theorem cmp_lt_iff (a b : BigUint) (ha : WF a) (hb : WF b) :
    a.cmp b < 0 ↔ a.toVal < b.toVal := by
  rcases cmp_spec a b ha hb with ⟨h1, h2⟩ | ⟨h1, h2⟩ | ⟨h1, h2⟩ <;>
    rw [h1] <;> constructor <;> intro h <;> omega

theorem cmp_eq_zero_iff (a b : BigUint) (ha : WF a) (hb : WF b) :
    a.cmp b = 0 ↔ a.toVal = b.toVal := by
  rcases cmp_spec a b ha hb with ⟨h1, h2⟩ | ⟨h1, h2⟩ | ⟨h1, h2⟩ <;>
    rw [h1] <;> constructor <;> intro h <;> omega

theorem cmp_pos_iff (a b : BigUint) (ha : WF a) (hb : WF b) :
    0 < a.cmp b ↔ b.toVal < a.toVal := by
  rcases cmp_spec a b ha hb with ⟨h1, h2⟩ | ⟨h1, h2⟩ | ⟨h1, h2⟩ <;>
    rw [h1] <;> constructor <;> intro h <;> omega

theorem cmp_ge_iff (a b : BigUint) (ha : WF a) (hb : WF b) :
    0 ≤ a.cmp b ↔ b.toVal ≤ a.toVal := by
  rcases cmp_spec a b ha hb with ⟨h1, h2⟩ | ⟨h1, h2⟩ | ⟨h1, h2⟩ <;>
    rw [h1] <;> constructor <;> intro h <;> omega

/-- Source `shl_unit`: prepend `n_unit` zero digits (no-op on 0 or zero). -/
def BigUint.shl_unit (a : BigUint) (n_unit : Nat) : BigUint :=
  if n_unit = 0 || a.data.isEmpty then a
  else BigUint.new (List.replicate n_unit 0 ++ a.data)

/-- One digit of the `shl_bits` map: `(elem as uint) << n_bits | carry`,
split into `(hi, lo)`.  Returns the digit list and final carry. -/
def shlBitsData : List Nat → Nat → Nat → List Nat × Nat
  | [], _, carry => ([], carry)
  | e :: rest, n, carry =>
    let p := fromUint ((e <<< n) ||| carry)
    let r := shlBitsData rest n p.1
    (p.2 :: r.1, r.2)

/-- Source `shl_bits`: sub-digit left shift with carry propagation; a final
nonzero carry appends one digit (no-op on 0 or zero). -/
def BigUint.shl_bits (a : BigUint) (n_bits : Nat) : BigUint :=
  if n_bits = 0 || a.data.isEmpty then a
  else
    let r := shlBitsData a.data n_bits 0
    if r.2 = 0 then BigUint.new r.1 else BigUint.new (r.1 ++ [r.2])

/-- Source `Shl<uint, BigUint>`: whole-digit shift then sub-digit shift. -/
def BigUint.shl (a : BigUint) (rhs : Nat) : BigUint :=
  (a.shl_unit (rhs / digitBits)).shl_bits (rhs % digitBits)

/-- Source `shr_unit`: drop `n_unit` low digits; zero if fewer digits. -/
def BigUint.shr_unit (a : BigUint) (n_unit : Nat) : BigUint :=
  if n_unit = 0 then a
  else if a.data.length < n_unit then BigUint.zero
  else BigUint.from_slice (a.data.drop n_unit)

/-- A u32 left shift as compiled on x86_64: the shift amount is taken
mod 32 by the hardware and the result truncated to 32 bits.  This is the
behaviour the source's own x86_64 `test_shr` vectors rely on for the
expression `*elem << (uint::bits - n_bits)` (a u32 shifted by 33..63). -/
def u32shl (x s : Nat) : Nat := (x <<< (s % 32)) % digitBase

/-- The `rev_each` loop of `shr_bits`, processing digits most significant
first: each digit is shifted down and receives the previous digit's
underflow bits as its high part. -/
def shrBitsGo (n_bits : Nat) : List Nat → Nat → List Nat
  | [], _ => []
  | e :: rest, borrow =>
    ((e >>> n_bits) ||| borrow) :: shrBitsGo n_bits rest (u32shl e (uintBits - n_bits))

/-- Source `shr_bits`: sub-digit right shift with borrow propagation
(no-op on 0 or empty). -/
def BigUint.shr_bits (a : BigUint) (n_bits : Nat) : BigUint :=
  if n_bits = 0 || a.data.isEmpty then a
  else BigUint.new (shrBitsGo n_bits a.data.reverse 0).reverse

/-- Source `Shr<uint, BigUint>`: whole-digit shift then sub-digit shift. -/
def BigUint.shr (a : BigUint) (rhs : Nat) : BigUint :=
  (a.shr_unit (rhs / digitBits)).shr_bits (rhs % digitBits)

theorem listVal_replicate_zero_append (n : Nat) (v : List Nat) :
    listVal (List.replicate n 0 ++ v) = digitBase ^ n * listVal v := by
  induction n with
  | zero => simp
  | succ n ih =>
    rw [List.replicate_succ, List.cons_append, listVal_cons, ih, pow_succ]
    ring

/-- Value of the whole-digit left shift. -/
theorem shl_unit_toVal (a : BigUint) (n : Nat) :
    (a.shl_unit n).toVal = a.toVal * digitBase ^ n := by
  unfold BigUint.shl_unit
  by_cases h1 : n = 0
  · subst h1; simp
  · by_cases h2 : a.data.isEmpty
    · rw [if_pos (by simp [h2])]
      have : a.toVal = 0 := by
        rcases a with ⟨d⟩
        rcases d with _ | ⟨x, xs⟩
        · rfl
        · simp [List.isEmpty] at h2
      rw [this]
      simp
    · rw [if_neg (by simp [h1, h2])]
      rw [new_toVal, listVal_replicate_zero_append]
      simp only [toVal_eq_listVal]
      ring

theorem shl_unit_wf (a : BigUint) (n : Nat) (ha : WF a) : WF (a.shl_unit n) := by
  unfold BigUint.shl_unit
  by_cases h1 : n = 0
  · subst h1; simpa using ha
  · by_cases h2 : a.data.isEmpty
    · rw [if_pos (by simp [h2])]; exact ha
    · rw [if_neg (by simp [h1, h2])]
      refine ⟨bounded_new _ ?_, normal_new _⟩
      intro d hd
      rcases List.mem_append.mp hd with h | h
      · have := List.eq_of_mem_replicate h
        subst this
        exact digitBase_pos
      · exact ha.1 d h

/-- Value after dropping the `n` low digits. -/
theorem listVal_drop (v : List Nat) (n : Nat) (h : ∀ d ∈ v, d < digitBase) :
    listVal (v.drop n) = listVal v / digitBase ^ n := by
  induction n generalizing v with
  | zero => simp
  | succ n ih =>
    rcases v with _ | ⟨x, xs⟩
    · simp [listVal_nil]
    · rw [List.drop_succ_cons, ih xs (fun d hd => h d (by simp [hd])), listVal_cons]
      rw [pow_succ, Nat.mul_comm (digitBase ^ n) digitBase, ← Nat.div_div_eq_div_mul]
      congr 1
      have hx : x < digitBase := h x (by simp)
      rw [Nat.add_mul_div_left _ _ digitBase_pos, Nat.div_eq_of_lt hx]
      omega

/-- Value of the whole-digit right shift. -/
theorem shr_unit_toVal (a : BigUint) (n : Nat) (ha : WF a) :
    (a.shr_unit n).toVal = a.toVal / digitBase ^ n := by
  unfold BigUint.shr_unit
  by_cases h1 : n = 0
  · subst h1; simp
  · rw [if_neg h1]
    by_cases h2 : a.data.length < n
    · rw [if_pos h2]
      have hlt : a.toVal < digitBase ^ n := by
        have := listVal_lt a.data ha.1
        have hle : digitBase ^ a.data.length ≤ digitBase ^ n :=
          Nat.pow_le_pow_right digitBase_pos (by omega)
        simp only [toVal_eq_listVal]
        omega
      rw [Nat.div_eq_of_lt hlt]
      rfl
    · rw [if_neg h2]
      unfold BigUint.from_slice
      rw [new_toVal, listVal_drop a.data n ha.1]
      rfl

theorem shr_unit_wf (a : BigUint) (n : Nat) (ha : WF a) : WF (a.shr_unit n) := by
  unfold BigUint.shr_unit
  by_cases h1 : n = 0
  · rw [if_pos h1]; exact ha
  · rw [if_neg h1]
    by_cases h2 : a.data.length < n
    · rw [if_pos h2]
      exact ⟨bounded_new _ (by intro d hd; simp at hd), normal_new _⟩
    · rw [if_neg h2]
      refine ⟨bounded_new _ ?_, normal_new _⟩
      intro d hd
      exact ha.1 d (List.mem_of_mem_drop hd)

theorem listVal_append_singleton (v : List Nat) (x : Nat) :
    listVal (v ++ [x]) = listVal v + digitBase ^ v.length * x := by
  induction v with
  | nil => simp [listVal_cons, listVal_nil]
  | cons d rest ih =>
    rw [List.cons_append, listVal_cons, listVal_cons, ih, List.length_cons, pow_succ]
    ring

/-- Digit/carry invariant of the `shl_bits` map. -/
theorem shlBitsData_spec (xs : List Nat) : ∀ c n, 1 ≤ n → n < digitBits →
    (∀ d ∈ xs, d < digitBase) → c < 2 ^ n →
    (∀ d ∈ (shlBitsData xs n c).1, d < digitBase) ∧
    (shlBitsData xs n c).2 < 2 ^ n ∧
    (shlBitsData xs n c).1.length = xs.length ∧
    listVal (shlBitsData xs n c).1 + digitBase ^ xs.length * (shlBitsData xs n c).2 =
      listVal xs * 2 ^ n + c := by
  induction xs with
  | nil =>
    intro c n h1 h2 hxs hc
    simp only [shlBitsData]
    refine ⟨by intro d hd; simp at hd, hc, by simp, ?_⟩
    simp [listVal_nil]
  | cons e rest ih =>
    intro c n h1 h2 hxs hc
    have he : e < digitBase := hxs e (by simp)
    have hor : (e <<< n) ||| c = e * 2 ^ n + c := by
      rw [Nat.shiftLeft_eq, Nat.mul_comm e (2 ^ n),
        Nat.mul_add_lt_is_or hc e, Nat.mul_comm]
    have hnB : (2 : Nat) ^ n ≤ digitBase := by
      show 2 ^ n ≤ 2 ^ digitBits
      exact Nat.pow_le_pow_right (by omega) (by omega)
    have hval : e * 2 ^ n + c < digitBase * 2 ^ n := by
      have h3 : e * 2 ^ n + c < (e + 1) * 2 ^ n := by
        rw [Nat.succ_mul]; omega
      have h4 : (e + 1) * 2 ^ n ≤ digitBase * 2 ^ n :=
        Nat.mul_le_mul_right _ (by omega)
      omega
    have harg : e * 2 ^ n + c < 2 ^ uintBits := by
      have : digitBase * 2 ^ n ≤ digitBase * digitBase := Nat.mul_le_mul_left _ hnB
      have := digitBase_sq
      omega
    have hsplit : fromUint ((e <<< n) ||| c) =
        ((e * 2 ^ n + c) / digitBase, (e * 2 ^ n + c) % digitBase) := by
      rw [hor]; exact fromUint_spec _ harg
    have hcar : (e * 2 ^ n + c) / digitBase < 2 ^ n := by
      apply Nat.div_lt_of_lt_mul
      exact hval
    obtain ⟨ihd, ihc, ihlen, ihv⟩ := ih ((e * 2 ^ n + c) / digitBase) n h1 h2
      (fun d hd => hxs d (by simp [hd])) hcar
    simp only [shlBitsData, hsplit]
    refine ⟨?_, ihc, by simp [ihlen], ?_⟩
    · intro d hd
      rcases List.mem_cons.mp hd with h | h
      · subst h; exact Nat.mod_lt _ digitBase_pos
      · exact ihd d h
    · simp only [listVal_cons, List.length_cons, pow_succ]
      have hdm := Nat.div_add_mod (e * 2 ^ n + c) digitBase
      have ihvB := congrArg (fun t => digitBase * t) ihv
      simp only [Nat.mul_add] at ihvB
      ring_nf at ihvB ⊢
      ring_nf at hdm
      linarith [ihvB, hdm]

/-- Value of the sub-digit left shift (shift amounts below the digit
width, as produced by `rhs % BigDigit::bits`). -/
theorem shl_bits_toVal (a : BigUint) (n : Nat) (ha : WF a) (hn : n < digitBits) :
    (a.shl_bits n).toVal = a.toVal * 2 ^ n ∧ WF (a.shl_bits n) := by
  unfold BigUint.shl_bits
  by_cases h1 : n = 0
  · subst h1; simpa using ha
  · by_cases h2 : a.data.isEmpty
    · rw [if_pos (by simp [h2])]
      have hz : a.toVal = 0 := by
        rcases a with ⟨d⟩
        rcases d with _ | ⟨x, xs⟩
        · rfl
        · simp [List.isEmpty] at h2
      rw [hz]
      simpa [hz] using ha
    · rw [if_neg (by simp [h1, h2])]
      obtain ⟨hd, hc, hlen, hv⟩ := shlBitsData_spec a.data 0 n (by omega) hn ha.1
        (Nat.pos_pow_of_pos n (by omega))
      by_cases h3 : (shlBitsData a.data n 0).2 = 0
      · rw [if_pos h3]
        constructor
        · rw [new_toVal]
          rw [h3, Nat.mul_zero, Nat.add_zero] at hv
          simp only [toVal_eq_listVal]
          omega
        · exact ⟨bounded_new _ hd, normal_new _⟩
      · rw [if_neg h3]
        constructor
        · rw [new_toVal, listVal_append_singleton, hlen]
          simp only [toVal_eq_listVal]
          omega
        · refine ⟨bounded_new _ ?_, normal_new _⟩
          intro d hd2
          rcases List.mem_append.mp hd2 with h | h
          · exact hd d h
          · simp only [List.mem_singleton] at h
            subst h
            have : (2:Nat) ^ n ≤ digitBase :=
              Nat.pow_le_pow_right (by omega) (by omega)
            omega

/-- Value of the BigUint left shift operator. -/
theorem shl_toVal (a : BigUint) (n : Nat) (ha : WF a) :
    (a.shl n).toVal = a.toVal * 2 ^ n ∧ WF (a.shl n) := by
  unfold BigUint.shl
  have hwf1 := shl_unit_wf a (n / digitBits) ha
  have hv1 := shl_unit_toVal a (n / digitBits)
  have hmod : n % digitBits < digitBits := Nat.mod_lt _ (by decide)
  obtain ⟨hv2, hwf2⟩ := shl_bits_toVal (a.shl_unit (n / digitBits)) (n % digitBits) hwf1 hmod
  refine ⟨?_, hwf2⟩
  rw [hv2, hv1]
  have hpow : digitBase ^ (n / digitBits) * 2 ^ (n % digitBits) = 2 ^ n := by
    show (2 ^ digitBits) ^ (n / digitBits) * 2 ^ (n % digitBits) = 2 ^ n
    rw [← pow_mul, ← pow_add]
    congr 1
    exact Nat.div_add_mod n digitBits
  rw [Nat.mul_assoc, hpow]

/-- Digit/borrow invariant of the `shr_bits` loop, on most-significant-first
digit lists: the incoming borrow holds `c` leftover bits at the top of the
digit. -/
theorem shrBitsGo_spec (xs : List Nat) : ∀ c n, 1 ≤ n → n < digitBits →
    (∀ d ∈ xs, d < digitBase) → c < 2 ^ n →
    (∀ d ∈ shrBitsGo n xs (c * 2 ^ (digitBits - n)), d < digitBase) ∧
    (shrBitsGo n xs (c * 2 ^ (digitBits - n))).length = xs.length ∧
    msfVal (shrBitsGo n xs (c * 2 ^ (digitBits - n))) =
      (msfVal xs + c * digitBase ^ xs.length) / 2 ^ n := by
  induction xs with
  | nil =>
    intro c n h1 h2 hxs hc
    simp only [shrBitsGo]
    refine ⟨by intro d hd; simp at hd, by simp, ?_⟩
    simp only [msfVal, List.foldl_nil, List.length_nil, pow_zero, Nat.mul_one]
    rw [Nat.zero_add, Nat.div_eq_of_lt hc]
  | cons e rest ih =>
    intro c n h1 h2 hxs hc
    have he : e < digitBase := hxs e (by simp)
    have hsplitpow : 2 ^ n * 2 ^ (digitBits - n) = digitBase := by
      rw [← pow_add]
      show _ = 2 ^ digitBits
      congr 1
      omega
    -- the u32 shift of the borrow expression
    have hn32 : n < 32 := h2
    have hborrow : u32shl e (uintBits - n) = (e % 2 ^ n) * 2 ^ (digitBits - n) := by
      unfold u32shl
      have hmod32 : (uintBits - n) % 32 = digitBits - n := by
        show (64 - n) % 32 = 32 - n
        omega
      rw [hmod32, Nat.shiftLeft_eq]
      show _ % digitBase = _
      rw [← hsplitpow]
      rw [Nat.mul_mod_mul_right]
    -- the produced digit
    have hq : e >>> n = e / 2 ^ n := Nat.shiftRight_eq_div_pow e n
    have hqlt : e / 2 ^ n < 2 ^ (digitBits - n) := by
      apply Nat.div_lt_of_lt_mul
      rw [hsplitpow]
      exact he
    have hor : (e >>> n) ||| c * 2 ^ (digitBits - n) =
        e / 2 ^ n + c * 2 ^ (digitBits - n) := by
      rw [hq, Nat.lor_comm, Nat.mul_comm c (2 ^ (digitBits - n)),
        ← Nat.mul_add_lt_is_or hqlt c]
      ring
    obtain ⟨ihd, ihlen, ihv⟩ := ih (e % 2 ^ n) n h1 h2
      (fun d hd => hxs d (by simp [hd])) (Nat.mod_lt _ (Nat.pos_pow_of_pos n (by omega)))
    simp only [shrBitsGo, hborrow, hor]
    refine ⟨?_, by simp [ihlen], ?_⟩
    · intro d hd
      rcases List.mem_cons.mp hd with h | h
      · subst h
        have hcb : c * 2 ^ (digitBits - n) ≤ (2 ^ n - 1) * 2 ^ (digitBits - n) :=
          Nat.mul_le_mul_right _ (by omega)
        have : (2 ^ n - 1) * 2 ^ (digitBits - n) + 2 ^ (digitBits - n) = digitBase := by
          rw [← hsplitpow]
          have hp : (0:Nat) < 2 ^ (digitBits - n) := Nat.pos_pow_of_pos _ (by omega)
          ring_nf
          rw [Nat.sub_one_mul]
          have h2n : (1:Nat) ≤ 2 ^ n := Nat.one_le_pow _ _ (by omega)
          have := Nat.mul_le_mul_right (2 ^ (digitBits - n)) h2n
          omega
        omega
      · exact ihd d h
    · rw [msfVal_cons, ihlen, ihv]
      -- arithmetic: (q + c·2^(32-n))·B^k + (M + r·B^k)/2^n
      --           = (e·B^k + M + c·B^(k+1))/2^n
      have hdm := Nat.div_add_mod e (2 ^ n)
      set k := rest.length
      set M := msfVal rest
      have hsplit2 : c * digitBase ^ (k + 1) =
          2 ^ n * (c * 2 ^ (digitBits - n) * digitBase ^ k) := by
        rw [pow_succ, ← hsplitpow]
        ring
      have hqB : e / 2 ^ n * digitBase ^ k * 2 ^ n =
          (e - e % 2 ^ n) * digitBase ^ k := by
        have : 2 ^ n * (e / 2 ^ n) = e - e % 2 ^ n := by omega
        calc e / 2 ^ n * digitBase ^ k * 2 ^ n
            = (2 ^ n * (e / 2 ^ n)) * digitBase ^ k := by ring
          _ = (e - e % 2 ^ n) * digitBase ^ k := by rw [this]
      have key : msfVal (e :: rest) + c * digitBase ^ (k + 1) =
          2 ^ n * ((e / 2 ^ n + c * 2 ^ (digitBits - n)) * digitBase ^ k) +
            (M + e % 2 ^ n * digitBase ^ k) := by
        rw [msfVal_cons, hsplit2]
        have hsub : e % 2 ^ n ≤ e := Nat.mod_le e _
        have expand : 2 ^ n * ((e / 2 ^ n + c * 2 ^ (digitBits - n)) * digitBase ^ k) =
            e / 2 ^ n * digitBase ^ k * 2 ^ n +
              2 ^ n * (c * 2 ^ (digitBits - n) * digitBase ^ k) := by ring
        rw [expand, hqB]
        have h1 : (e - e % 2 ^ n) * digitBase ^ k + e % 2 ^ n * digitBase ^ k =
            e * digitBase ^ k := by
          rw [← Nat.add_mul]
          congr 1
          omega
        -- assemble
        show e * digitBase ^ k + M + 2 ^ n * (c * 2 ^ (digitBits - n) * digitBase ^ k) = _
        omega
      simp only [List.length_cons]
      rw [key]
      rw [Nat.mul_comm (2 ^ n) _, Nat.add_comm (_ * 2 ^ n) _,
        Nat.add_mul_div_right _ _ (Nat.pos_pow_of_pos n (by omega))]
      ring

/-- Value of the sub-digit right shift (amounts below the digit width). -/
theorem shr_bits_toVal (a : BigUint) (n : Nat) (ha : WF a) (hn : n < digitBits) :
    (a.shr_bits n).toVal = a.toVal / 2 ^ n ∧ WF (a.shr_bits n) := by
  unfold BigUint.shr_bits
  by_cases h1 : n = 0
  · subst h1; simpa using ha
  · by_cases h2 : a.data.isEmpty
    · rw [if_pos (by simp [h2])]
      have hz : a.toVal = 0 := by
        rcases a with ⟨d⟩
        rcases d with _ | ⟨x, xs⟩
        · rfl
        · simp [List.isEmpty] at h2
      rw [hz]
      exact ⟨by simp, ha⟩
    · rw [if_neg (by simp [h1, h2])]
      obtain ⟨hrd, hrlen, hrv⟩ := shrBitsGo_spec a.data.reverse 0 n (by omega) hn
        (by intro d hd; exact ha.1 d (List.mem_reverse.mp hd))
        (Nat.pos_pow_of_pos n (by omega))
      rw [Nat.zero_mul] at hrd hrlen hrv
      constructor
      · rw [new_toVal]
        have hlv : listVal (shrBitsGo n a.data.reverse 0).reverse =
            msfVal (shrBitsGo n a.data.reverse 0) := by
          rw [← msfVal_reverse, List.reverse_reverse]
        rw [hlv, hrv, msfVal_reverse, Nat.zero_mul, Nat.add_zero]
        rfl
      · refine ⟨bounded_new _ ?_, normal_new _⟩
        intro d hd
        exact hrd d (List.mem_reverse.mp hd)

/-- Value of the BigUint right shift operator. -/
theorem shr_toVal (a : BigUint) (n : Nat) (ha : WF a) :
    (a.shr n).toVal = a.toVal / 2 ^ n ∧ WF (a.shr n) := by
  unfold BigUint.shr
  have hwf1 := shr_unit_wf a (n / digitBits) ha
  have hv1 := shr_unit_toVal a (n / digitBits) ha
  have hmod : n % digitBits < digitBits := Nat.mod_lt _ (by decide)
  obtain ⟨hv2, hwf2⟩ := shr_bits_toVal (a.shr_unit (n / digitBits)) (n % digitBits) hwf1 hmod
  refine ⟨?_, hwf2⟩
  rw [hv2, hv1, Nat.div_div_eq_div_mul]
  congr 1
  show (2 ^ digitBits) ^ (n / digitBits) * 2 ^ (n % digitBits) = 2 ^ n
  rw [← pow_mul, ← pow_add]
  congr 1
  exact Nat.div_add_mod n digitBits

/-- Length of the subtraction-loop output does not depend on digit bounds. -/
theorem subData_length (xs : List Nat) : ∀ ys c,
    (subData xs ys c).1.length = max xs.length ys.length := by
  induction xs with
  | nil =>
    intro ys
    induction ys with
    | nil => intro c; simp [subData]
    | cons b bs ih =>
      intro c
      simp only [subData, List.length_cons]
      rw [ih]
      simp
  | cons a as_ ihx =>
    intro ys c
    rcases ys with _ | ⟨b, bs⟩
    · simp only [subData, List.length_cons]
      rw [ihx]
      simp
    · simp only [subData, List.length_cons]
      rw [ihx]
      omega

theorem subUnchecked_length_le (a b : BigUint) :
    (BigUint.subUnchecked a b).data.length ≤ max a.data.length b.data.length := by
  unfold BigUint.subUnchecked
  calc (BigUint.new (subData a.data b.data 0).1).data.length
      ≤ (subData a.data b.data 0).1.length := new_length_le _
    _ = max a.data.length b.data.length := subData_length a.data b.data 0

/-- The `mul_digit` sweep: digit-by-digit product with carry. -/
def mulDigitData : List Nat → Nat → Nat → List Nat × Nat
  | [], _, carry => ([], carry)
  | ai :: as_, n, carry =>
    let p := fromUint (ai * n + carry)
    let r := mulDigitData as_ n p.1
    (p.2 :: r.1, r.2)

/-- Source `mul_digit` helper of the `Mul` impl: multiply by one digit,
appending a final nonzero carry. -/
def mul_digit (a : BigUint) (n : Nat) : BigUint :=
  if n = 0 then BigUint.zero
  else if n = 1 then a
  else
    let r := mulDigitData a.data n 0
    if r.2 = 0 then BigUint.new r.1 else BigUint.new (r.1 ++ [r.2])

/-- Source `cut_at` helper: split at digit `n` into `(high, low)` parts. -/
def cut_at (a : BigUint) (n : Nat) : BigUint × BigUint :=
  let mid := min a.data.length n
  (BigUint.from_slice (a.data.drop mid), BigUint.from_slice (a.data.take mid))

/-- Source `sub_sign` helper: signed difference of two magnitudes, the
smaller subtracted from the larger (so the inner `Sub` assertion cannot
fire), with the comparison result as the sign. -/
def sub_sign (a b : BigUint) : Int × BigUint :=
  let s := a.cmp b
  if s < 0 then (s, b.subUnchecked a)
  else if 0 < s then (s, a.subUnchecked b)
  else (0, BigUint.zero)

theorem cut_at_hi_length (a : BigUint) (n : Nat) :
    (cut_at a n).1.data.length ≤ a.data.length - min a.data.length n := by
  unfold cut_at BigUint.from_slice
  calc (BigUint.new (a.data.drop (min a.data.length n))).data.length
      ≤ (a.data.drop (min a.data.length n)).length := new_length_le _
    _ = a.data.length - min a.data.length n := by simp

theorem cut_at_lo_length (a : BigUint) (n : Nat) :
    (cut_at a n).2.data.length ≤ min a.data.length n := by
  unfold cut_at BigUint.from_slice
  calc (BigUint.new (a.data.take (min a.data.length n))).data.length
      ≤ (a.data.take (min a.data.length n)).length := new_length_le _
    _ ≤ min a.data.length n := by simp

theorem sub_sign_length (a b : BigUint) :
    (sub_sign a b).2.data.length ≤ max a.data.length b.data.length := by
  unfold sub_sign
  by_cases h1 : a.cmp b < 0
  · rw [if_pos h1]
    have := subUnchecked_length_le b a
    simpa [Nat.max_comm] using this
  · rw [if_neg h1]
    by_cases h2 : 0 < a.cmp b
    · rw [if_pos h2]
      exact subUnchecked_length_le a b
    · rw [if_neg h2]
      show (BigUint.zero).data.length ≤ _
      show ([] : List Nat).length ≤ _
      simp

/-- Source `Mul<BigUint, BigUint>`: zero and single-digit base cases, then
the Karatsuba split
`ll + (hh + ll ± n1*n2) << half + hh << 2*half`. -/
def BigUint.mul (a b : BigUint) : BigUint :=
  if a.is_zero || b.is_zero then BigUint.zero
  else if a.data.length = 1 then mul_digit b (a.data.headD 0)
  else if b.data.length = 1 then mul_digit a (b.data.headD 0)
  else
    let half_len := max a.data.length b.data.length / 2
    let sHi := (cut_at a half_len).1
    let sLo := (cut_at a half_len).2
    let oHi := (cut_at b half_len).1
    let oLo := (cut_at b half_len).2
    let ll := BigUint.mul sLo oLo
    let hh := BigUint.mul sHi oHi
    let s1 := (sub_sign sHi sLo).1
    let n1 := (sub_sign sHi sLo).2
    let s2 := (sub_sign oHi oLo).1
    let n2 := (sub_sign oHi oLo).2
    let mm :=
      if s1 * s2 < 0 then (hh.add ll).add (BigUint.mul n1 n2)
      else if 0 < s1 * s2 then (hh.add ll).subUnchecked (BigUint.mul n1 n2)
      else hh.add ll
    (ll.add (mm.shl_unit half_len)).add (hh.shl_unit (half_len * 2))
termination_by a.data.length + b.data.length
decreasing_by
  · -- ll: both low parts
    have h1 := cut_at_lo_length a (max a.data.length b.data.length / 2)
    have h2 := cut_at_lo_length b (max a.data.length b.data.length / 2)
    rename_i hz hs ho
    simp only [BigUint.is_zero, Bool.or_eq_true, List.isEmpty_iff] at hz
    push_neg at hz
    have ha1 : 1 ≤ a.data.length := by
      rcases hz with ⟨hza, _⟩
      cases h : a.data with
      | nil => exact absurd h hza
      | cons x xs => simp [h]
    have hb1 : 1 ≤ b.data.length := by
      rcases hz with ⟨_, hzb⟩
      cases h : b.data with
      | nil => exact absurd h hzb
      | cons x xs => simp [h]
    omega
  · -- hh: both high parts
    have h1 := cut_at_hi_length a (max a.data.length b.data.length / 2)
    have h2 := cut_at_hi_length b (max a.data.length b.data.length / 2)
    rename_i hz hs ho
    simp only [BigUint.is_zero, Bool.or_eq_true, List.isEmpty_iff] at hz
    push_neg at hz
    have ha1 : 1 ≤ a.data.length := by
      rcases hz with ⟨hza, _⟩
      cases h : a.data with
      | nil => exact absurd h hza
      | cons x xs => simp [h]
    have hb1 : 1 ≤ b.data.length := by
      rcases hz with ⟨_, hzb⟩
      cases h : b.data with
      | nil => exact absurd h hzb
      | cons x xs => simp [h]
    omega
  · -- mm: the two signed differences
    have h1 := sub_sign_length (cut_at a (max a.data.length b.data.length / 2)).1
      (cut_at a (max a.data.length b.data.length / 2)).2
    have h2 := sub_sign_length (cut_at b (max a.data.length b.data.length / 2)).1
      (cut_at b (max a.data.length b.data.length / 2)).2
    have h3 := cut_at_lo_length a (max a.data.length b.data.length / 2)
    have h4 := cut_at_lo_length b (max a.data.length b.data.length / 2)
    have h5 := cut_at_hi_length a (max a.data.length b.data.length / 2)
    have h6 := cut_at_hi_length b (max a.data.length b.data.length / 2)
    rename_i hz hs ho
    simp only [BigUint.is_zero, Bool.or_eq_true, List.isEmpty_iff] at hz
    push_neg at hz
    have ha1 : 1 ≤ a.data.length := by
      rcases hz with ⟨hza, _⟩
      cases h : a.data with
      | nil => exact absurd h hza
      | cons x xs => simp [h]
    have hb1 : 1 ≤ b.data.length := by
      rcases hz with ⟨_, hzb⟩
      cases h : b.data with
      | nil => exact absurd h hzb
      | cons x xs => simp [h]
    omega

theorem toVal_zero : BigUint.zero.toVal = 0 := rfl

theorem zero_data : BigUint.zero.data = [] := rfl

theorem toVal_one : BigUint.one.toVal = 1 := by
  show listVal ((BigUint.new [1]).data) = 1
  rw [new_data_eq_strip]
  show listVal [1] = 1
  simp [listVal_cons, listVal_nil]

theorem one_data : BigUint.one.data = [1] := by
  show (BigUint.new [1]).data = [1]
  rw [new_data_eq_strip]
  rfl

theorem wf_zero : WF BigUint.zero :=
  ⟨by intro d hd; simp [zero_data] at hd, by show ([] : List Nat).getLast? ≠ some 0; simp⟩

theorem wf_one : WF BigUint.one := by
  constructor
  · intro d hd
    rw [one_data] at hd
    simp only [List.mem_singleton] at hd
    subst hd
    exact digitBase_gt_one
  · show ([1] : List Nat).getLast? ≠ some 0
    simp

/-- `is_zero` reads the value for well-formed inputs. -/
theorem is_zero_iff (a : BigUint) (ha : WF a) : a.is_zero = true ↔ a.toVal = 0 := by
  unfold BigUint.is_zero
  rcases a with ⟨d⟩
  rcases d with _ | ⟨x, xs⟩
  · simp [toVal_eq_listVal, listVal_nil]
  · simp only [List.isEmpty_cons]
    constructor
    · intro h; exact absurd h (by simp)
    · intro h
      exfalso
      have := listVal_ge_of_normal (x :: xs) (by simp) ha.2
      have hpow : 1 ≤ digitBase ^ ((x :: xs).length - 1) := Nat.one_le_pow _ _ digitBase_pos
      simp only [toVal_eq_listVal] at h
      omega

/-- A zero-valued well-formed BigUint is the canonical zero. -/
theorem eq_zero_of_toVal_eq_zero (a : BigUint) (ha : WF a) (h : a.toVal = 0) :
    a = BigUint.zero :=
  wf_val_inj a BigUint.zero ha wf_zero (by rw [h, toVal_zero])

/-- Carry/value invariant of the `mul_digit` sweep. -/
theorem mulDigitData_spec (xs : List Nat) : ∀ n c, (∀ d ∈ xs, d < digitBase) →
    n < digitBase → c < digitBase →
    (∀ d ∈ (mulDigitData xs n c).1, d < digitBase) ∧
    (mulDigitData xs n c).2 < digitBase ∧
    (mulDigitData xs n c).1.length = xs.length ∧
    listVal (mulDigitData xs n c).1 + digitBase ^ xs.length * (mulDigitData xs n c).2 =
      listVal xs * n + c := by
  induction xs with
  | nil =>
    intro n c _ hn hc
    simp only [mulDigitData]
    refine ⟨by intro d hd; simp at hd, hc, by simp, ?_⟩
    simp [listVal_nil]
  | cons a as_ ih =>
    intro n c hxs hn hc
    have ha : a < digitBase := hxs a (by simp)
    have harg : a * n + c < 2 ^ uintBits := by
      have h1 : a * n ≤ (digitBase - 1) * (digitBase - 1) :=
        Nat.mul_le_mul (by omega) (by omega)
      have h2 := digitBase_sq
      have h3 : (digitBase - 1) * (digitBase - 1) + digitBase ≤ digitBase * digitBase := by
        have hB := digitBase_gt_one
        rw [Nat.mul_sub_one, Nat.sub_one_mul]
        have : digitBase ≤ digitBase * digitBase := Nat.le_mul_of_pos_left _ digitBase_pos
        omega
      omega
    have hsplit := fromUint_spec (a * n + c) harg
    have hcar : (a * n + c) / digitBase < digitBase := by
      apply Nat.div_lt_of_lt_mul
      have h2 := digitBase_sq
      omega
    obtain ⟨ihd, ihc, ihlen, ihv⟩ := ih n ((a * n + c) / digitBase)
      (fun d hd => hxs d (by simp [hd])) hn hcar
    simp only [mulDigitData, hsplit]
    refine ⟨?_, ihc, by simp [ihlen], ?_⟩
    · intro d hd
      rcases List.mem_cons.mp hd with h | h
      · subst h; exact Nat.mod_lt _ digitBase_pos
      · exact ihd d h
    · simp only [listVal_cons, List.length_cons, pow_succ]
      have hdm := Nat.div_add_mod (a * n + c) digitBase
      have ihvB := congrArg (fun t => digitBase * t) ihv
      simp only [Nat.mul_add] at ihvB
      ring_nf at ihvB hdm ⊢
      linarith [ihvB, hdm]

/-- Value and well-formedness of `mul_digit`. -/
theorem mul_digit_spec (a : BigUint) (n : Nat) (ha : WF a) (hn : n < digitBase) :
    (mul_digit a n).toVal = a.toVal * n ∧ WF (mul_digit a n) := by
  unfold mul_digit
  by_cases h0 : n = 0
  · subst h0
    rw [if_pos rfl]
    exact ⟨by rw [toVal_zero]; omega, wf_zero⟩
  · rw [if_neg h0]
    by_cases h1 : n = 1
    · subst h1
      rw [if_pos rfl]
      exact ⟨by omega, ha⟩
    · rw [if_neg h1]
      obtain ⟨hd, hc, hlen, hv⟩ := mulDigitData_spec a.data n 0 ha.1 hn digitBase_pos
      by_cases h2 : (mulDigitData a.data n 0).2 = 0
      · rw [if_pos h2]
        constructor
        · rw [new_toVal]
          rw [h2, Nat.mul_zero, Nat.add_zero] at hv
          simp only [toVal_eq_listVal]
          omega
        · exact ⟨bounded_new _ hd, normal_new _⟩
      · rw [if_neg h2]
        constructor
        · rw [new_toVal, listVal_append_singleton, hlen]
          simp only [toVal_eq_listVal]
          omega
        · refine ⟨bounded_new _ ?_, normal_new _⟩
          intro d hd2
          rcases List.mem_append.mp hd2 with h | h
          · exact hd d h
          · simp only [List.mem_singleton] at h
            subst h
            exact hc

/-- Splitting the value at position `n` of the digit vector. -/
theorem listVal_take_add_drop (n : Nat) : ∀ v : List Nat,
    listVal v = listVal (v.take n) + digitBase ^ n * listVal (v.drop n) := by
  induction n with
  | zero => intro v; simp [listVal_nil]
  | succ n ih =>
    intro v
    rcases v with _ | ⟨x, xs⟩
    · simp [listVal_nil]
    · rw [List.take_succ_cons, List.drop_succ_cons, listVal_cons, listVal_cons, ih xs,
        pow_succ]
      ring

/-- Value split and well-formedness of `cut_at`: the high and low parts
recombine at weight `base^n` (also when the cut is past the end and the
high part is zero). -/
theorem cut_at_spec (a : BigUint) (n : Nat) (ha : Bounded a) :
    (cut_at a n).1.toVal * digitBase ^ n + (cut_at a n).2.toVal = a.toVal ∧
    WF (cut_at a n).1 ∧ WF (cut_at a n).2 := by
  unfold cut_at BigUint.from_slice
  refine ⟨?_, ⟨bounded_new _ ?_, normal_new _⟩, ⟨bounded_new _ ?_, normal_new _⟩⟩
  · rw [new_toVal, new_toVal]
    simp only [toVal_eq_listVal]
    by_cases h : a.data.length ≤ n
    · have hmid : min a.data.length n = a.data.length := by omega
      rw [hmid]
      rw [List.drop_length, List.take_length]
      simp [listVal_nil]
    · have hmid : min a.data.length n = n := by omega
      rw [hmid]
      rw [listVal_take_add_drop n a.data]
      ring
  · intro d hd; exact ha d (List.mem_of_mem_drop hd)
  · intro d hd; exact ha d (List.mem_of_mem_take hd)

/-- Value/sign reading of `sub_sign`: the returned magnitude is the
absolute difference and the sign is the comparison result. -/
theorem sub_sign_spec (a b : BigUint) (ha : WF a) (hb : WF b) :
    WF (sub_sign a b).2 ∧
    (((sub_sign a b).1 = -1 ∧ a.toVal < b.toVal ∧
        (sub_sign a b).2.toVal + a.toVal = b.toVal) ∨
     ((sub_sign a b).1 = 0 ∧ a.toVal = b.toVal ∧ (sub_sign a b).2 = BigUint.zero) ∨
     ((sub_sign a b).1 = 1 ∧ b.toVal < a.toVal ∧
        (sub_sign a b).2.toVal + b.toVal = a.toVal)) := by
  unfold sub_sign
  rcases cmp_spec a b ha hb with ⟨h1, h2⟩ | ⟨h1, h2⟩ | ⟨h1, h2⟩
  · rw [h1]
    rw [if_pos (by norm_num)]
    obtain ⟨_, hval, hwf⟩ := sub?_of_le b a hb.1 ha.1 (by omega)
    exact ⟨hwf, Or.inl ⟨rfl, h2, hval⟩⟩
  · rw [h1]
    rw [if_neg (by norm_num), if_neg (by norm_num)]
    exact ⟨wf_zero, Or.inr (Or.inl ⟨rfl, h2, rfl⟩)⟩
  · rw [h1]
    rw [if_neg (by norm_num), if_pos (by norm_num)]
    obtain ⟨_, hval, hwf⟩ := sub?_of_le a b ha.1 hb.1 (by omega)
    exact ⟨hwf, Or.inr (Or.inr ⟨rfl, h2, hval⟩)⟩

set_option maxHeartbeats 2000000 in
/-- Multiplication computes the true product and stays well-formed: strong
induction on the total digit length, following the Karatsuba recursion. -/
theorem mul_spec_aux (N : Nat) : ∀ a b : BigUint, a.data.length + b.data.length ≤ N →
    WF a → WF b →
    (BigUint.mul a b).toVal = a.toVal * b.toVal ∧ WF (BigUint.mul a b) := by
  induction N with
  | zero =>
    intro a b hlen ha hb
    have hza : a.data = [] := by
      rcases h : a.data with _ | ⟨x, xs⟩
      · rfl
      · rw [h] at hlen; simp at hlen
    have hz : (a.is_zero || b.is_zero) = true := by
      simp [BigUint.is_zero, hza]
    have hmul : BigUint.mul a b = BigUint.zero := by
      rw [BigUint.mul, if_pos hz]
    rw [hmul]
    refine ⟨?_, wf_zero⟩
    rw [toVal_zero]
    have : a.toVal = 0 := by simp [toVal_eq_listVal, hza, listVal_nil]
    rw [this, Nat.zero_mul]
  | succ N ih =>
    intro a b hlen ha hb
    by_cases hz : (a.is_zero || b.is_zero) = true
    · have hmul : BigUint.mul a b = BigUint.zero := by
        rw [BigUint.mul, if_pos hz]
      rw [hmul]
      refine ⟨?_, wf_zero⟩
      rw [toVal_zero]
      rcases Bool.or_eq_true_iff.mp hz with h | h
      · rw [(is_zero_iff a ha).mp h, Nat.zero_mul]
      · rw [(is_zero_iff b hb).mp h, Nat.mul_zero]
    · by_cases hs : a.data.length = 1
      · have hmul : BigUint.mul a b = mul_digit b (a.data.headD 0) := by
          rw [BigUint.mul, if_neg hz, if_pos hs]
        rw [hmul]
        rcases hdata : a.data with _ | ⟨d, rest⟩
        · rw [hdata] at hs; simp at hs
        · have hrest : rest = [] := by
            rw [hdata] at hs; simpa using hs
          subst hrest
          have hd : d < digitBase := ha.1 d (by rw [hdata]; simp)
          obtain ⟨hv, hwf⟩ := mul_digit_spec b d hb hd
          simp only [List.headD_cons]
          refine ⟨?_, hwf⟩
          rw [hv]
          have hav : a.toVal = d := by
            simp [toVal_eq_listVal, hdata, listVal_cons, listVal_nil]
          rw [hav]; ring
      · by_cases ho : b.data.length = 1
        · have hmul : BigUint.mul a b = mul_digit a (b.data.headD 0) := by
            rw [BigUint.mul, if_neg hz, if_neg hs, if_pos ho]
          rw [hmul]
          rcases hdata : b.data with _ | ⟨d, rest⟩
          · rw [hdata] at ho; simp at ho
          · have hrest : rest = [] := by
              rw [hdata] at ho; simpa using ho
            subst hrest
            have hd : d < digitBase := hb.1 d (by rw [hdata]; simp)
            obtain ⟨hv, hwf⟩ := mul_digit_spec a d ha hd
            simp only [List.headD_cons]
            refine ⟨?_, hwf⟩
            rw [hv]
            have hbv : b.toVal = d := by
              simp [toVal_eq_listVal, hdata, listVal_cons, listVal_nil]
            rw [hbv]
        · -- Karatsuba recursive case
          have haLen : 1 ≤ a.data.length := by
            rcases hne : a.data with _ | ⟨x, xs⟩
            · exfalso; apply hz; simp [BigUint.is_zero, hne]
            · simp [hne]
          have hbLen : 1 ≤ b.data.length := by
            rcases hne : b.data with _ | ⟨x, xs⟩
            · exfalso; apply hz; simp [BigUint.is_zero, hne]
            · simp [hne]
          have haLen2 : 2 ≤ a.data.length := by omega
          have hbLen2 : 2 ≤ b.data.length := by omega
          rw [BigUint.mul, if_neg hz, if_neg hs, if_neg ho]
          dsimp only
          have hcutA := cut_at_spec a ((a.data.length ⊔ b.data.length) / 2) ha.1
          have hcutB := cut_at_spec b ((a.data.length ⊔ b.data.length) / 2) hb.1
          have hlenA1 := cut_at_hi_length a ((a.data.length ⊔ b.data.length) / 2)
          have hlenA2 := cut_at_lo_length a ((a.data.length ⊔ b.data.length) / 2)
          have hlenB1 := cut_at_hi_length b ((a.data.length ⊔ b.data.length) / 2)
          have hlenB2 := cut_at_lo_length b ((a.data.length ⊔ b.data.length) / 2)
          set H := (a.data.length ⊔ b.data.length) / 2 with hH
          set sHi := (cut_at a H).1 with hsHi
          set sLo := (cut_at a H).2 with hsLo
          set oHi := (cut_at b H).1 with hoHi
          set oLo := (cut_at b H).2 with hoLo
          obtain ⟨hsplitA, hwf_sHi, hwf_sLo⟩ := hcutA
          obtain ⟨hsplitB, hwf_oHi, hwf_oLo⟩ := hcutB
          have hss1 := sub_sign_spec sHi sLo hwf_sHi hwf_sLo
          have hss2 := sub_sign_spec oHi oLo hwf_oHi hwf_oLo
          have hsslen1 := sub_sign_length sHi sLo
          have hsslen2 := sub_sign_length oHi oLo
          set s1 := (sub_sign sHi sLo).1 with hs1d
          set n1 := (sub_sign sHi sLo).2 with hn1d
          set s2 := (sub_sign oHi oLo).1 with hs2d
          set n2 := (sub_sign oHi oLo).2 with hn2d
          obtain ⟨hwf_n1, hcase1⟩ := hss1
          obtain ⟨hwf_n2, hcase2⟩ := hss2
          have hHge : 1 ≤ H := by omega
          obtain ⟨hvLL, hwfLL⟩ := ih sLo oLo (by omega) hwf_sLo hwf_oLo
          obtain ⟨hvHH, hwfHH⟩ := ih sHi oHi (by omega) hwf_sHi hwf_oHi
          obtain ⟨hvNN, hwfNN⟩ := ih n1 n2 (by omega) hwf_n1 hwf_n2
          set ll := sLo.mul oLo with hlld
          set hh := sHi.mul oHi with hhhd
          set nn := n1.mul n2 with hnnd
          have hfinal : ∀ mm : BigUint, WF mm →
              mm.toVal = sHi.toVal * oLo.toVal + sLo.toVal * oHi.toVal →
              ((ll.add (mm.shl_unit H)).add (hh.shl_unit (H * 2))).toVal =
                a.toVal * b.toVal ∧
              WF ((ll.add (mm.shl_unit H)).add (hh.shl_unit (H * 2))) := by
            intro mm hwfmm hvmm
            have hwfshl1 := shl_unit_wf mm H hwfmm
            have hwfshl2 := shl_unit_wf hh (H * 2) hwfHH
            have hwfadd1 := add_wf ll (mm.shl_unit H) hwfLL.1 hwfshl1.1
            have hwfadd2 := add_wf (ll.add (mm.shl_unit H)) (hh.shl_unit (H * 2))
              hwfadd1.1 hwfshl2.1
            refine ⟨?_, hwfadd2⟩
            rw [add_toVal _ _ hwfadd1.1 hwfshl2.1, add_toVal _ _ hwfLL.1 hwfshl1.1,
              shl_unit_toVal, shl_unit_toVal, hvmm, hvLL, hvHH, ← hsplitA, ← hsplitB]
            rw [pow_mul]
            ring
          have hwfaddhl := add_wf hh ll hwfHH.1 hwfLL.1
          have haddv := add_toVal hh ll hwfHH.1 hwfLL.1
          rcases hcase1 with ⟨he1, hlt1, heq1⟩ | ⟨he1, hlt1, heq1⟩ | ⟨he1, hlt1, heq1⟩ <;>
            rcases hcase2 with ⟨he2, hlt2, heq2⟩ | ⟨he2, hlt2, heq2⟩ | ⟨he2, hlt2, heq2⟩ <;>
            rw [he1, he2]
          -- (-1, -1): same sign, subtract branch
          · rw [if_neg (by norm_num), if_pos (by norm_num)]
            have hALr : sLo.toVal = n1.toVal + sHi.toVal := by omega
            have hOLr : oLo.toVal = n2.toVal + oHi.toVal := by omega
            have hle : nn.toVal ≤ (hh.add ll).toVal := by
              rw [haddv, hvNN, hvHH, hvLL, hALr, hOLr]
              ring_nf
              omega
            obtain ⟨hsub_eq, hsub_val, hsub_wf⟩ := sub?_of_le (hh.add ll) nn hwfaddhl.1 hwfNN.1 hle
            apply hfinal _ hsub_wf
            rw [haddv, hvHH, hvLL, hvNN] at hsub_val
            rw [hALr, hOLr] at hsub_val ⊢
            ring_nf at hsub_val ⊢
            omega
          -- (-1, 0)
          · rw [if_neg (by norm_num), if_neg (by norm_num)]
            apply hfinal _ hwfaddhl
            rw [haddv, hvHH, hvLL, hlt2]
          -- (-1, 1): opposite signs, add branch
          · rw [if_pos (by norm_num)]
            have hALr : sLo.toVal = n1.toVal + sHi.toVal := by omega
            have hOHr : oHi.toVal = n2.toVal + oLo.toVal := by omega
            have haddv2 := add_toVal (hh.add ll) nn hwfaddhl.1 hwfNN.1
            have hwfadd2 := add_wf (hh.add ll) nn hwfaddhl.1 hwfNN.1
            apply hfinal _ hwfadd2
            rw [haddv2, haddv, hvHH, hvLL, hvNN, hALr, hOHr]
            ring
          -- (0, -1)
          · rw [if_neg (by norm_num), if_neg (by norm_num)]
            apply hfinal _ hwfaddhl
            rw [haddv, hvHH, hvLL, hlt1]
            ring
          -- (0, 0)
          · rw [if_neg (by norm_num), if_neg (by norm_num)]
            apply hfinal _ hwfaddhl
            rw [haddv, hvHH, hvLL, hlt1]
            ring
          -- (0, 1)
          · rw [if_neg (by norm_num), if_neg (by norm_num)]
            apply hfinal _ hwfaddhl
            rw [haddv, hvHH, hvLL, hlt1]
            ring
          -- (1, -1): opposite signs, add branch
          · rw [if_pos (by norm_num)]
            have hAHr : sHi.toVal = n1.toVal + sLo.toVal := by omega
            have hOLr : oLo.toVal = n2.toVal + oHi.toVal := by omega
            have haddv2 := add_toVal (hh.add ll) nn hwfaddhl.1 hwfNN.1
            have hwfadd2 := add_wf (hh.add ll) nn hwfaddhl.1 hwfNN.1
            apply hfinal _ hwfadd2
            rw [haddv2, haddv, hvHH, hvLL, hvNN, hAHr, hOLr]
            ring
          -- (1, 0)
          · rw [if_neg (by norm_num), if_neg (by norm_num)]
            apply hfinal _ hwfaddhl
            rw [haddv, hvHH, hvLL, hlt2]
          -- (1, 1): same sign, subtract branch
          · rw [if_neg (by norm_num), if_pos (by norm_num)]
            have hAHr : sHi.toVal = n1.toVal + sLo.toVal := by omega
            have hOHr : oHi.toVal = n2.toVal + oLo.toVal := by omega
            have hle : nn.toVal ≤ (hh.add ll).toVal := by
              rw [haddv, hvNN, hvHH, hvLL, hAHr, hOHr]
              ring_nf
              omega
            obtain ⟨hsub_eq, hsub_val, hsub_wf⟩ := sub?_of_le (hh.add ll) nn hwfaddhl.1 hwfNN.1 hle
            apply hfinal _ hsub_wf
            rw [haddv, hvHH, hvLL, hvNN] at hsub_val
            rw [hAHr, hOHr] at hsub_val ⊢
            ring_nf at hsub_val ⊢
            omega

/-- Value and well-formedness of BigUint multiplication. -/
theorem mul_toVal (a b : BigUint) (ha : WF a) (hb : WF b) :
    (BigUint.mul a b).toVal = a.toVal * b.toVal ∧ WF (BigUint.mul a b) :=
  mul_spec_aux (a.data.length + b.data.length) a b le_rfl ha hb

/-- The `rev_each` sweep of `div_estimate`: long division of the top
digits (given most significant first) by the single digit `bn`, producing
the quotient digits least significant first.  The source's
`fail_unless!(di < BigDigit::base)` is modelled as `none`. -/
def estLoop (bn : Nat) : List Nat → Nat → Option (List Nat)
  | [], _ => some []
  | e :: rest, carry =>
    let ai := toUint carry e
    let di := ai / bn
    if digitBase ≤ di then none
    else (estLoop bn rest (ai % bn)).map (fun d => d ++ [di])

/-- Source `div_estimate`: estimate a quotient chunk by dividing the top
`n` digits of `a` by the top digit of `b`, placed at the appropriate digit
position.  `*b.data.last()` on an empty vector and the digit division by
zero are fatal (`none`); the position arithmetic
`(a.len - an.len) - (b.len - 1)` cannot underflow on the inputs reached
from `divmod` (proved in `div_estimate_spec`). -/
def div_estimate (a b : BigUint) (n : Nat) : Option (BigUint × BigUint × BigUint) :=
  if a.data.length < n then some (BigUint.zero, BigUint.zero, a)
  else
    match b.data.getLast? with
    | none => none
    | some bn =>
      if bn = 0 then none
      else
        match estLoop bn (a.data.drop (a.data.length - n)).reverse 0 with
        | none => none
        | some d =>
          let shift := (a.data.length - n) - (b.data.length - 1)
          if shift = 0 then some (BigUint.new d, BigUint.one, b)
          else some ((BigUint.from_slice d).shl_unit shift,
                     BigUint.one.shl_unit shift,
                     b.shl_unit shift)

/-- The correction loop of `divmod_inner`: `while prod > r` decrement the
estimate by one unit and the product by one unit-product.  Fuel-indexed;
the underflow failures of `-=` are modelled through `sub?`. -/
def correctLoop (fuel : Nat) (d0 prod d_unit b_unit r : BigUint) :
    Option (BigUint × BigUint) :=
  match fuel with
  | 0 => none
  | fuel + 1 =>
    if 0 < prod.cmp r then
      match d0.sub? d_unit, prod.sub? b_unit with
      | some d0q, some prodq => correctLoop fuel d0q prodq d_unit b_unit r
      | _, _ => none
    else some (d0, prod)

/-- The `while r >= b` loop of `divmod_inner`, with the quotient-estimate
width `n` (1, escalating to 2 when the corrected estimate is zero) as
state.  Fuel-indexed. -/
def divmod_loop (fuel : Nat) (r d : BigUint) (b : BigUint) (n : Nat) :
    Option (BigUint × BigUint) :=
  match fuel with
  | 0 => none
  | fuel + 1 =>
    if 0 ≤ r.cmp b then
      match div_estimate r b n with
      | none => none
      | some (d0, d_unit, b_unit) =>
        let prod := b.mul d0
        match correctLoop (prod.toVal + 1) d0 prod d_unit b_unit r with
        | none => none
        | some (d0c, prodc) =>
          if d0c.is_zero then divmod_loop fuel r d b 2
          else
            match r.sub? prodc with
            | none => none
            | some rq => divmod_loop fuel rq (d.add d0c) b 1
    else some (d, r)

/-- The normalization loop of `divmod`: double the top divisor digit
(`n <<= 1`) until its top two bits are set, counting the shifts.
Fuel-indexed (`n = 0` would loop forever in the source). -/
def normShiftLoop (fuel : Nat) (n shift : Nat) : Option Nat :=
  match fuel with
  | 0 => none
  | fuel + 1 =>
    if n < 2 ^ (digitBits - 2) then normShiftLoop fuel (n * 2) (shift + 1)
    else some shift

/-- Source `BigUint::divmod`: fatal on zero divisor (`none`), fast paths
for zero dividend, unit divisor, smaller and equal dividend, then Knuth
normalization followed by the iterative quotient estimation.  The `while`
loops carry fuel large enough for the reachable iterations; the final
`fail_unless!(shift < BigDigit::bits)` is the explicit check. -/
def BigUint.divmod (a b : BigUint) : Option (BigUint × BigUint) :=
  if b.is_zero then none
  else if a.is_zero then some (BigUint.zero, BigUint.zero)
  else if b.cmp BigUint.one = 0 then some (a, BigUint.zero)
  else if a.cmp b < 0 then some (BigUint.zero, a)
  else if a.cmp b = 0 then some (BigUint.one, BigUint.zero)
  else
    match b.data.getLast? with
    | none => none
    | some n0 =>
      match normShiftLoop digitBits n0 0 with
      | none => none
      | some shift =>
        if shift < digitBits then
          match divmod_loop (2 * (a.shl shift).toVal + 2) (a.shl shift) BigUint.zero
              (b.shl shift) 1 with
          | none => none
          | some (d, m) => some (d, m.shr shift)
        else none

/-- Source `quotrem` for BigUint: the same `divmod`. -/
def BigUint.quotrem (a b : BigUint) : Option (BigUint × BigUint) := BigUint.divmod a b

/-- Source `impl Neg<BigUint> for BigUint`: the body is `fail!()`
unconditionally, so no value is ever returned. -/
def BigUint.neg (_ : BigUint) : Option BigUint := none


/-- The estimate sweep is single-digit long division: it always succeeds
(the internal assertion cannot fire) and computes the floor quotient of
the value carried in. -/
theorem estLoop_spec (xs : List Nat) : ∀ c bn, 1 ≤ bn → bn < digitBase →
    (∀ e ∈ xs, e < digitBase) → c < bn →
    ∃ d, estLoop bn xs c = some d ∧ (∀ x ∈ d, x < digitBase) ∧
      d.length = xs.length ∧
      listVal d = (c * digitBase ^ xs.length + msfVal xs) / bn := by
  induction xs with
  | nil =>
    intro c bn h1 h2 hxs hc
    refine ⟨[], rfl, by intro x hx; simp at hx, rfl, ?_⟩
    simp only [listVal_nil, List.length_nil, pow_zero, Nat.mul_one, msfVal,
      List.foldl_nil, Nat.add_zero]
    rw [Nat.div_eq_of_lt hc]
  | cons e rest ih =>
    intro c bn h1 h2 hxs hc
    have he : e < digitBase := hxs e (by simp)
    have hai : toUint c e = c * digitBase + e := by
      unfold toUint; ring
    have hdi : (toUint c e) / bn < digitBase := by
      rw [hai]
      apply Nat.div_lt_of_lt_mul
      calc c * digitBase + e < c * digitBase + digitBase := by omega
        _ = (c + 1) * digitBase := by ring
        _ ≤ bn * digitBase := Nat.mul_le_mul_right _ (by omega)
    obtain ⟨d, hd, hdb, hdlen, hdval⟩ := ih (toUint c e % bn) bn h1 h2
      (fun x hx => hxs x (by simp [hx])) (Nat.mod_lt _ (by omega))
    refine ⟨d ++ [toUint c e / bn], ?_, ?_, by simp [hdlen], ?_⟩
    · show (if digitBase ≤ toUint c e / bn then none
        else (estLoop bn rest (toUint c e % bn)).map (fun d => d ++ [toUint c e / bn])) = _
      rw [if_neg (by omega), hd]
      rfl
    · intro x hx
      rcases List.mem_append.mp hx with h | h
      · exact hdb x h
      · simp only [List.mem_singleton] at h
        subst h
        exact hdi
    · rw [listVal_append_singleton, hdval, hdlen, msfVal_cons]
      have hdm := Nat.div_add_mod (toUint c e) bn
      -- c * B^(k+1) + (e * B^k + M) = bn * ((ai/bn) * B^k) + ((ai%bn) * B^k + M)
      have hkey : c * digitBase ^ (rest.length + 1) + (e * digitBase ^ rest.length +
          msfVal rest) =
          (toUint c e % bn * digitBase ^ rest.length + msfVal rest) +
            bn * (toUint c e / bn * digitBase ^ rest.length) := by
        have h3 : toUint c e % bn * digitBase ^ rest.length +
            bn * (toUint c e / bn * digitBase ^ rest.length) =
            toUint c e * digitBase ^ rest.length := by
          calc toUint c e % bn * digitBase ^ rest.length +
              bn * (toUint c e / bn * digitBase ^ rest.length)
              = (bn * (toUint c e / bn) + toUint c e % bn) * digitBase ^ rest.length := by
                ring
            _ = toUint c e * digitBase ^ rest.length := by rw [hdm]
        have h4 : toUint c e * digitBase ^ rest.length =
            c * digitBase ^ (rest.length + 1) + e * digitBase ^ rest.length := by
          rw [hai, pow_succ]
          ring
        omega
      simp only [List.length_cons]
      rw [hkey, Nat.add_mul_div_left _ _ (by omega : 0 < bn)]
      ring


/-- Top-digit bounds of a nonempty bounded digit list. -/
theorem listVal_top_bounds (v : List Nat) (hne : v ≠ []) (hb : ∀ d ∈ v, d < digitBase) :
    digitBase ^ (v.length - 1) * v.getLastD 0 ≤ listVal v ∧
    listVal v < digitBase ^ (v.length - 1) * (v.getLastD 0 + 1) := by
  have hdecomp := List.dropLast_append_getLast hne
  have hlast : v.getLastD 0 = v.getLast hne := by
    rw [List.getLastD_eq_getLast?, List.getLast?_eq_getLast _ hne]
    rfl
  have hlen : v.dropLast.length = v.length - 1 := by simp
  have hlt := listVal_lt v.dropLast (fun d hd => hb d (List.dropLast_subset v hd))
  rw [hlen] at hlt
  have hms : digitBase ^ (v.length - 1) * (v.getLastD 0 + 1) =
      digitBase ^ (v.length - 1) * v.getLastD 0 + digitBase ^ (v.length - 1) := by
    ring
  constructor
  · conv_rhs => rw [← hdecomp]
    rw [listVal_append_singleton, hlen, ← hlast]
    omega
  · conv_lhs => rw [← hdecomp]
    rw [listVal_append_singleton, hlen, ← hlast]
    omega

/-- For a well-formed nonzero value, the top digit exists, is nonzero and
in range. -/
theorem getLast_facts (b : BigUint) (hb : WF b) (hne : b.data ≠ []) :
    b.data.getLast? = some (b.data.getLastD 0) ∧ 1 ≤ b.data.getLastD 0 ∧
    b.data.getLastD 0 < digitBase := by
  have h1 : b.data.getLast? = some (b.data.getLast hne) := List.getLast?_eq_getLast _ hne
  have hlast : b.data.getLastD 0 = b.data.getLast hne := by
    rw [List.getLastD_eq_getLast?, h1]
    rfl
  refine ⟨by rw [h1, hlast], ?_, ?_⟩
  · have h2 := hb.2
    unfold Normal at h2
    rw [h1] at h2
    simp only [ne_eq, Option.some.injEq] at h2
    rw [hlast]
    omega
  · rw [hlast]
    exact hb.1 _ (List.getLast_mem hne)

/-- `div_estimate` on the inputs reached from the division loop: the
estimate is the floor quotient of the top digits by the divisor top digit,
placed at the unit position, together with that unit and the divisor
shifted to it. -/
theorem div_estimate_spec (r b : BigUint) (n : Nat) (hr : WF r) (hb : WF b)
    (hbne : b.data ≠ []) (hn : n ≤ r.data.length)
    (hsh : b.data.length - 1 ≤ r.data.length - n) :
    ∃ d0 du bu,
      div_estimate r b n = some (d0, du, bu) ∧ WF d0 ∧ WF du ∧ WF bu ∧
      du.toVal = digitBase ^ ((r.data.length - n) - (b.data.length - 1)) ∧
      bu.toVal = b.toVal * du.toVal ∧
      d0.toVal = (listVal (r.data.drop (r.data.length - n)) / b.data.getLastD 0) *
        du.toVal := by
  obtain ⟨hlast, hbn1, hbnB⟩ := getLast_facts b hb hbne
  have hdropb : ∀ e ∈ (r.data.drop (r.data.length - n)).reverse, e < digitBase := by
    intro e he
    exact hr.1 e (List.mem_of_mem_drop (List.mem_reverse.mp he))
  obtain ⟨d, hd, hdb, hdlen, hdval⟩ := estLoop_spec
    (r.data.drop (r.data.length - n)).reverse 0 (b.data.getLastD 0) hbn1 hbnB hdropb
    (by omega)
  rw [Nat.zero_mul, Nat.zero_add, msfVal_reverse] at hdval
  have hestep : div_estimate r b n =
      (let shift := (r.data.length - n) - (b.data.length - 1);
       if shift = 0 then some (BigUint.new d, BigUint.one, b)
       else some ((BigUint.from_slice d).shl_unit shift,
                  BigUint.one.shl_unit shift,
                  b.shl_unit shift)) := by
    unfold div_estimate
    rw [if_neg (by omega : ¬ r.data.length < n), hlast]
    dsimp only
    rw [if_neg (by omega : ¬ b.data.getLastD 0 = 0), hd]
  set shift := (r.data.length - n) - (b.data.length - 1) with hshift
  by_cases hs0 : shift = 0
  · rw [hestep]
    simp only [hs0, if_pos rfl]
    refine ⟨BigUint.new d, BigUint.one, b, rfl, ⟨bounded_new _ hdb, normal_new _⟩,
      wf_one, hb, ?_, ?_, ?_⟩
    · rw [toVal_one, pow_zero]
    · rw [toVal_one, Nat.mul_one]
    · rw [toVal_one, Nat.mul_one, new_toVal, hdval]
  · rw [hestep]
    simp only [if_neg hs0]
    have hwfd : WF (BigUint.from_slice d) := ⟨bounded_new _ hdb, normal_new _⟩
    refine ⟨(BigUint.from_slice d).shl_unit shift, BigUint.one.shl_unit shift,
      b.shl_unit shift, rfl, shl_unit_wf _ _ hwfd, shl_unit_wf _ _ wf_one,
      shl_unit_wf _ _ hb, ?_, ?_, ?_⟩
    · rw [shl_unit_toVal, toVal_one, Nat.one_mul]
    · rw [shl_unit_toVal, shl_unit_toVal, toVal_one, Nat.one_mul]
    · rw [shl_unit_toVal, shl_unit_toVal, toVal_one, Nat.one_mul]
      show (BigUint.new d).toVal * _ = _
      rw [new_toVal, hdval]

/-- The correction loop keeps `prod = bv * d0` with `d0` a multiple of the
unit, never underflows, and stops at the first multiple at or below `r`. -/
theorem correctLoop_spec : ∀ fuel m (d0 prod du bu r : BigUint) (bv : Nat),
    WF d0 → WF prod → WF du → WF bu → WF r →
    d0.toVal = m * du.toVal → prod.toVal = bv * (m * du.toVal) →
    bu.toVal = bv * du.toVal → 1 ≤ bv → 1 ≤ du.toVal →
    m + 1 ≤ fuel →
    ∃ m2 d0c prodc, correctLoop fuel d0 prod du bu r = some (d0c, prodc) ∧
      d0c.toVal = m2 * du.toVal ∧ prodc.toVal = bv * d0c.toVal ∧
      prodc.toVal ≤ r.toVal ∧ m2 ≤ m ∧ WF d0c ∧ WF prodc ∧
      (bv * du.toVal ≤ r.toVal → 1 ≤ m → 1 ≤ m2) := by
  intro fuel
  induction fuel with
  | zero =>
    intro m d0 prod du bu r bv _ _ _ _ _ _ _ _ _ _ hfuel
    omega
  | succ fuel ih =>
    intro m d0 prod du bu r bv hwf_d0 hwf_prod hwf_du hwf_bu hwf_r hd0 hprod hbu hbv
      hdu hfuel
    by_cases hgt : 0 < prod.cmp r
    · have hgtv : r.toVal < prod.toVal := (cmp_pos_iff prod r hwf_prod hwf_r).mp hgt
      have hm1 : 1 ≤ m := by
        by_contra hcon
        have hm0 : m = 0 := by omega
        rw [hm0, Nat.zero_mul, Nat.mul_zero] at hprod
        omega
      have hdule : du.toVal ≤ m * du.toVal := Nat.le_mul_of_pos_left _ (by omega)
      have hbule : bu.toVal ≤ prod.toVal := by
        rw [hbu, hprod]
        exact Nat.mul_le_mul_left _ hdule
      obtain ⟨he1, hv1, hwf1⟩ := sub?_of_le d0 du hwf_d0.1 hwf_du.1 (by omega)
      obtain ⟨he2, hv2, hwf2⟩ := sub?_of_le prod bu hwf_prod.1 hwf_bu.1 hbule
      have hstep : correctLoop (fuel + 1) d0 prod du bu r =
          correctLoop fuel (d0.subUnchecked du) (prod.subUnchecked bu) du bu r := by
        show (if 0 < prod.cmp r then _ else _) = _
        rw [if_pos hgt, he1, he2]
      have hsm : m - 1 + 1 = m := by omega
      have hd0q : (d0.subUnchecked du).toVal = (m - 1) * du.toVal := by
        have hx : (m - 1) * du.toVal + du.toVal = m * du.toVal := by
          calc (m - 1) * du.toVal + du.toVal = (m - 1 + 1) * du.toVal := by ring
            _ = m * du.toVal := by rw [hsm]
        omega
      have hprodq : (prod.subUnchecked bu).toVal = bv * ((m - 1) * du.toVal) := by
        have hx : bv * ((m - 1) * du.toVal) + bv * du.toVal = bv * (m * du.toVal) := by
          calc bv * ((m - 1) * du.toVal) + bv * du.toVal
              = bv * ((m - 1 + 1) * du.toVal) := by ring
            _ = bv * (m * du.toVal) := by rw [hsm]
        rw [hbu] at hv2
        omega
      obtain ⟨m2, d0c, prodc, heq, ha1, ha2, ha3, ha4, ha5, ha6, ha7⟩ :=
        ih (m - 1) (d0.subUnchecked du) (prod.subUnchecked bu) du bu r bv
          hwf1 hwf2 hwf_du hwf_bu hwf_r hd0q hprodq hbu hbv hdu (by omega)
      refine ⟨m2, d0c, prodc, by rw [hstep]; exact heq, ha1, ha2, ha3, by omega,
        ha5, ha6, ?_⟩
      intro hle hm
      apply ha7 hle
      -- prod = bv*m*du > r >= bv*du forces m >= 2
      have h2 : bv * du.toVal < bv * (m * du.toVal) := by omega
      have h3 : du.toVal < m * du.toVal := Nat.lt_of_mul_lt_mul_left h2
      have h4 : 2 ≤ m := by
        by_contra hcon
        have : m = 1 := by omega
        rw [this, Nat.one_mul] at h3
        omega
      omega
    · have hlev : prod.toVal ≤ r.toVal := by
        rcases cmp_spec prod r hwf_prod hwf_r with ⟨h1, h2⟩ | ⟨h1, h2⟩ | ⟨h1, h2⟩
        · omega
        · omega
        · rw [h1] at hgt; omega
      refine ⟨m, d0, prod, ?_, hd0, by rw [hprod, hd0], hlev, le_rfl, hwf_d0,
        hwf_prod, fun _ hm => hm⟩
      show (if 0 < prod.cmp r then _ else _) = _
      rw [if_neg hgt]

/-- Smaller well-formed value, no longer digit vector. -/
theorem length_le_of_val_le (x y : BigUint) (hx : WF x) (hy : WF y)
    (h : x.toVal ≤ y.toVal) : x.data.length ≤ y.data.length := by
  by_contra hcon
  push_neg at hcon
  have h1 : y.toVal < digitBase ^ y.data.length := listVal_lt y.data hy.1
  have hne : x.data ≠ [] := by
    intro hnil
    rw [hnil] at hcon
    simp at hcon
  have h2 : digitBase ^ (x.data.length - 1) ≤ x.toVal :=
    listVal_ge_of_normal x.data hne hx.2
  have h3 : digitBase ^ y.data.length ≤ digitBase ^ (x.data.length - 1) :=
    Nat.pow_le_pow_right digitBase_pos (by omega)
  omega

/-- The last entry survives dropping a strict prefix. -/
theorem getLast?_drop_of_lt (l : List Nat) (n : Nat) (h : n < l.length) :
    (l.drop n).getLast? = l.getLast? := by
  rw [List.getLast?_eq_getElem?, List.getLast?_eq_getElem?, List.getElem?_drop,
    List.length_drop]
  congr 1
  omega

/-- Equal-length comparison forces the top digits to compare the same way. -/
theorem top_digit_le (r b : BigUint) (hr : WF r) (hb : WF b)
    (hrne : r.data ≠ []) (hbne : b.data ≠ [])
    (hlen : r.data.length = b.data.length) (h : b.toVal ≤ r.toVal) :
    b.data.getLastD 0 ≤ r.data.getLastD 0 := by
  by_contra hcon
  push_neg at hcon
  obtain ⟨hb1, hb2⟩ := listVal_top_bounds b.data hbne hb.1
  obtain ⟨hr1, hr2⟩ := listVal_top_bounds r.data hrne hr.1
  have hstep : digitBase ^ (r.data.length - 1) * (r.data.getLastD 0 + 1) ≤
      digitBase ^ (b.data.length - 1) * b.data.getLastD 0 := by
    rw [hlen]
    exact Nat.mul_le_mul_left _ (by omega)
  simp only [toVal_eq_listVal] at h
  omega

/-- The main division loop: total on sufficient fuel, maintains the
division invariant, and stops with a remainder below the divisor. -/
theorem divmod_loop_spec : ∀ fuel r d b n, WF r → WF d → WF b → 1 ≤ b.toVal →
    (n = 1 ∨ (n = 2 ∧ b.data.length < r.data.length)) →
    2 * r.toVal + (3 - n) ≤ fuel →
    ∃ q rem, divmod_loop fuel r d b n = some (q, rem) ∧
      b.toVal * q.toVal + rem.toVal = b.toVal * d.toVal + r.toVal ∧
      rem.toVal < b.toVal ∧ WF q ∧ WF rem := by
  intro fuel
  induction fuel with
  | zero =>
    intro r d b n _ _ _ _ hn hfuel
    rcases hn with h | ⟨h, _⟩ <;> omega
  | succ fuel ih =>
    intro r d b n hwr hwd hwb hb1 hn hfuel
    by_cases hge : 0 ≤ r.cmp b
    · have hgeval : b.toVal ≤ r.toVal := (cmp_ge_iff r b hwr hwb).mp hge
      have hbne : b.data ≠ [] := by
        intro hnil
        have : b.toVal = 0 := by simp [toVal_eq_listVal, hnil, listVal_nil]
        omega
      have hrne : r.data ≠ [] := by
        intro hnil
        have : r.toVal = 0 := by simp [toVal_eq_listVal, hnil, listVal_nil]
        omega
      have hrpos : 1 ≤ r.toVal := by omega
      have hlenrb : b.data.length ≤ r.data.length := length_le_of_val_le b r hwb hwr hgeval
      have hblen1 : 1 ≤ b.data.length := by
        rcases hbn : b.data with _ | ⟨x, xs⟩
        · exact absurd hbn hbne
        · simp [hbn]
      have hn_le : n ≤ r.data.length := by
        rcases hn with h | ⟨h, hlt⟩ <;> omega
      have hsh : b.data.length - 1 ≤ r.data.length - n := by
        rcases hn with h | ⟨h, hlt⟩ <;> omega
      obtain ⟨d0, du, bu, hde, hwf_d0, hwf_du, hwf_bu, hduv, hbuv, hd0v⟩ :=
        div_estimate_spec r b n hwr hwb hbne hn_le hsh
      obtain ⟨hlastb, hbn1, hbnB⟩ := getLast_facts b hwb hbne
      set bn := b.data.getLastD 0 with hbn
      set E := listVal (r.data.drop (r.data.length - n)) / bn with hE
      set u := du.toVal with hu
      have hu1 : 1 ≤ u := by
        rw [hduv]
        exact Nat.one_le_pow _ _ digitBase_pos
      obtain ⟨hmulv, hwf_prod⟩ := mul_toVal b d0 hwb hwf_d0
      have hprodv : (b.mul d0).toVal = b.toVal * (E * u) := by rw [hmulv, hd0v]
      have hEprod : E ≤ (b.mul d0).toVal := by
        rw [hprodv]
        calc E = 1 * (E * 1) := by ring
          _ ≤ b.toVal * (E * u) := by
              apply Nat.mul_le_mul hb1
              apply Nat.mul_le_mul_left _ hu1
      obtain ⟨m2, d0c, prodc, hcorr, hc1, hc2, hc3, hc4, hc5, hc6, hc7⟩ :=
        correctLoop_spec ((b.mul d0).toVal + 1) E d0 (b.mul d0) du bu r b.toVal
          hwf_d0 hwf_prod hwf_du hwf_bu hwr hd0v hprodv hbuv hb1 hu1 (by omega)
      -- progress facts for the two entry configurations
      have hprog_eqlen : r.data.length = b.data.length → n = 1 → 1 ≤ m2 := by
        intro hleq hn1
        apply hc7
        · -- b * u ≤ r : u = 1 here
          have hshift0 : r.data.length - n - (b.data.length - 1) = 0 := by omega
          have hu1e : u = 1 := by
            rw [hduv, hshift0, pow_zero]
          rw [← hu, hu1e, Nat.mul_one]
          exact hgeval
        · -- E ≥ 1 : top digit of r at least bn
          have htop : bn ≤ r.data.getLastD 0 :=
            top_digit_le r b hwr hwb hrne hbne hleq hgeval
          have hdrop : r.data.drop (r.data.length - n) = [r.data.getLastD 0] := by
            have hlen1 : (r.data.drop (r.data.length - n)).length = 1 := by
              rw [List.length_drop]
              omega
            rcases hdd : r.data.drop (r.data.length - n) with _ | ⟨x, xs⟩
            · rw [hdd] at hlen1; simp at hlen1
            · rcases xs with _ | ⟨y, ys⟩
              · have hgl : (r.data.drop (r.data.length - n)).getLast? =
                    r.data.getLast? := getLast?_drop_of_lt _ _ (by omega)
                rw [hdd] at hgl
                simp only [List.getLast?_singleton] at hgl
                have : r.data.getLastD 0 = x := by
                  rw [List.getLastD_eq_getLast?, ← hgl]
                  rfl
                rw [this]
              · rw [hdd] at hlen1; simp at hlen1
          rw [hE, hdrop]
          have : listVal [r.data.getLastD 0] = r.data.getLastD 0 := by
            simp [listVal_cons, listVal_nil]
          rw [this]
          exact Nat.one_le_div_iff (by omega) |>.mpr htop
      have hprog_n2 : n = 2 → b.data.length < r.data.length → 1 ≤ m2 := by
        intro hn2 hlt
        apply hc7
        · -- b * u ≤ r
          have hblt : b.toVal < digitBase ^ b.data.length := listVal_lt b.data hwb.1
          have hrge : digitBase ^ (r.data.length - 1) ≤ r.toVal :=
            listVal_ge_of_normal r.data hrne hwr.2
          have hshiftv : u = digitBase ^ (r.data.length - n - (b.data.length - 1)) :=
            hduv
          have hcomb : b.toVal * u < digitBase ^ (r.data.length - 1) := by
            rw [hshiftv]
            have h1 : b.toVal * digitBase ^ (r.data.length - n - (b.data.length - 1)) <
                digitBase ^ b.data.length *
                  digitBase ^ (r.data.length - n - (b.data.length - 1)) :=
              Nat.mul_lt_mul_of_lt_of_le hblt le_rfl
                (Nat.pos_pow_of_pos _ digitBase_pos)
            have h2 : digitBase ^ b.data.length *
                digitBase ^ (r.data.length - n - (b.data.length - 1)) =
                digitBase ^ (b.data.length + (r.data.length - n - (b.data.length - 1))) := by
              rw [← pow_add]
            have h3 : b.data.length + (r.data.length - n - (b.data.length - 1)) ≤
                r.data.length - 1 := by omega
            have h4 : digitBase ^ (b.data.length + (r.data.length - n -
                (b.data.length - 1))) ≤ digitBase ^ (r.data.length - 1) :=
              Nat.pow_le_pow_right digitBase_pos h3
            omega
          rw [← hu]
          omega
        · -- E ≥ 1 : the top two digits of r are worth at least base > bn
          have hlen2 : (r.data.drop (r.data.length - n)).length = 2 := by
            rw [List.length_drop]
            omega
          have hgl : (r.data.drop (r.data.length - n)).getLast? =
              r.data.getLast? := getLast?_drop_of_lt _ _ (by omega)
          have hdne : r.data.drop (r.data.length - n) ≠ [] := by
            intro hnil
            rw [hnil] at hlen2
            simp at hlen2
          have hnormal : (r.data.drop (r.data.length - n)).getLast? ≠ some 0 := by
            rw [hgl]
            exact hwr.2
          have hge2 : digitBase ^ ((r.data.drop (r.data.length - n)).length - 1) ≤
              listVal (r.data.drop (r.data.length - n)) :=
            listVal_ge_of_normal _ hdne hnormal
          rw [hlen2] at hge2
          norm_num at hge2
          rw [hE]
          exact Nat.one_le_div_iff (by omega) |>.mpr (by omega)
      by_cases hzc : d0c.is_zero = true
      · -- corrected estimate came out zero: retry with n = 2
        have hd0c0 : d0c.toVal = 0 := (is_zero_iff d0c hc5).mp hzc
        have hm20 : m2 = 0 := by
          rw [hc1] at hd0c0
          rcases Nat.mul_eq_zero.mp hd0c0 with h | h
          · exact h
          · omega
        -- this cannot happen at n = 2
        have hn1 : n = 1 := by
          rcases hn with h | ⟨h2, hlt⟩
          · exact h
          · exact absurd (hprog_n2 h2 hlt) (by omega)
        -- and it forces the lengths to differ
        have hlt : b.data.length < r.data.length := by
          rcases Nat.lt_or_ge b.data.length r.data.length with h | h
          · exact h
          · have hleq : r.data.length = b.data.length := by omega
            exact absurd (hprog_eqlen hleq hn1) (by omega)
        have hloop : divmod_loop (fuel + 1) r d b n = divmod_loop fuel r d b 2 := by
          show (if 0 ≤ r.cmp b then _ else _) = _
          rw [if_pos hge, hde]
          dsimp only
          rw [hcorr]
          dsimp only
          rw [if_pos hzc]
        obtain ⟨q, rem, hrec, hv, hr2, hwq, hwrem⟩ :=
          ih r d b 2 hwr hwd hwb hb1 (Or.inr ⟨rfl, hlt⟩) (by omega)
        exact ⟨q, rem, by rw [hloop]; exact hrec, hv, hr2, hwq, hwrem⟩
      · -- successful step
        have hd0cpos : 1 ≤ d0c.toVal := by
          rcases Nat.eq_zero_or_pos d0c.toVal with h | h
          · exact absurd ((is_zero_iff d0c hc5).mpr h) hzc
          · exact h
        have hprodcpos : 1 ≤ prodc.toVal := by
          rw [hc2]
          exact Nat.mul_pos (by omega) (by omega)
        obtain ⟨hsubeq, hsubv, hwf_rq⟩ := sub?_of_le r prodc hwr.1 hc6.1 hc3
        have hloop : divmod_loop (fuel + 1) r d b n =
            divmod_loop fuel (r.subUnchecked prodc) (d.add d0c) b 1 := by
          show (if 0 ≤ r.cmp b then _ else _) = _
          rw [if_pos hge, hde]
          dsimp only
          rw [hcorr]
          dsimp only
          rw [if_neg hzc, hsubeq]
        have hrqval : (r.subUnchecked prodc).toVal + prodc.toVal = r.toVal := hsubv
        have hwf_dadd := add_wf d d0c hwd.1 hc5.1
        have haddv := add_toVal d d0c hwd.1 hc5.1
        obtain ⟨q, rem, hrec, hv, hr2, hwq, hwrem⟩ :=
          ih (r.subUnchecked prodc) (d.add d0c) b 1 hwf_rq hwf_dadd hwb hb1
            (Or.inl rfl) (by omega)
        refine ⟨q, rem, by rw [hloop]; exact hrec, ?_, hr2, hwq, hwrem⟩
        rw [haddv] at hv
        have hdist : b.toVal * (d.toVal + d0c.toVal) =
            b.toVal * d.toVal + b.toVal * d0c.toVal := by ring
        rw [hdist] at hv
        omega
    · -- r < b : the loop exits
      have hlt : r.toVal < b.toVal := by
        rcases cmp_spec r b hwr hwb with ⟨h1, h2⟩ | ⟨h1, h2⟩ | ⟨h1, h2⟩
        · exact h2
        · rw [h1] at hge; omega
        · rw [h1] at hge; omega
      refine ⟨d, r, ?_, by ring_nf, hlt, hwd, hwr⟩
      show (if 0 ≤ r.cmp b then _ else _) = _
      rw [if_neg hge]

/-- The normalization loop stops (given an iteration bound in reach) and
its last doubling started below the threshold. -/
theorem normShiftLoop_spec : ∀ fuel n s, 1 ≤ n →
    (∃ j, j < fuel ∧ 2 ^ (digitBits - 2) ≤ n * 2 ^ j) →
    ∃ shift, normShiftLoop fuel n s = some shift ∧ s ≤ shift ∧
      (shift = s ∨ n * 2 ^ (shift - s - 1) < 2 ^ (digitBits - 2)) := by
  intro fuel
  induction fuel with
  | zero =>
    intro n s _ hj
    obtain ⟨j, hj1, _⟩ := hj
    omega
  | succ fuel ih =>
    intro n s hn hj
    by_cases hlt : n < 2 ^ (digitBits - 2)
    · obtain ⟨j, hj1, hj2⟩ := hj
      have hjpos : 1 ≤ j := by
        by_contra hcon
        have : j = 0 := by omega
        rw [this, pow_zero, Nat.mul_one] at hj2
        omega
      obtain ⟨shift, hval, hle, hcase⟩ := ih (n * 2) (s + 1) (by omega)
        ⟨j - 1, by omega, by
          have : n * 2 * 2 ^ (j - 1) = n * 2 ^ j := by
            have hj3 : j - 1 + 1 = j := by omega
            calc n * 2 * 2 ^ (j - 1) = n * (2 ^ (j - 1) * 2) := by ring
              _ = n * 2 ^ (j - 1 + 1) := by rw [pow_succ]
              _ = n * 2 ^ j := by rw [hj3]
          omega⟩
      refine ⟨shift, ?_, by omega, ?_⟩
      · show (if n < 2 ^ (digitBits - 2) then _ else _) = _
        rw [if_pos hlt]
        exact hval
      · right
        rcases hcase with h | h
        · rw [h]
          simp only [Nat.add_sub_cancel_left, Nat.sub_self, pow_zero, Nat.mul_one]
          exact hlt
        · rcases Nat.eq_or_lt_of_le (show s + 1 ≤ shift from hle) with heq | hlt2
          · rw [← heq]
            simp only [Nat.add_sub_cancel_left, Nat.sub_self, pow_zero, Nat.mul_one]
            exact hlt
          · have h5 : shift - (s + 1) - 1 + 1 = shift - s - 1 := by omega
            have harr : n * 2 * 2 ^ (shift - (s + 1) - 1) = n * 2 ^ (shift - s - 1) := by
              calc n * 2 * 2 ^ (shift - (s + 1) - 1)
                  = n * (2 ^ (shift - (s + 1) - 1) * 2) := by ring
                _ = n * 2 ^ (shift - (s + 1) - 1 + 1) := by rw [pow_succ]
                _ = n * 2 ^ (shift - s - 1) := by rw [h5]
            omega
    · refine ⟨s, ?_, le_rfl, Or.inl rfl⟩
      show (if n < 2 ^ (digitBits - 2) then _ else _) = _
      rw [if_neg hlt]

/-- Full functional correctness of `BigUint::divmod` for a nonzero
divisor: it returns the Euclidean quotient and remainder. -/
theorem divmod_spec (a b : BigUint) (ha : WF a) (hb : WF b) (hbpos : 0 < b.toVal) :
    ∃ q r, BigUint.divmod a b = some (q, r) ∧
      a.toVal = b.toVal * q.toVal + r.toVal ∧ r.toVal < b.toVal ∧ WF q ∧ WF r := by
  have hbz : ¬ b.is_zero = true := by
    intro h
    rw [(is_zero_iff b hb).mp h] at hbpos
    omega
  unfold BigUint.divmod
  rw [if_neg hbz]
  by_cases haz : a.is_zero = true
  · rw [if_pos haz]
    refine ⟨BigUint.zero, BigUint.zero, rfl, ?_, ?_, wf_zero, wf_zero⟩
    · rw [(is_zero_iff a ha).mp haz, toVal_zero]
      ring
    · rw [toVal_zero]
      omega
  · rw [if_neg haz]
    by_cases hone : b.cmp BigUint.one = 0
    · rw [if_pos hone]
      have hb1 : b.toVal = 1 := by
        have := (cmp_eq_zero_iff b BigUint.one hb wf_one).mp hone
        rwa [toVal_one] at this
      refine ⟨a, BigUint.zero, rfl, ?_, ?_, ha, wf_zero⟩
      · rw [hb1, toVal_zero]
        ring
      · rw [toVal_zero]
        omega
    · rw [if_neg hone]
      by_cases hcmplt : a.cmp b < 0
      · rw [if_pos hcmplt]
        have hav : a.toVal < b.toVal := (cmp_lt_iff a b ha hb).mp hcmplt
        refine ⟨BigUint.zero, a, rfl, ?_, hav, wf_zero, ha⟩
        rw [toVal_zero]
        ring
      · rw [if_neg hcmplt]
        by_cases hcmpeq : a.cmp b = 0
        · rw [if_pos hcmpeq]
          have hav : a.toVal = b.toVal := (cmp_eq_zero_iff a b ha hb).mp hcmpeq
          refine ⟨BigUint.one, BigUint.zero, rfl, ?_, by rw [toVal_zero]; omega,
            wf_one, wf_zero⟩
          rw [toVal_one, toVal_zero, hav]
          ring
        · rw [if_neg hcmpeq]
          have hbne : b.data ≠ [] := by
            intro hnil
            have : b.toVal = 0 := by simp [toVal_eq_listVal, hnil, listVal_nil]
            omega
          obtain ⟨hlastb, hbn1, hbnB⟩ := getLast_facts b hb hbne
          rw [hlastb]
          dsimp only
          obtain ⟨shift, hsval, hsle, hscase⟩ :=
            normShiftLoop_spec digitBits (b.data.getLastD 0) 0 hbn1
              ⟨digitBits - 2, by decide,
                Nat.le_mul_of_pos_left (2 ^ (digitBits - 2)) hbn1⟩
          rw [hsval]
          dsimp only
          have hshiftlt : shift < digitBits := by
            rcases hscase with h | h
            · rw [h]
              decide
            · simp only [Nat.sub_zero] at h
              have h2 : 2 ^ (shift - 1) ≤ b.data.getLastD 0 * 2 ^ (shift - 1) :=
                Nat.le_mul_of_pos_left _ hbn1
              have h3 : 2 ^ (shift - 1) < 2 ^ (digitBits - 2) := by omega
              have h4 : shift - 1 < digitBits - 2 :=
                (Nat.pow_lt_pow_iff_right (by omega)).mp h3
              omega
          rw [if_pos hshiftlt]
          obtain ⟨hav, hwa⟩ := shl_toVal a shift ha
          obtain ⟨hbv, hwb2⟩ := shl_toVal b shift hb
          have hbpos2 : 1 ≤ (b.shl shift).toVal := by
            rw [hbv]
            have := Nat.pos_pow_of_pos shift (show 0 < 2 by omega)
            exact Nat.mul_pos hbpos this
          obtain ⟨q, rem, hloopeq, hlav, hlremlt, hwq, hwrem⟩ :=
            divmod_loop_spec (2 * (a.shl shift).toVal + 2) (a.shl shift) BigUint.zero
              (b.shl shift) 1 hwa wf_zero hwb2 hbpos2 (Or.inl rfl) (by omega)
          rw [hloopeq]
          obtain ⟨hremv, hwrem2⟩ := shr_toVal rem shift hwrem
          refine ⟨q, rem.shr shift, rfl, ?_, ?_, hwq, hwrem2⟩
          · -- a = b * q + rem / 2^shift
            rw [toVal_zero, Nat.mul_zero, Nat.zero_add] at hlav
            rw [hav, hbv] at hlav
            have hS : 0 < 2 ^ shift := Nat.pos_pow_of_pos _ (by omega)
            have harr : b.toVal * 2 ^ shift * q.toVal =
                b.toVal * q.toVal * 2 ^ shift := by ring
            rw [harr] at hlav
            have hle2 : b.toVal * q.toVal ≤ a.toVal := by
              have h1 : b.toVal * q.toVal * 2 ^ shift ≤ a.toVal * 2 ^ shift := by
                omega
              exact Nat.le_of_mul_le_mul_right h1 hS
            have hsubm : (a.toVal - b.toVal * q.toVal) * 2 ^ shift =
                a.toVal * 2 ^ shift - b.toVal * q.toVal * 2 ^ shift :=
              Nat.sub_mul _ _ _
            have hremeq : rem.toVal = (a.toVal - b.toVal * q.toVal) * 2 ^ shift := by
              omega
            rw [hremv, hremeq, Nat.mul_div_cancel _ hS]
            omega
          · -- rem / 2^shift < b
            rw [hremv]
            rw [hbv] at hlremlt
            have hS : 0 < 2 ^ shift := Nat.pos_pow_of_pos _ (by omega)
            rw [Nat.div_lt_iff_lt_mul hS]
            exact hlremlt

/-- C1: for well-formed magnitudes, `divmod` with a nonzero divisor returns
the Euclidean quotient and remainder (so all the fast paths hold in value),
and a zero divisor is a fatal failure (no value is returned). -/
theorem claim_C1 (a b : BigUint) (ha : WF a) (hb : WF b) :
    (b.toVal = 0 → BigUint.divmod a b = none) ∧
    (0 < b.toVal → ∃ q r, BigUint.divmod a b = some (q, r) ∧
      a.toVal = b.toVal * q.toVal + r.toVal ∧ r.toVal < b.toVal ∧
      (a.toVal = 0 → q.toVal = 0 ∧ r.toVal = 0) ∧
      (b.toVal = 1 → q.toVal = a.toVal ∧ r.toVal = 0) ∧
      (a.toVal < b.toVal → q.toVal = 0 ∧ r.toVal = a.toVal) ∧
      (a.toVal = b.toVal → q.toVal = 1 ∧ r.toVal = 0)) := by
  constructor
  · intro hb0
    have hz : b.is_zero = true := (is_zero_iff b hb).mpr hb0
    unfold BigUint.divmod
    rw [if_pos hz]
  · intro hbpos
    obtain ⟨q, r, heq, hval, hlt, hwq, hwr⟩ := divmod_spec a b ha hb hbpos
    refine ⟨q, r, heq, hval, hlt, ?_, ?_, ?_, ?_⟩
    · intro ha0
      rw [ha0] at hval
      have hq0 : b.toVal * q.toVal = 0 := by omega
      rcases Nat.mul_eq_zero.mp hq0 with h | h
      · omega
      · omega
    · intro hb1
      rw [hb1] at hval hlt
      omega
    · intro hab
      have hq0 : q.toVal = 0 := by
        by_contra hq
        have hq1 : 1 ≤ q.toVal := by omega
        have : b.toVal * 1 ≤ b.toVal * q.toVal := Nat.mul_le_mul_left _ hq1
        omega
      rw [hq0] at hval
      omega
    · intro hab
      rw [← hab] at hval hlt
      have hq1 : q.toVal = 1 := by
        rcases Nat.lt_or_ge q.toVal 1 with h | h
        · interval_cases hq : q.toVal
          omega
        · rcases Nat.lt_or_ge q.toVal 2 with h2 | h2
          · omega
          · exfalso
            have : a.toVal * 2 ≤ a.toVal * q.toVal := Nat.mul_le_mul_left _ h2
            omega
      rw [hq1] at hval
      omega



/-- C1 witness. -/
theorem claim_C1_witness :
    WF (BigUint.mk [7]) ∧ WF (BigUint.mk [3]) ∧
    ((BigUint.mk [3]).toVal = 0 →
      BigUint.divmod (BigUint.mk [7]) (BigUint.mk [3]) = none) ∧
    (0 < (BigUint.mk [3]).toVal → ∃ q r,
      BigUint.divmod (BigUint.mk [7]) (BigUint.mk [3]) = some (q, r) ∧
      (BigUint.mk [7]).toVal = (BigUint.mk [3]).toVal * q.toVal + r.toVal ∧
      r.toVal < (BigUint.mk [3]).toVal ∧
      ((BigUint.mk [7]).toVal = 0 → q.toVal = 0 ∧ r.toVal = 0) ∧
      ((BigUint.mk [3]).toVal = 1 → q.toVal = (BigUint.mk [7]).toVal ∧ r.toVal = 0) ∧
      ((BigUint.mk [7]).toVal < (BigUint.mk [3]).toVal →
        q.toVal = 0 ∧ r.toVal = (BigUint.mk [7]).toVal) ∧
      ((BigUint.mk [7]).toVal = (BigUint.mk [3]).toVal →
        q.toVal = 1 ∧ r.toVal = 0)) :=
  ⟨by decide, by decide, claim_C1 (BigUint.mk [7]) (BigUint.mk [3]) (by decide) (by decide)⟩

/-- C3: for well-formed magnitudes, the Karatsuba multiplication computes
exactly the mathematical product of the represented numbers, and the
result is well-formed. -/
theorem claim_C3 (a b : BigUint) (ha : WF a) (hb : WF b) :
    (BigUint.mul a b).toVal = a.toVal * b.toVal ∧ WF (BigUint.mul a b) :=
  mul_toVal a b ha hb

/-- C3 witness. -/
theorem claim_C3_witness :
    WF (BigUint.mk [1, 2]) ∧ WF (BigUint.mk [3, 4]) ∧
    ((BigUint.mul (BigUint.mk [1, 2]) (BigUint.mk [3, 4])).toVal =
      (BigUint.mk [1, 2]).toVal * (BigUint.mk [3, 4]).toVal ∧
      WF (BigUint.mul (BigUint.mk [1, 2]) (BigUint.mk [3, 4]))) :=
  ⟨by decide, by decide, claim_C3 (BigUint.mk [1, 2]) (BigUint.mk [3, 4]) (by decide) (by decide)⟩

/-- C6: `BigUint::new` yields exactly the input with trailing zeros
removed (with the two concrete examples), and all public constructors
and arithmetic results are normalized (no trailing zero digit, zero
being the empty vector). -/
theorem claim_C6 :
    (∀ v : List Nat, (BigUint.new v).data = stripTrailingZeros v ∧ Normal (BigUint.new v)) ∧
    (BigUint.new [1, 2, 0, 0]).data = [1, 2] ∧
    (BigUint.new [0, 0, 0]).data = [] ∧
    BigUint.zero.data = [] ∧ Normal BigUint.zero ∧ Normal BigUint.one ∧
    (∀ n, Normal (BigUint.from_uint n)) ∧
    (∀ a b : BigUint, Bounded a → Bounded b → Normal (BigUint.add a b)) ∧
    (∀ a b : BigUint, WF a → WF b → Normal (BigUint.mul a b)) ∧
    (∀ a b : BigUint, Bounded a → Bounded b → b.toVal ≤ a.toVal →
      Normal (BigUint.subUnchecked a b)) ∧
    (∀ a : BigUint, ∀ n, WF a → Normal (a.shl n) ∧ Normal (a.shr n)) := by
  refine ⟨?_, by decide, by decide, rfl, ?_, ?_, ?_, ?_, ?_, ?_, ?_⟩
  · intro v
    exact ⟨new_data_eq_strip v, normal_new v⟩
  · exact wf_zero.2
  · exact wf_one.2
  · intro n
    unfold BigUint.from_uint
    rcases hfu : fromUint n with ⟨n1, n0⟩
    rcases n1 with _ | n1 <;> rcases n0 with _ | n0
    · exact wf_zero.2
    · exact normal_new _
    · exact normal_new _
    · exact normal_new _
  · intro a b ha hb
    exact (add_wf a b ha hb).2
  · intro a b ha hb
    exact (mul_toVal a b ha hb).2.2
  · intro a b ha hb hle
    exact (sub?_of_le a b ha hb hle).2.2.2
  · intro a n ha
    exact ⟨(shl_toVal a n ha).2.2, (shr_toVal a n ha).2.2⟩

/-- C6 witness. -/
theorem claim_C6_witness :
    WF (BigUint.mk [1, 2]) ∧ WF (BigUint.mk [3]) ∧
    Normal (BigUint.mul (BigUint.mk [1, 2]) (BigUint.mk [3])) :=
  ⟨by decide, by decide,
    (claim_C6.2.2.2.2.2.2.2.2.1) (BigUint.mk [1, 2]) (BigUint.mk [3]) (by decide) (by decide)⟩

/-- C8: shifting left then right by the same amount restores a
well-formed value exactly; a shift by 0 and any shift of zero are
no-ops. -/
theorem claim_C8 (x : BigUint) (n : Nat) (hx : WF x) :
    (x.shl n).shr n = x ∧ x.shl 0 = x ∧ x.shr 0 = x ∧
    BigUint.zero.shl n = BigUint.zero ∧ BigUint.zero.shr n = BigUint.zero := by
  obtain ⟨hslv, hslw⟩ := shl_toVal x n hx
  obtain ⟨hsrv, hsrw⟩ := shr_toVal (x.shl n) n hslw
  have hzd : BigUint.zero.data.isEmpty = true := rfl
  refine ⟨?_, ?_, ?_, ?_, ?_⟩
  · apply wf_val_inj _ _ hsrw hx
    rw [hsrv, hslv]
    exact Nat.mul_div_cancel _ (Nat.pos_pow_of_pos _ (by omega))
  · show (x.shl_unit (0 / digitBits)).shl_bits (0 % digitBits) = x
    rw [Nat.zero_div, Nat.zero_mod]
    unfold BigUint.shl_unit
    rw [if_pos (by simp)]
    unfold BigUint.shl_bits
    rw [if_pos (by simp)]
  · show (x.shr_unit (0 / digitBits)).shr_bits (0 % digitBits) = x
    rw [Nat.zero_div, Nat.zero_mod]
    unfold BigUint.shr_unit
    rw [if_pos rfl]
    unfold BigUint.shr_bits
    rw [if_pos (by simp)]
  · show (BigUint.zero.shl_unit (n / digitBits)).shl_bits (n % digitBits) = BigUint.zero
    unfold BigUint.shl_unit
    rw [if_pos (by rw [hzd, Bool.or_true])]
    unfold BigUint.shl_bits
    rw [if_pos (by rw [hzd, Bool.or_true])]
  · show (BigUint.zero.shr_unit (n / digitBits)).shr_bits (n % digitBits) = BigUint.zero
    have hz : BigUint.zero.shr_unit (n / digitBits) = BigUint.zero := by
      unfold BigUint.shr_unit
      by_cases h0 : n / digitBits = 0
      · rw [if_pos h0]
      · rw [if_neg h0, if_pos (show BigUint.zero.data.length < n / digitBits by
          rw [zero_data]
          simp only [List.length_nil]
          exact Nat.pos_of_ne_zero h0)]
    rw [hz]
    unfold BigUint.shr_bits
    rw [if_pos (by rw [hzd, Bool.or_true])]

/-- C8 witness. -/
theorem claim_C8_witness :
    WF (BigUint.mk [5]) ∧
    (((BigUint.mk [5]).shl 33).shr 33 = BigUint.mk [5] ∧
      (BigUint.mk [5]).shl 0 = BigUint.mk [5] ∧
      (BigUint.mk [5]).shr 0 = BigUint.mk [5] ∧
      BigUint.zero.shl 33 = BigUint.zero ∧ BigUint.zero.shr 33 = BigUint.zero) :=
  ⟨by decide, claim_C8 (BigUint.mk [5]) 33 (by decide)⟩

/-- C9: when `a >= b`, `sub` returns the unique well-formed difference
and the borrow assertion passes; when `a < b` it fails fatally with no
returned value. -/
theorem claim_C9 (a b : BigUint) (ha : WF a) (hb : WF b) :
    (b.toVal ≤ a.toVal → ∃ c, BigUint.sub? a b = some c ∧
      b.toVal + c.toVal = a.toVal ∧ WF c ∧
      ∀ c2 : BigUint, WF c2 → b.toVal + c2.toVal = a.toVal → c2 = c) ∧
    (a.toVal < b.toVal → BigUint.sub? a b = none) := by
  constructor
  · intro hle
    obtain ⟨heq, hval, hwf⟩ := sub?_of_le a b ha.1 hb.1 hle
    refine ⟨BigUint.subUnchecked a b, heq, by omega, hwf, ?_⟩
    intro c2 hc2 hval2
    exact wf_val_inj c2 _ hc2 hwf (by omega)
  · intro hlt
    exact sub?_of_lt a b ha.1 hb.1 hlt

/-- C9 witness. -/
theorem claim_C9_witness :
    WF (BigUint.mk [7]) ∧ WF (BigUint.mk [3]) ∧
    (((BigUint.mk [3]).toVal ≤ (BigUint.mk [7]).toVal → ∃ c,
      BigUint.sub? (BigUint.mk [7]) (BigUint.mk [3]) = some c ∧
      (BigUint.mk [3]).toVal + c.toVal = (BigUint.mk [7]).toVal ∧ WF c ∧
      ∀ c2 : BigUint, WF c2 →
        (BigUint.mk [3]).toVal + c2.toVal = (BigUint.mk [7]).toVal → c2 = c) ∧
    ((BigUint.mk [7]).toVal < (BigUint.mk [3]).toVal →
      BigUint.sub? (BigUint.mk [7]) (BigUint.mk [3]) = none)) :=
  ⟨by decide, by decide, claim_C9 (BigUint.mk [7]) (BigUint.mk [3]) (by decide) (by decide)⟩

/-- C10: unsigned negation is a fatal failure on every input, zero
included: it never returns a value. -/
theorem claim_C10 : ∀ a : BigUint, BigUint.neg a = none := fun _ => rfl



/-- Source `Sign`: the sign carried by a `BigInt`. -/
inductive Sign where
  | Minus
  | Zero
  | Plus
deriving DecidableEq

/-- Source `Sign::cmp`. -/
def Sign.cmpSign : Sign → Sign → Int
  | Sign.Minus, Sign.Minus => 0
  | Sign.Zero, Sign.Zero => 0
  | Sign.Plus, Sign.Plus => 0
  | Sign.Minus, Sign.Zero => -1
  | Sign.Minus, Sign.Plus => -1
  | Sign.Zero, Sign.Plus => -1
  | _, _ => 1

/-- Source `Sign::neg`. -/
def Sign.neg : Sign → Sign
  | Sign.Minus => Sign.Plus
  | Sign.Zero => Sign.Zero
  | Sign.Plus => Sign.Minus

/-- Source `BigInt`: a sign and a magnitude. -/
structure BigInt where
  sign : Sign
  data : BigUint

/-- Source `BigInt::from_biguint`: a Zero sign or a zero magnitude is
canonicalized to the canonical zero. -/
def BigInt.from_biguint (sign : Sign) (data : BigUint) : BigInt :=
  if sign = Sign.Zero ∨ data.is_zero = true then ⟨Sign.Zero, BigUint.zero⟩
  else ⟨sign, data⟩

/-- Source `Zero::zero()` for BigInt. -/
def BigInt.zero : BigInt := BigInt.from_biguint Sign.Zero BigUint.zero

/-- Source `One::one()` for BigInt. -/
def BigInt.one : BigInt := BigInt.from_biguint Sign.Plus BigUint.one

/-- Source `Neg<BigInt>`: negate the sign, keep the magnitude. -/
def BigInt.neg (a : BigInt) : BigInt := BigInt.from_biguint a.sign.neg a.data

/-- Source `BigInt::is_zero`: `self.sign == Zero`. -/
def BigInt.is_zero (a : BigInt) : Bool := a.sign = Sign.Zero

/-- The signed integer a `BigInt` represents. -/
def BigInt.toIntVal (a : BigInt) : Int :=
  match a.sign with
  | Sign.Plus => (a.data.toVal : Int)
  | Sign.Zero => 0
  | Sign.Minus => -(a.data.toVal : Int)

/-- WFI: a well-formed magnitude paired with a sign satisfying the
source's sign invariant (Zero exactly on the zero magnitude). -/
def WFI (a : BigInt) : Prop := WF a.data ∧ (a.sign = Sign.Zero ↔ a.data.toVal = 0)

instance (a : BigInt) : Decidable (WFI a) := by
  unfold WFI
  infer_instance

/-- Rank of a sign for the mutual add/sub termination measure. -/
def signRank (s : Sign) : Nat := if s = Sign.Minus then 1 else 0

theorem signRank_neg_of_minus (d : BigUint) :
    signRank (BigInt.neg ⟨Sign.Minus, d⟩).sign = 0 := by
  unfold BigInt.neg BigInt.from_biguint
  split <;> rfl

mutual
/-- Source `Add<BigInt, BigInt>`: sign analysis delegating the mixed
cases to subtraction.  A failing inner magnitude subtraction
(impossible on canonical operands) propagates as `none`. -/
def BigInt.add (a b : BigInt) : Option BigInt :=
  match a, b with
  | ⟨Sign.Zero, _⟩, b => some b
  | a, ⟨Sign.Zero, _⟩ => some a
  | ⟨Sign.Plus, da⟩, ⟨Sign.Plus, db⟩ =>
      some (BigInt.from_biguint Sign.Plus (da.add db))
  | ⟨Sign.Plus, da⟩, ⟨Sign.Minus, db⟩ =>
      BigInt.sub ⟨Sign.Plus, da⟩ (BigInt.neg ⟨Sign.Minus, db⟩)
  | ⟨Sign.Minus, da⟩, ⟨Sign.Plus, db⟩ =>
      BigInt.sub ⟨Sign.Plus, db⟩ (BigInt.neg ⟨Sign.Minus, da⟩)
  | ⟨Sign.Minus, da⟩, ⟨Sign.Minus, db⟩ =>
      match BigInt.add (BigInt.neg ⟨Sign.Minus, da⟩) (BigInt.neg ⟨Sign.Minus, db⟩) with
      | some r => some (BigInt.neg r)
      | none => none
termination_by signRank a.sign + signRank b.sign
decreasing_by
  all_goals simp only [signRank_neg_of_minus] <;> simp [signRank] <;> omega

/-- Source `Sub<BigInt, BigInt>`: compare magnitudes in the
plus/plus case, else reduce to addition through negation. -/
def BigInt.sub (a b : BigInt) : Option BigInt :=
  match a, b with
  | ⟨Sign.Zero, _⟩, b => some (BigInt.neg b)
  | a, ⟨Sign.Zero, _⟩ => some a
  | ⟨Sign.Plus, da⟩, ⟨Sign.Plus, db⟩ =>
      if da.cmp db < 0 then
        match BigUint.sub? db da with
        | some d => some (BigInt.from_biguint Sign.Minus d)
        | none => none
      else if 0 < da.cmp db then
        match BigUint.sub? da db with
        | some d => some (BigInt.from_biguint Sign.Plus d)
        | none => none
      else some BigInt.zero
  | ⟨Sign.Plus, da⟩, ⟨Sign.Minus, db⟩ =>
      BigInt.add ⟨Sign.Plus, da⟩ (BigInt.neg ⟨Sign.Minus, db⟩)
  | ⟨Sign.Minus, da⟩, ⟨Sign.Plus, db⟩ =>
      match BigInt.add (BigInt.neg ⟨Sign.Minus, da⟩) ⟨Sign.Plus, db⟩ with
      | some r => some (BigInt.neg r)
      | none => none
  | ⟨Sign.Minus, da⟩, ⟨Sign.Minus, db⟩ =>
      BigInt.sub (BigInt.neg ⟨Sign.Minus, db⟩) (BigInt.neg ⟨Sign.Minus, da⟩)
termination_by signRank a.sign + signRank b.sign
decreasing_by
  all_goals simp only [signRank_neg_of_minus] <;> simp [signRank] <;> omega
end

/-- Source `Mul<BigInt, BigInt>`: multiply magnitudes, signs by the
sign rule. -/
def BigInt.mul (a b : BigInt) : BigInt :=
  match a.sign, b.sign with
  | Sign.Zero, _ => BigInt.zero
  | _, Sign.Zero => BigInt.zero
  | Sign.Plus, Sign.Plus => BigInt.from_biguint Sign.Plus (a.data.mul b.data)
  | Sign.Minus, Sign.Minus => BigInt.from_biguint Sign.Plus (a.data.mul b.data)
  | Sign.Plus, Sign.Minus => BigInt.from_biguint Sign.Minus (a.data.mul b.data)
  | Sign.Minus, Sign.Plus => BigInt.from_biguint Sign.Minus (a.data.mul b.data)

/-- Source `BigInt::divmod` (floor convention): unsigned divmod of the
magnitudes, then a sign fixup; a zero divisor is fatal (`none`). -/
def BigInt.divmod (a b : BigInt) : Option (BigInt × BigInt) :=
  match BigUint.divmod a.data b.data with
  | none => none
  | some (d_ui, m_ui) =>
    let d := BigInt.from_biguint Sign.Plus d_ui
    let m := BigInt.from_biguint Sign.Plus m_ui
    match a.sign, b.sign with
    | _, Sign.Zero => none
    | Sign.Plus, Sign.Plus => some (d, m)
    | Sign.Zero, Sign.Plus => some (d, m)
    | Sign.Plus, Sign.Minus =>
      if m.is_zero then some (BigInt.neg d, BigInt.zero)
      else
        match BigInt.sub (BigInt.neg d) BigInt.one, BigInt.add m b with
        | some q, some r => some (q, r)
        | _, _ => none
    | Sign.Zero, Sign.Minus =>
      if m.is_zero then some (BigInt.neg d, BigInt.zero)
      else
        match BigInt.sub (BigInt.neg d) BigInt.one, BigInt.add m b with
        | some q, some r => some (q, r)
        | _, _ => none
    | Sign.Minus, Sign.Plus =>
      if m.is_zero then some (BigInt.neg d, BigInt.zero)
      else
        match BigInt.sub (BigInt.neg d) BigInt.one, BigInt.sub b m with
        | some q, some r => some (q, r)
        | _, _ => none
    | Sign.Minus, Sign.Minus => some (d, BigInt.neg m)

/-- Source `BigInt::quotrem` (truncate convention). -/
def BigInt.quotrem (a b : BigInt) : Option (BigInt × BigInt) :=
  match BigUint.quotrem a.data b.data with
  | none => none
  | some (q_ui, r_ui) =>
    let q := BigInt.from_biguint Sign.Plus q_ui
    let r := BigInt.from_biguint Sign.Plus r_ui
    match a.sign, b.sign with
    | _, Sign.Zero => none
    | Sign.Plus, Sign.Plus => some (q, r)
    | Sign.Zero, Sign.Plus => some (q, r)
    | Sign.Plus, Sign.Minus => some (BigInt.neg q, r)
    | Sign.Zero, Sign.Minus => some (BigInt.neg q, r)
    | Sign.Minus, Sign.Plus => some (BigInt.neg q, BigInt.neg r)
    | Sign.Minus, Sign.Minus => some (q, BigInt.neg r)

/-- Source `BigUint::to_uint`: exact for at most two digits, the
machine maximum beyond. -/
def BigUint.to_uint (a : BigUint) : Nat :=
  match a.data with
  | [] => 0
  | [n0] => n0
  | [n0, n1] => toUint n1 n0
  | _ => uintMaxValue

/-- Source `BigInt::to_uint`: zero on nonpositive values. -/
def BigInt.to_uint (a : BigInt) : Nat :=
  match a.sign with
  | Sign.Plus => a.data.to_uint
  | Sign.Zero => 0
  | Sign.Minus => 0

/-- The `as int` cast of a 64-bit unsigned word: two's complement
reinterpretation. -/
def uintAsInt (n : Nat) : Int :=
  if n % 2 ^ uintBits < 2 ^ 63 then ((n % 2 ^ uintBits : Nat) : Int)
  else ((n % 2 ^ uintBits : Nat) : Int) - 2 ^ uintBits

/-- Source `BigInt::to_int`: clamp the unsigned conversion and
reinterpret; the Minus arm clamps the magnitude of the negation at
`int::max_value + 1`. -/
def BigInt.to_int (a : BigInt) : Int :=
  match a.sign with
  | Sign.Plus => uintAsInt (min a.to_uint intMaxValue)
  | Sign.Zero => 0
  | Sign.Minus => uintAsInt (min (BigInt.neg a).to_uint (intMaxValue + 1))

theorem toIntVal_plus (a : BigInt) (h : a.sign = Sign.Plus) :
    a.toIntVal = (a.data.toVal : Int) := by
  unfold BigInt.toIntVal
  rw [h]

theorem toIntVal_zero_sign (a : BigInt) (h : a.sign = Sign.Zero) :
    a.toIntVal = 0 := by
  unfold BigInt.toIntVal
  rw [h]

theorem toIntVal_minus (a : BigInt) (h : a.sign = Sign.Minus) :
    a.toIntVal = -(a.data.toVal : Int) := by
  unfold BigInt.toIntVal
  rw [h]

/-- `from_biguint` with any sign: well-formedness and value. -/
theorem from_biguint_spec (s : Sign) (d : BigUint) (hd : WF d) :
    WFI (BigInt.from_biguint s d) ∧
    ((s = Sign.Zero ∨ d.toVal = 0) →
      BigInt.from_biguint s d = ⟨Sign.Zero, BigUint.zero⟩) ∧
    (s = Sign.Plus → (BigInt.from_biguint s d).toIntVal = (d.toVal : Int)) ∧
    (s = Sign.Minus → (BigInt.from_biguint s d).toIntVal = -(d.toVal : Int)) := by
  unfold BigInt.from_biguint
  by_cases h : s = Sign.Zero ∨ d.is_zero = true
  · rw [if_pos h]
    have hz : ∀ t : Sign, (⟨Sign.Zero, BigUint.zero⟩ : BigInt).toIntVal = 0 := by
      intro t
      rfl
    refine ⟨⟨wf_zero, by constructor <;> intro <;> rfl⟩, fun _ => rfl, ?_, ?_⟩
    · intro hs
      rcases h with h | h
      · rw [hs] at h
        exact absurd h (by decide)
      · rw [hz Sign.Plus, (is_zero_iff d hd).mp h]
        rfl
    · intro hs
      rcases h with h | h
      · rw [hs] at h
        exact absurd h (by decide)
      · rw [hz Sign.Minus, (is_zero_iff d hd).mp h]
        rfl
  · rw [if_neg h]
    push_neg at h
    obtain ⟨hs0, hdz⟩ := h
    have hdv : d.toVal ≠ 0 := by
      intro h0
      exact hdz ((is_zero_iff d hd).mpr h0)
    refine ⟨⟨hd, by constructor <;> intro h2 <;> [exact absurd h2 hs0; exact absurd h2 hdv]⟩,
      ?_, ?_, ?_⟩
    · intro hcase
      rcases hcase with h | h
      · exact absurd h hs0
      · exact absurd h hdv
    · intro hs
      show BigInt.toIntVal ⟨s, d⟩ = _
      unfold BigInt.toIntVal
      rw [hs]
    · intro hs
      show BigInt.toIntVal ⟨s, d⟩ = _
      unfold BigInt.toIntVal
      rw [hs]

theorem wfi_zero : WFI BigInt.zero := by
  constructor
  · exact wf_zero
  · constructor <;> intro <;> rfl

theorem toIntVal_zeroI : BigInt.zero.toIntVal = 0 := rfl

theorem wfi_one : WFI BigInt.one := by
  refine ⟨?_, ?_⟩
  · show WF (BigInt.one).data
    have : BigInt.one = ⟨Sign.Plus, BigUint.one⟩ := by
      unfold BigInt.one BigInt.from_biguint
      rw [if_neg (by decide)]
    rw [this]
    exact wf_one
  · have : BigInt.one = ⟨Sign.Plus, BigUint.one⟩ := by
      unfold BigInt.one BigInt.from_biguint
      rw [if_neg (by decide)]
    rw [this]
    constructor
    · intro h
      exact absurd h (by decide)
    · intro h
      rw [toVal_one] at h
      omega

theorem toIntVal_oneI : BigInt.one.toIntVal = 1 := by
  have : BigInt.one = ⟨Sign.Plus, BigUint.one⟩ := by
    unfold BigInt.one BigInt.from_biguint
    rw [if_neg (by decide)]
  rw [this, toIntVal_plus _ rfl]
  show ((BigUint.one.toVal : Nat) : Int) = 1
  rw [toVal_one]
  rfl

/-- Negation: value is negated, well-formedness preserved. -/
theorem neg_spec (a : BigInt) (h : WFI a) :
    WFI (BigInt.neg a) ∧ (BigInt.neg a).toIntVal = -a.toIntVal := by
  obtain ⟨hwf, hiff⟩ := h
  unfold BigInt.neg
  obtain ⟨hw2, hcanon, hplus, hminus⟩ := from_biguint_spec a.sign.neg a.data hwf
  refine ⟨hw2, ?_⟩
  rcases hs : a.sign with _ | _ | _
  all_goals rw [hs] at hcanon hplus hminus
  · rw [hplus (by decide), toIntVal_minus a hs]
    ring
  · rw [hcanon (Or.inl (by decide)), toIntVal_zero_sign a hs]
    rfl
  · rw [hminus (by decide), toIntVal_plus a hs]

theorem from_biguint_plus_sign_ne_minus (d : BigUint) :
    (BigInt.from_biguint Sign.Plus d).sign ≠ Sign.Minus := by
  unfold BigInt.from_biguint
  split <;> simp

theorem neg_minus_sign_ne_minus (d : BigUint) :
    (BigInt.neg ⟨Sign.Minus, d⟩).sign ≠ Sign.Minus := by
  unfold BigInt.neg
  exact from_biguint_plus_sign_ne_minus d

/-- `sub` on two nonnegative values: always succeeds and subtracts. -/
theorem sub_nonneg_spec (a b : BigInt) (hna : a.sign ≠ Sign.Minus)
    (hnb : b.sign ≠ Sign.Minus) (wa : WFI a) (wb : WFI b) :
    ∃ r, BigInt.sub a b = some r ∧ WFI r ∧
      r.toIntVal = a.toIntVal - b.toIntVal := by
  obtain ⟨hwa, hia⟩ := wa
  obtain ⟨hwb, hib⟩ := wb
  rcases a with ⟨sa, da⟩
  rcases b with ⟨sb, db⟩
  simp only at hwa hwb hia hib hna hnb
  rcases sa with _ | _ | _
  · exact absurd rfl hna
  · -- a has sign Zero
    refine ⟨BigInt.neg ⟨sb, db⟩, ?_, ?_, ?_⟩
    · simp only [BigInt.sub]
    · exact (neg_spec ⟨sb, db⟩ ⟨hwb, hib⟩).1
    · rw [(neg_spec ⟨sb, db⟩ ⟨hwb, hib⟩).2,
        toIntVal_zero_sign (⟨Sign.Zero, da⟩ : BigInt) rfl]
      ring
  · rcases sb with _ | _ | _
    · exact absurd rfl hnb
    · -- b has sign Zero: result is a
      refine ⟨⟨Sign.Plus, da⟩, ?_, ⟨hwa, hia⟩, ?_⟩
      · simp only [BigInt.sub]
      · rw [toIntVal_zero_sign (⟨Sign.Zero, db⟩ : BigInt) rfl]
        ring
    · -- Plus, Plus
      by_cases h1 : da.cmp db < 0
      · have hlt : da.toVal < db.toVal := (cmp_lt_iff da db hwa hwb).mp h1
        obtain ⟨heq, hval, hwc⟩ := sub?_of_le db da hwb.1 hwa.1 (le_of_lt hlt)
        obtain ⟨hwfi, _, _, hm⟩ :=
          from_biguint_spec Sign.Minus (BigUint.subUnchecked db da) hwc
        refine ⟨BigInt.from_biguint Sign.Minus (BigUint.subUnchecked db da), ?_,
          hwfi, ?_⟩
        · simp only [BigInt.sub]
          rw [if_pos h1, heq]
        · rw [hm rfl, toIntVal_plus (⟨Sign.Plus, da⟩ : BigInt) rfl,
            toIntVal_plus (⟨Sign.Plus, db⟩ : BigInt) rfl]
          show -((BigUint.subUnchecked db da).toVal : Int) = (da.toVal : Int) - db.toVal
          omega
      · by_cases h2 : 0 < da.cmp db
        · have hgt : db.toVal < da.toVal := (cmp_pos_iff da db hwa hwb).mp h2
          obtain ⟨heq, hval, hwc⟩ := sub?_of_le da db hwa.1 hwb.1 (le_of_lt hgt)
          obtain ⟨hwfi, _, hp, _⟩ :=
            from_biguint_spec Sign.Plus (BigUint.subUnchecked da db) hwc
          refine ⟨BigInt.from_biguint Sign.Plus (BigUint.subUnchecked da db), ?_,
            hwfi, ?_⟩
          · simp only [BigInt.sub]
            rw [if_neg h1, if_pos h2, heq]
          · rw [hp rfl, toIntVal_plus (⟨Sign.Plus, da⟩ : BigInt) rfl,
              toIntVal_plus (⟨Sign.Plus, db⟩ : BigInt) rfl]
            dsimp only
            omega
        · have hcz : da.cmp db = 0 := by omega
          have hv : da.toVal = db.toVal := (cmp_eq_zero_iff da db hwa hwb).mp hcz
          refine ⟨BigInt.zero, ?_, wfi_zero, ?_⟩
          · simp only [BigInt.sub]
            rw [if_neg h1, if_neg (by omega)]
          · rw [toIntVal_zeroI, toIntVal_plus (⟨Sign.Plus, da⟩ : BigInt) rfl,
              toIntVal_plus (⟨Sign.Plus, db⟩ : BigInt) rfl]
            dsimp only
            omega

/-- `add` on two nonnegative values: always succeeds and adds. -/
theorem add_nonneg_spec (a b : BigInt) (hna : a.sign ≠ Sign.Minus)
    (hnb : b.sign ≠ Sign.Minus) (wa : WFI a) (wb : WFI b) :
    ∃ r, BigInt.add a b = some r ∧ WFI r ∧
      r.toIntVal = a.toIntVal + b.toIntVal := by
  obtain ⟨hwa, hia⟩ := wa
  obtain ⟨hwb, hib⟩ := wb
  rcases a with ⟨sa, da⟩
  rcases b with ⟨sb, db⟩
  simp only at hwa hwb hia hib hna hnb
  rcases sa with _ | _ | _
  · exact absurd rfl hna
  · refine ⟨⟨sb, db⟩, ?_, ⟨hwb, hib⟩, ?_⟩
    · simp only [BigInt.add]
    · rw [toIntVal_zero_sign (⟨Sign.Zero, da⟩ : BigInt) rfl]
      ring
  · rcases sb with _ | _ | _
    · exact absurd rfl hnb
    · refine ⟨⟨Sign.Plus, da⟩, ?_, ⟨hwa, hia⟩, ?_⟩
      · simp only [BigInt.add]
      · rw [toIntVal_zero_sign (⟨Sign.Zero, db⟩ : BigInt) rfl]
        ring
    · obtain ⟨hwfi, _, hp, _⟩ := from_biguint_spec Sign.Plus (da.add db)
        (add_wf da db hwa.1 hwb.1)
      refine ⟨BigInt.from_biguint Sign.Plus (da.add db), ?_, hwfi, ?_⟩
      · simp only [BigInt.add]
      · rw [hp rfl, add_toVal da db hwa.1 hwb.1,
          toIntVal_plus (⟨Sign.Plus, da⟩ : BigInt) rfl,
          toIntVal_plus (⟨Sign.Plus, db⟩ : BigInt) rfl]
        push_cast
        ring

/-- Signed addition: total on well-formed operands, with the integer sum. -/
theorem add_spec (a b : BigInt) (wa : WFI a) (wb : WFI b) :
    ∃ r, BigInt.add a b = some r ∧ WFI r ∧
      r.toIntVal = a.toIntVal + b.toIntVal := by
  rcases hsa : a.sign with _ | _ | _
  · rcases hsb : b.sign with _ | _ | _
    · -- Minus, Minus
      rcases a with ⟨sa, da⟩
      rcases b with ⟨sb, db⟩
      simp only at hsa hsb
      subst hsa
      subst hsb
      obtain ⟨hna1, hna2⟩ := neg_spec ⟨Sign.Minus, da⟩ wa
      obtain ⟨hnb1, hnb2⟩ := neg_spec ⟨Sign.Minus, db⟩ wb
      obtain ⟨r, hr, hwr, hvr⟩ := add_nonneg_spec (BigInt.neg ⟨Sign.Minus, da⟩)
        (BigInt.neg ⟨Sign.Minus, db⟩) (neg_minus_sign_ne_minus da)
        (neg_minus_sign_ne_minus db) hna1 hnb1
      obtain ⟨hrr1, hrr2⟩ := neg_spec r hwr
      refine ⟨BigInt.neg r, ?_, hrr1, ?_⟩
      · simp only [BigInt.add]
        rw [hr]
      · rw [hrr2, hvr, hna2, hnb2]
        ring
    · -- Minus, Zero
      rcases a with ⟨sa, da⟩
      rcases b with ⟨sb, db⟩
      simp only at hsa hsb
      subst hsa
      subst hsb
      refine ⟨⟨Sign.Minus, da⟩, ?_, wa, ?_⟩
      · simp only [BigInt.add]
      · rw [toIntVal_zero_sign (⟨Sign.Zero, db⟩ : BigInt) rfl]
        ring
    · -- Minus, Plus: b - (-a)
      rcases a with ⟨sa, da⟩
      rcases b with ⟨sb, db⟩
      simp only at hsa hsb
      subst hsa
      subst hsb
      obtain ⟨hna1, hna2⟩ := neg_spec ⟨Sign.Minus, da⟩ wa
      obtain ⟨r, hr, hwr, hvr⟩ := sub_nonneg_spec ⟨Sign.Plus, db⟩
        (BigInt.neg ⟨Sign.Minus, da⟩) (by simp) (neg_minus_sign_ne_minus da) wb hna1
      refine ⟨r, ?_, hwr, ?_⟩
      · simp only [BigInt.add]
        rw [hr]
      · rw [hvr, hna2]
        ring
  · -- Zero, _
    refine ⟨b, ?_, wb, ?_⟩
    · rcases a with ⟨sa, da⟩
      simp only at hsa
      subst hsa
      simp only [BigInt.add]
    · rw [toIntVal_zero_sign a hsa]
      ring
  · rcases hsb : b.sign with _ | _ | _
    · -- Plus, Minus: a - (-b)
      rcases a with ⟨sa, da⟩
      rcases b with ⟨sb, db⟩
      simp only at hsa hsb
      subst hsa
      subst hsb
      obtain ⟨hnb1, hnb2⟩ := neg_spec ⟨Sign.Minus, db⟩ wb
      obtain ⟨r, hr, hwr, hvr⟩ := sub_nonneg_spec ⟨Sign.Plus, da⟩
        (BigInt.neg ⟨Sign.Minus, db⟩) (by simp) (neg_minus_sign_ne_minus db) wa hnb1
      refine ⟨r, ?_, hwr, ?_⟩
      · simp only [BigInt.add]
        rw [hr]
      · rw [hvr, hnb2]
        ring
    · -- Plus, Zero
      rcases a with ⟨sa, da⟩
      rcases b with ⟨sb, db⟩
      simp only at hsa hsb
      subst hsa
      subst hsb
      refine ⟨⟨Sign.Plus, da⟩, ?_, wa, ?_⟩
      · simp only [BigInt.add]
      · rw [toIntVal_zero_sign (⟨Sign.Zero, db⟩ : BigInt) rfl]
        ring
    · exact add_nonneg_spec a b (by rw [hsa]; simp) (by rw [hsb]; simp) wa wb

/-- Signed subtraction: total on well-formed operands, with the integer
difference. -/
theorem sub_spec (a b : BigInt) (wa : WFI a) (wb : WFI b) :
    ∃ r, BigInt.sub a b = some r ∧ WFI r ∧
      r.toIntVal = a.toIntVal - b.toIntVal := by
  rcases hsa : a.sign with _ | _ | _
  · rcases hsb : b.sign with _ | _ | _
    · -- Minus, Minus: (-b) - (-a)
      rcases a with ⟨sa, da⟩
      rcases b with ⟨sb, db⟩
      simp only at hsa hsb
      subst hsa
      subst hsb
      obtain ⟨hna1, hna2⟩ := neg_spec ⟨Sign.Minus, da⟩ wa
      obtain ⟨hnb1, hnb2⟩ := neg_spec ⟨Sign.Minus, db⟩ wb
      obtain ⟨r, hr, hwr, hvr⟩ := sub_nonneg_spec (BigInt.neg ⟨Sign.Minus, db⟩)
        (BigInt.neg ⟨Sign.Minus, da⟩) (neg_minus_sign_ne_minus db)
        (neg_minus_sign_ne_minus da) hnb1 hna1
      refine ⟨r, ?_, hwr, ?_⟩
      · simp only [BigInt.sub]
        rw [hr]
      · rw [hvr, hna2, hnb2]
        ring
    · -- Minus, Zero
      rcases a with ⟨sa, da⟩
      rcases b with ⟨sb, db⟩
      simp only at hsa hsb
      subst hsa
      subst hsb
      refine ⟨⟨Sign.Minus, da⟩, ?_, wa, ?_⟩
      · simp only [BigInt.sub]
      · rw [toIntVal_zero_sign (⟨Sign.Zero, db⟩ : BigInt) rfl]
        ring
    · -- Minus, Plus: -((-a) + b)
      rcases a with ⟨sa, da⟩
      rcases b with ⟨sb, db⟩
      simp only at hsa hsb
      subst hsa
      subst hsb
      obtain ⟨hna1, hna2⟩ := neg_spec ⟨Sign.Minus, da⟩ wa
      obtain ⟨r, hr, hwr, hvr⟩ := add_nonneg_spec (BigInt.neg ⟨Sign.Minus, da⟩)
        ⟨Sign.Plus, db⟩ (neg_minus_sign_ne_minus da) (by simp) hna1 wb
      obtain ⟨hrr1, hrr2⟩ := neg_spec r hwr
      refine ⟨BigInt.neg r, ?_, hrr1, ?_⟩
      · simp only [BigInt.sub]
        rw [hr]
      · rw [hrr2, hvr, hna2]
        ring
  · -- Zero, _: -b
    rcases a with ⟨sa, da⟩
    simp only at hsa
    subst hsa
    obtain ⟨hnb1, hnb2⟩ := neg_spec b wb
    refine ⟨BigInt.neg b, ?_, hnb1, ?_⟩
    · rcases b with ⟨sb, db⟩
      simp only [BigInt.sub]
    · rw [hnb2, toIntVal_zero_sign (⟨Sign.Zero, da⟩ : BigInt) rfl]
      ring
  · rcases hsb : b.sign with _ | _ | _
    · -- Plus, Minus: a + (-b)
      rcases a with ⟨sa, da⟩
      rcases b with ⟨sb, db⟩
      simp only at hsa hsb
      subst hsa
      subst hsb
      obtain ⟨hnb1, hnb2⟩ := neg_spec ⟨Sign.Minus, db⟩ wb
      obtain ⟨r, hr, hwr, hvr⟩ := add_nonneg_spec ⟨Sign.Plus, da⟩
        (BigInt.neg ⟨Sign.Minus, db⟩) (by simp) (neg_minus_sign_ne_minus db) wa hnb1
      refine ⟨r, ?_, hwr, ?_⟩
      · simp only [BigInt.sub]
        rw [hr]
      · rw [hvr, hnb2]
        ring
    · -- Plus, Zero
      rcases a with ⟨sa, da⟩
      rcases b with ⟨sb, db⟩
      simp only at hsa hsb
      subst hsa
      subst hsb
      refine ⟨⟨Sign.Plus, da⟩, ?_, wa, ?_⟩
      · simp only [BigInt.sub]
      · rw [toIntVal_zero_sign (⟨Sign.Zero, db⟩ : BigInt) rfl]
        ring
    · exact sub_nonneg_spec a b (by rw [hsa]; simp) (by rw [hsb]; simp) wa wb

theorem sign_of_neg_toIntVal (r : BigInt) (h : WFI r) (hneg : r.toIntVal < 0) :
    r.sign = Sign.Minus := by
  rcases hs : r.sign with _ | _ | _
  · rfl
  · rw [toIntVal_zero_sign r hs] at hneg
    omega
  · rw [toIntVal_plus r hs] at hneg
    omega

theorem sign_of_pos_toIntVal (r : BigInt) (h : WFI r) (hpos : 0 < r.toIntVal) :
    r.sign = Sign.Plus := by
  rcases hs : r.sign with _ | _ | _
  · rw [toIntVal_minus r hs] at hpos
    omega
  · rw [toIntVal_zero_sign r hs] at hpos
    omega
  · rfl

theorem from_biguint_plus_is_zero (d : BigUint) (hd : WF d) :
    (BigInt.from_biguint Sign.Plus d).is_zero = true ↔ d.toVal = 0 := by
  unfold BigInt.from_biguint
  by_cases h : d.is_zero = true
  · rw [if_pos (Or.inr h)]
    constructor
    · intro
      exact (is_zero_iff d hd).mp h
    · intro
      rfl
  · rw [if_neg (by simp [h])]
    constructor
    · intro h2
      simp [BigInt.is_zero] at h2
    · intro h2
      exact absurd ((is_zero_iff d hd).mpr h2) h

theorem from_biguint_plus_sign_of_ne (d : BigUint) (hd : WF d) (h : d.toVal ≠ 0) :
    (BigInt.from_biguint Sign.Plus d).sign = Sign.Plus := by
  unfold BigInt.from_biguint
  rw [if_neg]
  simp only [not_or]
  exact ⟨by decide, fun hz => h ((is_zero_iff d hd).mp hz)⟩

/-- Floor-style signed division: the returned pair satisfies the
division identity, the remainder is smaller than the divisor in
magnitude and carries the divisor sign (or is zero). -/
theorem divmod_int_spec (a b : BigInt) (wa : WFI a) (wb : WFI b)
    (hb0 : b.toIntVal ≠ 0) :
    ∃ d m, BigInt.divmod a b = some (d, m) ∧ WFI d ∧ WFI m ∧
      a.toIntVal = b.toIntVal * d.toIntVal + m.toIntVal ∧
      m.toIntVal.natAbs < b.toIntVal.natAbs ∧
      (m.toIntVal = 0 ∨ m.sign = b.sign) := by
  have hbs : b.sign ≠ Sign.Zero := by
    intro h
    exact hb0 (toIntVal_zero_sign b h)
  have hbd : 0 < b.data.toVal := by
    rcases Nat.eq_zero_or_pos b.data.toVal with h | h
    · exact absurd (wb.2.mpr h) hbs
    · exact h
  obtain ⟨d_ui, m_ui, hdm, hABDM, hMB, hwd, hwm⟩ :=
    divmod_spec a.data b.data wa.1 wb.1 hbd
  obtain ⟨hwfid, _, hdp, _⟩ := from_biguint_spec Sign.Plus d_ui hwd
  obtain ⟨hwfim, _, hmp, _⟩ := from_biguint_spec Sign.Plus m_ui hwm
  have hdp2 := hdp rfl
  have hmp2 := hmp rfl
  rcases a with ⟨sa, da⟩
  rcases b with ⟨sb, db⟩
  simp only at hbs hbd hdm hABDM hMB ⊢
  rcases sb with _ | _ | _
  · -- divisor Minus
    rcases sa with _ | _ | _
    · -- Minus, Minus: (d, -m)
      unfold BigInt.divmod
      dsimp only
      rw [hdm]
      dsimp only
      obtain ⟨hwn, hvn⟩ := neg_spec _ hwfim
      refine ⟨_, _, rfl, hwfid, hwn, ?_, ?_, ?_⟩
      · rw [hvn, hmp2, hdp2, toIntVal_minus (⟨Sign.Minus, da⟩ : BigInt) rfl,
          toIntVal_minus (⟨Sign.Minus, db⟩ : BigInt) rfl]
        dsimp only
        push_cast
        ring_nf
        omega
      · rw [hvn, hmp2, toIntVal_minus (⟨Sign.Minus, db⟩ : BigInt) rfl]
        dsimp only
        omega
      · by_cases hM : m_ui.toVal = 0
        · left
          rw [hvn, hmp2, hM]
          rfl
        · right
          refine sign_of_neg_toIntVal _ hwn ?_
          rw [hvn, hmp2]
          omega
    · -- Zero, Minus
      unfold BigInt.divmod
      dsimp only
      rw [hdm]
      dsimp only
      have hA : da.toVal = 0 := wa.2.mp rfl
      have hD : d_ui.toVal = 0 ∧ m_ui.toVal = 0 := by
        rw [hA] at hABDM
        have h1 : db.toVal * d_ui.toVal = 0 := by omega
        rcases Nat.mul_eq_zero.mp h1 with h | h
        · omega
        · omega
      have hmz : (BigInt.from_biguint Sign.Plus m_ui).is_zero = true :=
        (from_biguint_plus_is_zero m_ui hwm).mpr hD.2
      rw [if_pos hmz]
      obtain ⟨hwn, hvn⟩ := neg_spec _ hwfid
      refine ⟨_, _, rfl, hwn, wfi_zero, ?_, ?_, Or.inl toIntVal_zeroI⟩
      · rw [toIntVal_zeroI, hvn, hdp2,
          toIntVal_zero_sign (⟨Sign.Zero, da⟩ : BigInt) rfl,
          toIntVal_minus (⟨Sign.Minus, db⟩ : BigInt) rfl]
        dsimp only
        rw [hD.1]
        push_cast
        ring
      · rw [toIntVal_zeroI, toIntVal_minus (⟨Sign.Minus, db⟩ : BigInt) rfl]
        dsimp only
        omega
    · -- Plus, Minus
      unfold BigInt.divmod
      dsimp only
      rw [hdm]
      dsimp only
      by_cases hM : m_ui.toVal = 0
      · rw [if_pos ((from_biguint_plus_is_zero m_ui hwm).mpr hM)]
        obtain ⟨hwn, hvn⟩ := neg_spec _ hwfid
        refine ⟨_, _, rfl, hwn, wfi_zero, ?_, ?_, Or.inl toIntVal_zeroI⟩
        · rw [toIntVal_zeroI, hvn, hdp2,
            toIntVal_plus (⟨Sign.Plus, da⟩ : BigInt) rfl,
            toIntVal_minus (⟨Sign.Minus, db⟩ : BigInt) rfl]
          dsimp only
          push_cast
          ring_nf
          omega
        · rw [toIntVal_zeroI, toIntVal_minus (⟨Sign.Minus, db⟩ : BigInt) rfl]
          dsimp only
          omega
      · rw [if_neg (by rw [from_biguint_plus_is_zero m_ui hwm]; simpa using hM)]
        obtain ⟨hwnd, hvnd⟩ := neg_spec _ hwfid
        obtain ⟨q, hq, hwq, hvq⟩ :=
          sub_spec (BigInt.neg (BigInt.from_biguint Sign.Plus d_ui)) BigInt.one
            hwnd wfi_one
        obtain ⟨r, hr, hwr, hvr⟩ :=
          add_spec (BigInt.from_biguint Sign.Plus m_ui) ⟨Sign.Minus, db⟩
            hwfim wb
        rw [hq, hr]
        have hrv : r.toIntVal = (m_ui.toVal : Int) - db.toVal := by
          rw [hvr, hmp2, toIntVal_minus (⟨Sign.Minus, db⟩ : BigInt) rfl]
          dsimp only
          ring
        refine ⟨q, r, rfl, hwq, hwr, ?_, ?_, ?_⟩
        · rw [hvq, hvnd, hdp2, toIntVal_oneI, hrv,
            toIntVal_plus (⟨Sign.Plus, da⟩ : BigInt) rfl,
            toIntVal_minus (⟨Sign.Minus, db⟩ : BigInt) rfl]
          dsimp only
          push_cast
          ring_nf
          omega
        · rw [hrv, toIntVal_minus (⟨Sign.Minus, db⟩ : BigInt) rfl]
          dsimp only
          omega
        · right
          refine sign_of_neg_toIntVal r hwr ?_
          rw [hrv]
          omega
  · exact absurd rfl hbs
  · -- divisor Plus
    rcases sa with _ | _ | _
    · -- Minus, Plus
      unfold BigInt.divmod
      dsimp only
      rw [hdm]
      dsimp only
      by_cases hM : m_ui.toVal = 0
      · rw [if_pos ((from_biguint_plus_is_zero m_ui hwm).mpr hM)]
        obtain ⟨hwn, hvn⟩ := neg_spec _ hwfid
        refine ⟨_, _, rfl, hwn, wfi_zero, ?_, ?_, Or.inl toIntVal_zeroI⟩
        · rw [toIntVal_zeroI, hvn, hdp2,
            toIntVal_minus (⟨Sign.Minus, da⟩ : BigInt) rfl,
            toIntVal_plus (⟨Sign.Plus, db⟩ : BigInt) rfl]
          dsimp only
          push_cast
          ring_nf
          omega
        · rw [toIntVal_zeroI, toIntVal_plus (⟨Sign.Plus, db⟩ : BigInt) rfl]
          dsimp only
          omega
      · rw [if_neg (by rw [from_biguint_plus_is_zero m_ui hwm]; simpa using hM)]
        obtain ⟨hwnd, hvnd⟩ := neg_spec _ hwfid
        obtain ⟨q, hq, hwq, hvq⟩ :=
          sub_spec (BigInt.neg (BigInt.from_biguint Sign.Plus d_ui)) BigInt.one
            hwnd wfi_one
        obtain ⟨r, hr, hwr, hvr⟩ :=
          sub_spec (⟨Sign.Plus, db⟩ : BigInt) (BigInt.from_biguint Sign.Plus m_ui)
            wb hwfim
        rw [hq, hr]
        have hrv : r.toIntVal = (db.toVal : Int) - m_ui.toVal := by
          rw [hvr, hmp2, toIntVal_plus (⟨Sign.Plus, db⟩ : BigInt) rfl]
        refine ⟨q, r, rfl, hwq, hwr, ?_, ?_, ?_⟩
        · rw [hvq, hvnd, hdp2, toIntVal_oneI, hrv,
            toIntVal_minus (⟨Sign.Minus, da⟩ : BigInt) rfl,
            toIntVal_plus (⟨Sign.Plus, db⟩ : BigInt) rfl]
          dsimp only
          push_cast
          ring_nf
          omega
        · rw [hrv, toIntVal_plus (⟨Sign.Plus, db⟩ : BigInt) rfl]
          dsimp only
          omega
        · right
          refine sign_of_pos_toIntVal r hwr ?_
          rw [hrv]
          omega
    · -- Zero, Plus
      unfold BigInt.divmod
      dsimp only
      rw [hdm]
      dsimp only
      have hA : da.toVal = 0 := wa.2.mp rfl
      have hD : d_ui.toVal = 0 ∧ m_ui.toVal = 0 := by
        rw [hA] at hABDM
        have h1 : db.toVal * d_ui.toVal = 0 := by omega
        rcases Nat.mul_eq_zero.mp h1 with h | h
        · omega
        · omega
      refine ⟨_, _, rfl, hwfid, hwfim, ?_, ?_, Or.inl (by rw [hmp2, hD.2]; rfl)⟩
      · rw [hdp2, hmp2, hD.1, hD.2,
          toIntVal_zero_sign (⟨Sign.Zero, da⟩ : BigInt) rfl,
          toIntVal_plus (⟨Sign.Plus, db⟩ : BigInt) rfl]
        push_cast
        ring
      · rw [hmp2, hD.2, toIntVal_plus (⟨Sign.Plus, db⟩ : BigInt) rfl]
        dsimp only
        omega
    · -- Plus, Plus
      unfold BigInt.divmod
      dsimp only
      rw [hdm]
      dsimp only
      refine ⟨_, _, rfl, hwfid, hwfim, ?_, ?_, ?_⟩
      · rw [hdp2, hmp2, toIntVal_plus (⟨Sign.Plus, da⟩ : BigInt) rfl,
          toIntVal_plus (⟨Sign.Plus, db⟩ : BigInt) rfl]
        dsimp only
        push_cast
        omega
      · rw [hmp2, toIntVal_plus (⟨Sign.Plus, db⟩ : BigInt) rfl]
        dsimp only
        omega
      · by_cases hM : m_ui.toVal = 0
        · left
          rw [hmp2, hM]
          rfl
        · right
          exact from_biguint_plus_sign_of_ne m_ui hwm hM

/-- Truncate-style signed division: the returned pair satisfies the
division identity, the remainder is smaller than the divisor in
magnitude and carries the dividend sign (or is zero). -/
theorem quotrem_int_spec (a b : BigInt) (wa : WFI a) (wb : WFI b)
    (hb0 : b.toIntVal ≠ 0) :
    ∃ q r, BigInt.quotrem a b = some (q, r) ∧ WFI q ∧ WFI r ∧
      a.toIntVal = b.toIntVal * q.toIntVal + r.toIntVal ∧
      r.toIntVal.natAbs < b.toIntVal.natAbs ∧
      (r.toIntVal = 0 ∨ r.sign = a.sign) := by
  have hbs : b.sign ≠ Sign.Zero := by
    intro h
    exact hb0 (toIntVal_zero_sign b h)
  have hbd : 0 < b.data.toVal := by
    rcases Nat.eq_zero_or_pos b.data.toVal with h | h
    · exact absurd (wb.2.mpr h) hbs
    · exact h
  obtain ⟨d_ui, m_ui, hdm, hABDM, hMB, hwd, hwm⟩ :=
    divmod_spec a.data b.data wa.1 wb.1 hbd
  obtain ⟨hwfid, _, hdp, _⟩ := from_biguint_spec Sign.Plus d_ui hwd
  obtain ⟨hwfim, _, hmp, _⟩ := from_biguint_spec Sign.Plus m_ui hwm
  have hdp2 := hdp rfl
  have hmp2 := hmp rfl
  rcases a with ⟨sa, da⟩
  rcases b with ⟨sb, db⟩
  simp only at hbs hbd hdm hABDM hMB ⊢
  have hqr : BigUint.quotrem da db = some (d_ui, m_ui) := hdm
  rcases sb with _ | _ | _
  · -- divisor Minus
    rcases sa with _ | _ | _
    · -- Minus, Minus: (q, -r)
      unfold BigInt.quotrem
      dsimp only
      rw [hqr]
      dsimp only
      obtain ⟨hwn, hvn⟩ := neg_spec _ hwfim
      refine ⟨_, _, rfl, hwfid, hwn, ?_, ?_, ?_⟩
      · rw [hvn, hmp2, hdp2, toIntVal_minus (⟨Sign.Minus, da⟩ : BigInt) rfl,
          toIntVal_minus (⟨Sign.Minus, db⟩ : BigInt) rfl]
        dsimp only
        push_cast
        ring_nf
        omega
      · rw [hvn, hmp2, toIntVal_minus (⟨Sign.Minus, db⟩ : BigInt) rfl]
        dsimp only
        omega
      · by_cases hM : m_ui.toVal = 0
        · left
          rw [hvn, hmp2, hM]
          rfl
        · right
          refine sign_of_neg_toIntVal _ hwn ?_
          rw [hvn, hmp2]
          omega
    · -- Zero, Minus: (-q, r)
      unfold BigInt.quotrem
      dsimp only
      rw [hqr]
      dsimp only
      have hA : da.toVal = 0 := wa.2.mp rfl
      have hD : d_ui.toVal = 0 ∧ m_ui.toVal = 0 := by
        rw [hA] at hABDM
        have h1 : db.toVal * d_ui.toVal = 0 := by omega
        rcases Nat.mul_eq_zero.mp h1 with h | h
        · omega
        · omega
      obtain ⟨hwn, hvn⟩ := neg_spec _ hwfid
      refine ⟨_, _, rfl, hwn, hwfim, ?_, ?_, Or.inl (by rw [hmp2, hD.2]; rfl)⟩
      · rw [hvn, hdp2, hmp2, hD.1, hD.2,
          toIntVal_zero_sign (⟨Sign.Zero, da⟩ : BigInt) rfl,
          toIntVal_minus (⟨Sign.Minus, db⟩ : BigInt) rfl]
        push_cast
        ring
      · rw [hmp2, hD.2, toIntVal_minus (⟨Sign.Minus, db⟩ : BigInt) rfl]
        dsimp only
        omega
    · -- Plus, Minus: (-q, r)
      unfold BigInt.quotrem
      dsimp only
      rw [hqr]
      dsimp only
      obtain ⟨hwn, hvn⟩ := neg_spec _ hwfid
      refine ⟨_, _, rfl, hwn, hwfim, ?_, ?_, ?_⟩
      · rw [hvn, hdp2, hmp2, toIntVal_plus (⟨Sign.Plus, da⟩ : BigInt) rfl,
          toIntVal_minus (⟨Sign.Minus, db⟩ : BigInt) rfl]
        dsimp only
        push_cast
        ring_nf
        omega
      · rw [hmp2, toIntVal_minus (⟨Sign.Minus, db⟩ : BigInt) rfl]
        dsimp only
        omega
      · by_cases hM : m_ui.toVal = 0
        · left
          rw [hmp2, hM]
          rfl
        · right
          exact from_biguint_plus_sign_of_ne m_ui hwm hM
  · exact absurd rfl hbs
  · -- divisor Plus
    rcases sa with _ | _ | _
    · -- Minus, Plus: (-q, -r)
      unfold BigInt.quotrem
      dsimp only
      rw [hqr]
      dsimp only
      obtain ⟨hwnq, hvnq⟩ := neg_spec _ hwfid
      obtain ⟨hwnr, hvnr⟩ := neg_spec _ hwfim
      refine ⟨_, _, rfl, hwnq, hwnr, ?_, ?_, ?_⟩
      · rw [hvnq, hvnr, hdp2, hmp2, toIntVal_minus (⟨Sign.Minus, da⟩ : BigInt) rfl,
          toIntVal_plus (⟨Sign.Plus, db⟩ : BigInt) rfl]
        dsimp only
        push_cast
        ring_nf
        omega
      · rw [hvnr, hmp2, toIntVal_plus (⟨Sign.Plus, db⟩ : BigInt) rfl]
        dsimp only
        omega
      · by_cases hM : m_ui.toVal = 0
        · left
          rw [hvnr, hmp2, hM]
          rfl
        · right
          refine sign_of_neg_toIntVal _ hwnr ?_
          rw [hvnr, hmp2]
          omega
    · -- Zero, Plus: (q, r)
      unfold BigInt.quotrem
      dsimp only
      rw [hqr]
      dsimp only
      have hA : da.toVal = 0 := wa.2.mp rfl
      have hD : d_ui.toVal = 0 ∧ m_ui.toVal = 0 := by
        rw [hA] at hABDM
        have h1 : db.toVal * d_ui.toVal = 0 := by omega
        rcases Nat.mul_eq_zero.mp h1 with h | h
        · omega
        · omega
      refine ⟨_, _, rfl, hwfid, hwfim, ?_, ?_, Or.inl (by rw [hmp2, hD.2]; rfl)⟩
      · rw [hdp2, hmp2, hD.1, hD.2,
          toIntVal_zero_sign (⟨Sign.Zero, da⟩ : BigInt) rfl,
          toIntVal_plus (⟨Sign.Plus, db⟩ : BigInt) rfl]
        push_cast
        ring
      · rw [hmp2, hD.2, toIntVal_plus (⟨Sign.Plus, db⟩ : BigInt) rfl]
        dsimp only
        omega
    · -- Plus, Plus: (q, r)
      unfold BigInt.quotrem
      dsimp only
      rw [hqr]
      dsimp only
      refine ⟨_, _, rfl, hwfid, hwfim, ?_, ?_, ?_⟩
      · rw [hdp2, hmp2, toIntVal_plus (⟨Sign.Plus, da⟩ : BigInt) rfl,
          toIntVal_plus (⟨Sign.Plus, db⟩ : BigInt) rfl]
        dsimp only
        push_cast
        omega
      · rw [hmp2, toIntVal_plus (⟨Sign.Plus, db⟩ : BigInt) rfl]
        dsimp only
        omega
      · by_cases hM : m_ui.toVal = 0
        · left
          rw [hmp2, hM]
          rfl
        · right
          exact from_biguint_plus_sign_of_ne m_ui hwm hM

/-- C2: floor-style `divmod` and truncate-style `quotrem` on canonical
BigInts: both satisfy the division identity with remainder smaller than
the divisor in magnitude; `divmod`'s remainder is zero or carries the
divisor's sign, `quotrem`'s is zero or carries the dividend's sign. -/
theorem claim_C2 (a b : BigInt) (wa : WFI a) (wb : WFI b)
    (hb0 : b.toIntVal ≠ 0) :
    (∃ d m, BigInt.divmod a b = some (d, m) ∧ WFI d ∧ WFI m ∧
      a.toIntVal = b.toIntVal * d.toIntVal + m.toIntVal ∧
      m.toIntVal.natAbs < b.toIntVal.natAbs ∧
      (m.toIntVal = 0 ∨ m.sign = b.sign)) ∧
    (∃ q r, BigInt.quotrem a b = some (q, r) ∧ WFI q ∧ WFI r ∧
      a.toIntVal = b.toIntVal * q.toIntVal + r.toIntVal ∧
      r.toIntVal.natAbs < b.toIntVal.natAbs ∧
      (r.toIntVal = 0 ∨ r.sign = a.sign)) :=
  ⟨divmod_int_spec a b wa wb hb0, quotrem_int_spec a b wa wb hb0⟩

/-- C2 witness. -/
theorem claim_C2_witness :
    WFI (BigInt.mk Sign.Minus (BigUint.mk [7])) ∧
    WFI (BigInt.mk Sign.Plus (BigUint.mk [3])) ∧
    (BigInt.mk Sign.Plus (BigUint.mk [3])).toIntVal ≠ 0 ∧
    ((∃ d m, BigInt.divmod (BigInt.mk Sign.Minus (BigUint.mk [7]))
        (BigInt.mk Sign.Plus (BigUint.mk [3])) = some (d, m) ∧ WFI d ∧ WFI m ∧
      (BigInt.mk Sign.Minus (BigUint.mk [7])).toIntVal =
        (BigInt.mk Sign.Plus (BigUint.mk [3])).toIntVal * d.toIntVal + m.toIntVal ∧
      m.toIntVal.natAbs < (BigInt.mk Sign.Plus (BigUint.mk [3])).toIntVal.natAbs ∧
      (m.toIntVal = 0 ∨ m.sign = (BigInt.mk Sign.Plus (BigUint.mk [3])).sign)) ∧
    (∃ q r, BigInt.quotrem (BigInt.mk Sign.Minus (BigUint.mk [7]))
        (BigInt.mk Sign.Plus (BigUint.mk [3])) = some (q, r) ∧ WFI q ∧ WFI r ∧
      (BigInt.mk Sign.Minus (BigUint.mk [7])).toIntVal =
        (BigInt.mk Sign.Plus (BigUint.mk [3])).toIntVal * q.toIntVal + r.toIntVal ∧
      r.toIntVal.natAbs < (BigInt.mk Sign.Plus (BigUint.mk [3])).toIntVal.natAbs ∧
      (r.toIntVal = 0 ∨ r.sign = (BigInt.mk Sign.Minus (BigUint.mk [7])).sign))) :=
  ⟨by decide, by decide, by decide,
    claim_C2 (BigInt.mk Sign.Minus (BigUint.mk [7]))
      (BigInt.mk Sign.Plus (BigUint.mk [3])) (by decide) (by decide) (by decide)⟩

theorem from_biguint_plus_of_ne (d : BigUint) (hd : WF d) (h : d.toVal ≠ 0) :
    BigInt.from_biguint Sign.Plus d = ⟨Sign.Plus, d⟩ := by
  unfold BigInt.from_biguint
  rw [if_neg]
  simp only [not_or]
  exact ⟨by decide, fun hz => h ((is_zero_iff d hd).mp hz)⟩

/-- `BigUint::to_uint` is exact below `2^64` and returns the unsigned
maximum at or above it. -/
theorem to_uint_spec (x : BigUint) (hx : WF x) :
    (x.toVal < 2 ^ uintBits → x.to_uint = x.toVal) ∧
    (2 ^ uintBits ≤ x.toVal → x.to_uint = uintMaxValue) := by
  rcases x with ⟨l⟩
  rcases l with _ | ⟨n0, l⟩
  · refine ⟨fun _ => rfl, fun h => ?_⟩
    have : BigUint.toVal ⟨[]⟩ = 0 := rfl
    rw [this] at h
    exact absurd h (by decide)
  · rcases l with _ | ⟨n1, l⟩
    · have hv : BigUint.toVal ⟨[n0]⟩ = n0 := by
        show listVal [n0] = n0
        rw [listVal_cons, listVal_nil]
        omega
      have hn0 : n0 < digitBase := hx.1 n0 (by simp)
      refine ⟨fun _ => ?_, fun h => ?_⟩
      · show n0 = BigUint.toVal ⟨[n0]⟩
        rw [hv]
      · rw [hv] at h
        have : digitBase < 2 ^ uintBits := by decide
        omega
    · rcases l with _ | ⟨n2, l⟩
      · have hv : BigUint.toVal ⟨[n0, n1]⟩ = n0 + digitBase * n1 := by
          show listVal [n0, n1] = n0 + digitBase * n1
          rw [listVal_cons, listVal_cons, listVal_nil]
          ring
        have hn0 : n0 < digitBase := hx.1 n0 (by simp)
        have hn1 : n1 < digitBase := hx.1 n1 (by simp)
        refine ⟨fun _ => ?_, fun h => ?_⟩
        · show toUint n1 n0 = BigUint.toVal ⟨[n0, n1]⟩
          rw [hv]
          unfold toUint
          rfl
        · rw [hv] at h
          have hsq : digitBase * digitBase = 2 ^ uintBits := digitBase_sq
          have h1 : n0 + digitBase * n1 + 1 ≤ digitBase + digitBase * n1 := by omega
          have h2 : digitBase + digitBase * n1 ≤ digitBase + digitBase * (digitBase - 1) := by
            have := Nat.mul_le_mul_left digitBase (show n1 ≤ digitBase - 1 by omega)
            omega
          have hb1 : digitBase - 1 + 1 = digitBase := by
            have : 0 < digitBase := digitBase_pos
            omega
          have h3 : digitBase * (digitBase - 1) + digitBase = digitBase * digitBase := by
            calc digitBase * (digitBase - 1) + digitBase
                = digitBase * ((digitBase - 1) + 1) := by ring
              _ = digitBase * digitBase := by rw [hb1]
          omega
      · -- three or more digits
        have hge : 2 ^ uintBits ≤ BigUint.toVal ⟨n0 :: n1 :: n2 :: l⟩ := by
          have hne : (n0 :: n1 :: n2 :: l) ≠ [] := by simp
          have := listVal_ge_of_normal (n0 :: n1 :: n2 :: l) hne hx.2
          have hlen : 2 ≤ (n0 :: n1 :: n2 :: l).length - 1 := by
            simp only [List.length_cons]
            omega
          have hpow : digitBase ^ 2 ≤ digitBase ^ ((n0 :: n1 :: n2 :: l).length - 1) :=
            Nat.pow_le_pow_right digitBase_pos hlen
          have hsq : digitBase ^ 2 = 2 ^ uintBits := by decide
          show 2 ^ uintBits ≤ listVal (n0 :: n1 :: n2 :: l)
          omega
        refine ⟨fun h => ?_, fun _ => rfl⟩
        omega

/-- C5 (amended): `to_uint` is exact below `2^64`, saturating at the
unsigned maximum above.  `to_int` is exact for nonnegative values up to
`int::max_value` and saturates at `int::max_value` above it; a negative
value, however, comes back as its absolute value (the sign is dropped)
while it exceeds `-2^63`, and values at or below `-2^63` come back as
`int::min_value` — not the saturation at the signed maximum the spec
describes. -/
theorem claim_C5 (x : BigUint) (a : BigInt) (hx : WF x) (ha : WFI a) :
    (x.toVal < 2 ^ uintBits → x.to_uint = x.toVal) ∧
    (2 ^ uintBits ≤ x.toVal → x.to_uint = uintMaxValue) ∧
    (0 ≤ a.toIntVal →
      (a.toIntVal ≤ (intMaxValue : Int) → a.to_int = a.toIntVal) ∧
      ((intMaxValue : Int) < a.toIntVal → a.to_int = (intMaxValue : Int))) ∧
    (a.toIntVal < 0 →
      (-(2 ^ 63 : Int) < a.toIntVal → a.to_int = -a.toIntVal) ∧
      (a.toIntVal ≤ -(2 ^ 63 : Int) → a.to_int = -(2 ^ 63 : Int))) := by
  obtain ⟨hu1, hu2⟩ := to_uint_spec x hx
  refine ⟨hu1, hu2, ?_, ?_⟩
  · intro hnn
    rcases hs : a.sign with _ | _ | _
    · rw [toIntVal_minus a hs] at hnn
      have hA0 : a.data.toVal = 0 := by omega
      exact absurd (ha.2.mpr hA0) (by rw [hs]; decide)
    · rw [toIntVal_zero_sign a hs]
      have hto : a.to_int = 0 := by
        unfold BigInt.to_int
        rw [hs]
      rw [hto]
      refine ⟨fun _ => rfl, fun h => ?_⟩
      exact absurd h (by decide)
    · rw [toIntVal_plus a hs]
      obtain ⟨hdu1, hdu2⟩ := to_uint_spec a.data ha.1
      have hto : a.to_int = uintAsInt (min a.data.to_uint intMaxValue) := by
        unfold BigInt.to_int
        rw [hs]
        have : a.to_uint = a.data.to_uint := by
          unfold BigInt.to_uint
          rw [hs]
        rw [this]
      constructor
      · intro hle
        have hV : a.data.toVal ≤ intMaxValue := by
          have : ((a.data.toVal : Int)).natAbs = a.data.toVal := Int.natAbs_ofNat _
          omega
        have hVlt : a.data.toVal < 2 ^ uintBits := by
          have : intMaxValue < 2 ^ uintBits := by decide
          omega
        rw [hto, hdu1 hVlt, Nat.min_eq_left hV]
        unfold uintAsInt
        have hiM : intMaxValue = 2 ^ 63 - 1 := rfl
        rw [Nat.mod_eq_of_lt hVlt, if_pos (by show a.data.toVal < 2 ^ 63; omega)]
      · intro hgt
        have hV : intMaxValue < a.data.toVal := by omega
        have hmin : min a.data.to_uint intMaxValue = intMaxValue := by
          rcases Nat.lt_or_ge a.data.toVal (2 ^ uintBits) with h | h
          · rw [hdu1 h]
            omega
          · rw [hdu2 h]
            have : intMaxValue ≤ uintMaxValue := by decide
            omega
        rw [hto, hmin]
        unfold uintAsInt
        rw [Nat.mod_eq_of_lt (by decide), if_pos (by decide)]
  · intro hneg
    rcases hs : a.sign with _ | _ | _
    · -- Minus
      have hV0 : a.data.toVal ≠ 0 := by
        intro h0
        exact absurd (ha.2.mpr h0) (by rw [hs]; decide)
      obtain ⟨hdu1, hdu2⟩ := to_uint_spec a.data ha.1
      have hnegdata : (BigInt.neg a).to_uint = a.data.to_uint := by
        unfold BigInt.neg
        rw [hs]
        have : Sign.Minus.neg = Sign.Plus := rfl
        rw [this, from_biguint_plus_of_ne a.data ha.1 hV0]
        unfold BigInt.to_uint
        rfl
      have hto : a.to_int = uintAsInt (min a.data.to_uint (intMaxValue + 1)) := by
        unfold BigInt.to_int
        rw [hs, hnegdata]
      rw [toIntVal_minus a hs] at hneg ⊢
      constructor
      · intro hgt
        have hVlt : a.data.toVal < 2 ^ 63 := by omega
        have hVlt2 : a.data.toVal < 2 ^ uintBits := by
          have : (2:Nat) ^ 63 < 2 ^ uintBits := by decide
          omega
        have hmin : min a.data.to_uint (intMaxValue + 1) = a.data.toVal := by
          rw [hdu1 hVlt2]
          have : intMaxValue + 1 = 2 ^ 63 := by decide
          omega
        rw [hto, hmin]
        unfold uintAsInt
        rw [Nat.mod_eq_of_lt hVlt2, if_pos (by show a.data.toVal < 2 ^ 63; omega)]
        ring
      · intro hle
        have hV : 2 ^ 63 ≤ a.data.toVal := by omega
        have hmin : min a.data.to_uint (intMaxValue + 1) = intMaxValue + 1 := by
          rcases Nat.lt_or_ge a.data.toVal (2 ^ uintBits) with h | h
          · rw [hdu1 h]
            have : intMaxValue + 1 = 2 ^ 63 := by decide
            omega
          · rw [hdu2 h]
            have : intMaxValue + 1 ≤ uintMaxValue := by decide
            omega
        rw [hto, hmin]
        unfold uintAsInt
        rw [Nat.mod_eq_of_lt (by decide), if_neg (by decide)]
        decide
    · rw [toIntVal_zero_sign a hs] at hneg
      exact absurd hneg (by decide)
    · rw [toIntVal_plus a hs] at hneg
      have : (0:Int) ≤ (a.data.toVal : Int) := Int.ofNat_nonneg _
      omega

/-- C5 counterexample: the well-formed BigInt `-5` is within the native
signed range, yet `to_int` returns `5`, not `-5`: the Minus arm drops
the sign. -/
theorem claim_C5_counterexample :
    WFI (BigInt.mk Sign.Minus (BigUint.mk [5])) ∧
    (BigInt.mk Sign.Minus (BigUint.mk [5])).toIntVal = -5 ∧
    -(2 ^ 63 : Int) < -5 ∧ (-5 : Int) ≤ (intMaxValue : Int) ∧
    (BigInt.mk Sign.Minus (BigUint.mk [5])).to_int = 5 := by
  refine ⟨by decide, by decide, by decide, by decide, ?_⟩
  decide

/-- C5 witness. -/
theorem claim_C5_witness :
    WF (BigUint.mk [5]) ∧ WFI (BigInt.mk Sign.Plus (BigUint.mk [5])) ∧
    (((BigUint.mk [5]).toVal < 2 ^ uintBits →
        (BigUint.mk [5]).to_uint = (BigUint.mk [5]).toVal) ∧
      (2 ^ uintBits ≤ (BigUint.mk [5]).toVal →
        (BigUint.mk [5]).to_uint = uintMaxValue) ∧
      (0 ≤ (BigInt.mk Sign.Plus (BigUint.mk [5])).toIntVal →
        ((BigInt.mk Sign.Plus (BigUint.mk [5])).toIntVal ≤ (intMaxValue : Int) →
          (BigInt.mk Sign.Plus (BigUint.mk [5])).to_int =
            (BigInt.mk Sign.Plus (BigUint.mk [5])).toIntVal) ∧
        ((intMaxValue : Int) < (BigInt.mk Sign.Plus (BigUint.mk [5])).toIntVal →
          (BigInt.mk Sign.Plus (BigUint.mk [5])).to_int = (intMaxValue : Int))) ∧
      ((BigInt.mk Sign.Plus (BigUint.mk [5])).toIntVal < 0 →
        (-(2 ^ 63 : Int) < (BigInt.mk Sign.Plus (BigUint.mk [5])).toIntVal →
          (BigInt.mk Sign.Plus (BigUint.mk [5])).to_int =
            -(BigInt.mk Sign.Plus (BigUint.mk [5])).toIntVal) ∧
        ((BigInt.mk Sign.Plus (BigUint.mk [5])).toIntVal ≤ -(2 ^ 63 : Int) →
          (BigInt.mk Sign.Plus (BigUint.mk [5])).to_int = -(2 ^ 63 : Int)))) :=
  ⟨by decide, by decide,
    claim_C5 (BigUint.mk [5]) (BigInt.mk Sign.Plus (BigUint.mk [5]))
      (by decide) (by decide)⟩

/-- Signed multiplication preserves the sign invariant. -/
theorem mul_int_wfi (a b : BigInt) (wa : WFI a) (wb : WFI b) :
    WFI (BigInt.mul a b) := by
  rcases a with ⟨sa, da⟩
  rcases b with ⟨sb, db⟩
  have hwp : WF (da.mul db) := (mul_toVal da db wa.1 wb.1).2
  rcases sa with _ | _ | _ <;> rcases sb with _ | _ | _
  all_goals unfold BigInt.mul
  all_goals dsimp only
  · exact (from_biguint_spec Sign.Plus (da.mul db) hwp).1
  · exact wfi_zero
  · exact (from_biguint_spec Sign.Minus (da.mul db) hwp).1
  · exact wfi_zero
  · exact wfi_zero
  · exact wfi_zero
  · exact (from_biguint_spec Sign.Minus (da.mul db) hwp).1
  · exact wfi_zero
  · exact (from_biguint_spec Sign.Plus (da.mul db) hwp).1

/-- C7: the sign invariant.  A canonical BigInt has sign Zero exactly on
the zero magnitude; `from_biguint` canonicalizes a Zero sign or a zero
magnitude to the canonical zero, and the constructors and arithmetic
operations all preserve the invariant. -/
theorem claim_C7 :
    (∀ a : BigInt, WFI a → (a.sign = Sign.Zero ↔ a.data = BigUint.zero)) ∧
    (∀ s d, WF d → WFI (BigInt.from_biguint s d) ∧
      ((s = Sign.Zero ∨ d.toVal = 0) →
        BigInt.from_biguint s d = BigInt.mk Sign.Zero BigUint.zero)) ∧
    WFI BigInt.zero ∧ WFI BigInt.one ∧
    (∀ a, WFI a → WFI (BigInt.neg a)) ∧
    (∀ a b, WFI a → WFI b →
      (∀ r, BigInt.add a b = some r → WFI r) ∧
      (∀ r, BigInt.sub a b = some r → WFI r) ∧
      WFI (BigInt.mul a b)) := by
  refine ⟨?_, ?_, wfi_zero, wfi_one, ?_, ?_⟩
  · intro a h
    constructor
    · intro hs
      exact eq_zero_of_toVal_eq_zero a.data h.1 (h.2.mp hs)
    · intro hd
      refine h.2.mpr ?_
      rw [hd, toVal_zero]
  · intro s d hd
    obtain ⟨h1, h2, _, _⟩ := from_biguint_spec s d hd
    exact ⟨h1, h2⟩
  · intro a h
    exact (neg_spec a h).1
  · intro a b ha hb
    refine ⟨?_, ?_, mul_int_wfi a b ha hb⟩
    · intro r hr
      obtain ⟨r2, hr2, hw2, _⟩ := add_spec a b ha hb
      rw [hr] at hr2
      injection hr2 with h
      rw [h]
      exact hw2
    · intro r hr
      obtain ⟨r2, hr2, hw2, _⟩ := sub_spec a b ha hb
      rw [hr] at hr2
      injection hr2 with h
      rw [h]
      exact hw2

/-- C7 witness. -/
theorem claim_C7_witness :
    WF (BigUint.mk [4]) ∧
    (WFI (BigInt.from_biguint Sign.Minus (BigUint.mk [4])) ∧
      ((Sign.Minus = Sign.Zero ∨ (BigUint.mk [4]).toVal = 0) →
        BigInt.from_biguint Sign.Minus (BigUint.mk [4]) =
          BigInt.mk Sign.Zero BigUint.zero)) :=
  ⟨by decide, claim_C7.2.1 Sign.Minus (BigUint.mk [4]) (by decide)⟩



/-- Value of an ASCII digit character (`0`..`9`, `a`..`z`). -/
def charVal (c : Nat) : Nat := if c ≤ 57 then c - 48 else c - 87

/-- The byte is a digit character legal in the given radix. -/
def isDigitChar (c radix : Nat) : Prop :=
  (48 ≤ c ∧ c ≤ 57 ∨ 97 ≤ c ∧ c ≤ 122) ∧ charVal c < radix

instance (c radix : Nat) : Decidable (isDigitChar c radix) := by
  unfold isDigitChar
  infer_instance

/-- The ASCII digit character of a value below the radix. -/
def digitChar (d : Nat) : Nat := if d < 10 then 48 + d else 87 + d

/-- Modelled from the spec: `core::uint::to_str_radix` digit loop — emit
the base-radix digits of `n`, most significant first, in front of the
accumulator. -/
def uintToStrGo (radix : Nat) : Nat → Nat → List Nat → List Nat
  | 0, _, acc => acc
  | fuel + 1, n, acc =>
    if n = 0 then acc
    else uintToStrGo radix fuel (n / radix) (digitChar (n % radix) :: acc)

/-- Modelled from the spec: `core::uint::to_str_radix` — the base-radix
rendering of a machine word, `"0"` for zero, no leading zero otherwise. -/
def uintToStrRadix (n radix : Nat) : List Nat :=
  if n = 0 then [48] else uintToStrGo radix (n + 1) n []

/-- The number a run of digit bytes denotes, most significant first,
on top of an accumulated high part. -/
def digitsVal (radix : Nat) : List Nat → Nat → Nat
  | [], acc => acc
  | c :: r, acc => digitsVal radix r (acc * radix + charVal c)

/-- Modelled from the spec: the digit loop of `core::uint::parse_bytes` —
fold the digits left to right, refusing a byte that is not a digit of
the radix. -/
def uintParseGo (radix : Nat) : List Nat → Nat → Option Nat
  | [], acc => some acc
  | c :: r, acc =>
    if isDigitChar c radix then uintParseGo radix r (acc * radix + charVal c)
    else none

/-- Modelled from the spec: `core::uint::parse_bytes` — the value of a
nonempty run of digit bytes, `None` on an empty run or a bad byte. -/
def uintParseBytes (buf : List Nat) (radix : Nat) : Option Nat :=
  if buf.isEmpty then none else uintParseGo radix buf 0

/-- Source `get_radix_base` (x86_64 table): the largest power of the
radix that fits one BigDigit, with its exponent; the guard is the
`fail_unless!`. -/
def get_radix_base (radix : Nat) : Option (Nat × Nat) :=
  if 1 < radix ∧ radix ≤ 16 then
    some (match radix with
      | 2 => (4294967296, 32)
      | 3 => (3486784401, 20)
      | 4 => (4294967296, 16)
      | 5 => (1220703125, 13)
      | 6 => (2176782336, 12)
      | 7 => (1977326743, 11)
      | 8 => (1073741824, 10)
      | 9 => (3486784401, 10)
      | 10 => (1000000000, 9)
      | 11 => (2357947691, 9)
      | 12 => (429981696, 8)
      | 13 => (815730721, 8)
      | 14 => (1475789056, 8)
      | 15 => (2562890625, 8)
      | _ => (4294967296, 8))
  else none

/-- A 64-bit wrapping difference (the `l - s.len()` of `fill_concat` is
computed on machine words with no overflow check). -/
def usub64 (a b : Nat) : Nat := (a + 2 ^ uintBits - b) % 2 ^ uintBits

/-- `vec::from_elem(n, '0')` on the 64-bit target: a vector of `n`
four-byte `char`s.  An allocation whose byte size `4 * n` does not fit
the 64-bit address space can never be satisfied: the task dies inside
the allocator and no vector is ever produced, modelled as `none`. -/
def vecFromElem48 (n : Nat) : Option (List Nat) :=
  if 4 * n < 2 ^ uintBits then some (List.replicate n 48) else none

/-- The mapped/concatenated body of `fill_concat`: every digit, most
significant first, rendered in the radix and left-padded with `'0'` to
the unit width.  The pad width `l - s.len()` is the wrapping machine
difference, and a pad allocation that cannot fit the address space
aborts the whole formatting. -/
def fillConcatGo (radix l : Nat) : List Nat → Option (List Nat)
  | [] => some []
  | d :: rest =>
    match vecFromElem48 (usub64 l (uintToStrRadix d radix).length) with
    | some pad =>
      match fillConcatGo radix l rest with
      | some s => some ((pad ++ uintToStrRadix d radix) ++ s)
      | none => none
    | none => none

/-- Source `fill_concat`: `"0"` for no digits, else the padded digit
strings concatenated and stripped of leading `'0'`s; an impossible pad
allocation aborts. -/
def fill_concat (v : List Nat) (radix l : Nat) : Option (List Nat) :=
  if v.isEmpty then some [48]
  else
    match fillConcatGo radix l v.reverse with
    | some s => some (s.dropWhile (fun c => c == 48))
    | none => none

/-- Source `convert_base`'s `while r > divider` loop (fuel-indexed): emit
`r mod divider` least significant first while the remainder exceeds the
divider, then the final nonzero remaining value. -/
def convert_base_loop : Nat → BigUint → BigUint → Option (List Nat)
  | 0, _, _ => none
  | fuel + 1, r, divider =>
    if 0 < r.cmp divider then
      match BigUint.divmod r divider with
      | some (d, r0) =>
        match convert_base_loop fuel d divider with
        | some rest => some (r0.to_uint % digitBase :: rest)
        | none => none
      | none => none
    else if r.is_not_zero then some [r.to_uint % digitBase] else some []

/-- Source `BigUint::to_str_radix`: radix guard, then either the digit
vector itself (radix a power of two filling a digit) or the
`convert_base` digits, filled and concatenated. -/
def BigUint.to_str_radix (a : BigUint) (radix : Nat) : Option (List Nat) :=
  match get_radix_base radix with
  | none => none
  | some (base, max_len) =>
    if base = digitBase then fill_concat a.data radix max_len
    else
      match convert_base_loop (a.toVal + 2) a (BigUint.from_uint base) with
      | some ds => fill_concat ds radix max_len
      | none => none

/-- Source `BigUint::parse_bytes` loop (fuel-indexed): slice unit-sized
chunks off the right end, parse each as a machine word and accumulate
`n += chunk * power`, stepping `power` by the unit base. -/
def parse_bytes_loop (buf : List Nat) (radix unit_len : Nat) (base_num : BigUint) :
    Nat → Nat → BigUint → BigUint → Option BigUint
  | 0, _, _, _ => none
  | fuel + 1, e, n, power =>
    let start := max e unit_len - unit_len
    match uintParseBytes ((buf.take e).drop start) radix with
    | some d =>
      let n2 := n.add (BigUint.mul (BigUint.from_uint d) power)
      if e ≤ unit_len then some n2
      else parse_bytes_loop buf radix unit_len base_num fuel (e - unit_len) n2
        (power.mul base_num)
    | none => none

/-- Source `BigUint::parse_bytes`. -/
def BigUint.parse_bytes (buf : List Nat) (radix : Nat) : Option BigUint :=
  match get_radix_base radix with
  | none => none
  | some (base, unit_len) =>
    parse_bytes_loop buf radix unit_len (BigUint.from_uint base)
      (buf.length + 1) buf.length BigUint.zero BigUint.one

/-- Source `BigUint::from_str_radix` (over the string's bytes). -/
def BigUint.from_str_radix (s : List Nat) (radix : Nat) : Option BigUint :=
  BigUint.parse_bytes s radix

/-- Little-endian digit value in an arbitrary base. -/
def polyVal (b : Nat) (v : List Nat) : Nat := v.foldr (fun d acc => d + b * acc) 0

/-- Most-significant-first digit value in an arbitrary base. -/
def msfPoly (b : Nat) (w : List Nat) : Nat := w.foldl (fun acc d => acc * b + d) 0

theorem digitChar_spec (d radix : Nat) (hd : d < radix) (hr : radix ≤ 36) :
    isDigitChar (digitChar d) radix ∧ charVal (digitChar d) = d := by
  unfold digitChar isDigitChar charVal
  by_cases h : d < 10
  · rw [if_pos h]
    rw [if_pos (by omega)]
    refine ⟨⟨Or.inl ⟨by omega, by omega⟩, by omega⟩, by omega⟩
  · rw [if_neg h]
    rw [if_neg (by omega)]
    refine ⟨⟨Or.inr ⟨by omega, by omega⟩, by omega⟩, by omega⟩

theorem digitsVal_append (radix : Nat) (s t : List Nat) : ∀ acc,
    digitsVal radix (s ++ t) acc = digitsVal radix t (digitsVal radix s acc) := by
  induction s with
  | nil => intro acc; rfl
  | cons c r ih =>
    intro acc
    show digitsVal radix (r ++ t) (acc * radix + charVal c) = _
    rw [ih]
    rfl

theorem digitsVal_acc (radix : Nat) (s : List Nat) : ∀ acc,
    digitsVal radix s acc = acc * radix ^ s.length + digitsVal radix s 0 := by
  induction s with
  | nil =>
    intro acc
    simp [digitsVal]
  | cons c r ih =>
    intro acc
    show digitsVal radix r (acc * radix + charVal c) =
      acc * radix ^ (c :: r).length + digitsVal radix r (0 * radix + charVal c)
    rw [ih (acc * radix + charVal c), ih (0 * radix + charVal c)]
    simp only [List.length_cons]
    ring

theorem digitsVal_lt (radix : Nat) (s : List Nat) (h1 : 1 ≤ radix)
    (h : ∀ c ∈ s, charVal c < radix) :
    digitsVal radix s 0 < radix ^ s.length := by
  induction s with
  | nil => simp [digitsVal]
  | cons c r ih =>
    show digitsVal radix r (0 * radix + charVal c) < _
    rw [digitsVal_acc]
    have h1v : charVal c < radix := h c (by simp)
    have h2v : digitsVal radix r 0 < radix ^ r.length :=
      ih (fun c hc => h c (by simp [hc]))
    simp only [List.length_cons, Nat.zero_mul, Nat.zero_add]
    calc charVal c * radix ^ r.length + digitsVal radix r 0
        < charVal c * radix ^ r.length + radix ^ r.length := by omega
      _ = (charVal c + 1) * radix ^ r.length := by ring
      _ ≤ radix * radix ^ r.length := Nat.mul_le_mul_right _ (by omega)
      _ = radix ^ (r.length + 1) := by rw [pow_succ]; ring

theorem uintParseGo_spec (radix : Nat) (s : List Nat)
    (h : ∀ c ∈ s, isDigitChar c radix) : ∀ acc,
    uintParseGo radix s acc = some (digitsVal radix s acc) := by
  induction s with
  | nil => intro acc; rfl
  | cons c r ih =>
    intro acc
    show (if isDigitChar c radix then _ else _) = _
    rw [if_pos (h c (by simp))]
    exact ih (fun c hc => h c (by simp [hc])) _

theorem uintParseBytes_spec (buf : List Nat) (radix : Nat) (hne : buf ≠ [])
    (h : ∀ c ∈ buf, isDigitChar c radix) :
    uintParseBytes buf radix = some (digitsVal radix buf 0) := by
  unfold uintParseBytes
  rw [if_neg (by simpa using hne)]
  exact uintParseGo_spec radix buf h 0

theorem charVal_48 : charVal 48 = 0 := rfl

theorem digitsVal_replicate_zero (radix k : Nat) (s : List Nat) :
    digitsVal radix (List.replicate k 48 ++ s) 0 = digitsVal radix s 0 := by
  induction k with
  | zero => rfl
  | succ k ih =>
    show digitsVal radix (List.replicate k 48 ++ s) (0 * radix + charVal 48) = _
    rw [charVal_48]
    simpa using ih

theorem digitsVal_dropWhile (radix : Nat) (s : List Nat) :
    digitsVal radix (s.dropWhile (fun c => c == 48)) 0 = digitsVal radix s 0 := by
  induction s with
  | nil => rfl
  | cons c r ih =>
    by_cases h : c = 48
    · subst h
      rw [List.dropWhile_cons_of_pos (by simp)]
      rw [ih]
      show _ = digitsVal radix r (0 * radix + charVal 48)
      rw [charVal_48]
      simp
    · rw [List.dropWhile_cons_of_neg (by simp [h])]

theorem dropWhile_ne_nil_of_val (radix : Nat) (s : List Nat)
    (h : digitsVal radix s 0 ≠ 0) : s.dropWhile (fun c => c == 48) ≠ [] := by
  intro hemp
  apply h
  have hall : ∀ c ∈ s, c = 48 := by
    intro c hc
    by_contra hne
    have := List.dropWhile_eq_nil_iff.mp hemp c hc
    simp at this
    exact hne this
  clear h hemp
  induction s with
  | nil => rfl
  | cons c r ih =>
    have hc : c = 48 := hall c (by simp)
    subst hc
    show digitsVal radix r (0 * radix + charVal 48) = 0
    rw [charVal_48]
    simpa using ih (fun c hc => hall c (by simp [hc]))

theorem mem_of_mem_dropWhile (s : List Nat) (c : Nat)
    (h : c ∈ s.dropWhile (fun c => c == 48)) : c ∈ s :=
  (List.dropWhile_sublist _).subset h

theorem uintToStrGo_zero (radix : Nat) : ∀ fuel acc,
    uintToStrGo radix fuel 0 acc = acc := by
  intro fuel acc
  cases fuel with
  | zero => rfl
  | succ fuel =>
    show (if (0:Nat) = 0 then _ else _) = _
    rw [if_pos rfl]

theorem uintToStrGo_spec (radix : Nat) (h2 : 2 ≤ radix) (h36 : radix ≤ 36) :
    ∀ fuel n acc, n < fuel → 1 ≤ n →
    ∃ ds, uintToStrGo radix fuel n acc = ds ++ acc ∧ ds ≠ [] ∧
      (∀ c ∈ ds, isDigitChar c radix) ∧
      digitsVal radix ds 0 = n ∧
      radix ^ (ds.length - 1) ≤ n ∧ n < radix ^ ds.length := by
  intro fuel
  induction fuel with
  | zero => intro n acc h; omega
  | succ fuel ih =>
    intro n acc hlt hn
    have hgo : uintToStrGo radix (fuel + 1) n acc =
        uintToStrGo radix fuel (n / radix) (digitChar (n % radix) :: acc) := by
      show (if n = 0 then acc else _) = _
      rw [if_neg (by omega)]
    by_cases hsmall : n < radix
    · have hdiv : n / radix = 0 := Nat.div_eq_of_lt hsmall
      have hmod : n % radix = n := Nat.mod_eq_of_lt hsmall
      refine ⟨[digitChar n], ?_, by simp, ?_, ?_, ?_, ?_⟩
      · rw [hgo, hdiv, hmod, uintToStrGo_zero]
        rfl
      · intro c hc
        simp only [List.mem_singleton] at hc
        subst hc
        exact (digitChar_spec n radix hsmall h36).1
      · show digitsVal radix [] (0 * radix + charVal (digitChar n)) = n
        unfold digitsVal
        rw [(digitChar_spec n radix hsmall h36).2]
        omega
      · simp only [List.length_singleton, Nat.sub_self, pow_zero]
        omega
      · simp only [List.length_singleton, pow_one]
        exact hsmall
    · have hq1 : 1 ≤ n / radix := (Nat.one_le_div_iff (by omega)).mpr (by omega)
      have hqlt : n / radix < fuel := by
        have := Nat.div_lt_self (show 0 < n by omega) (show 1 < radix by omega)
        omega
      obtain ⟨ds, hds, hne, hdig, hval, hlo, hhi⟩ :=
        ih (n / radix) (digitChar (n % radix) :: acc) hqlt hq1
      have h6 : 1 ≤ ds.length := by
        rcases ds with _ | ⟨c, ds⟩
        · exact absurd rfl hne
        · simp
      refine ⟨ds ++ [digitChar (n % radix)], ?_, by simp, ?_, ?_, ?_, ?_⟩
      · rw [hgo, hds, List.append_assoc]
        rfl
      · intro c hc
        rw [List.mem_append, List.mem_singleton] at hc
        rcases hc with hc | hc
        · exact hdig c hc
        · subst hc
          exact (digitChar_spec _ radix (Nat.mod_lt _ (by omega)) h36).1
      · rw [digitsVal_append]
        show digitsVal radix []
          (digitsVal radix ds 0 * radix + charVal (digitChar (n % radix))) = n
        unfold digitsVal
        rw [hval, (digitChar_spec _ radix (Nat.mod_lt _ (by omega)) h36).2]
        have hdm := Nat.div_add_mod n radix
        calc n / radix * radix + n % radix
            = radix * (n / radix) + n % radix := by ring
          _ = n := hdm
      · simp only [List.length_append, List.length_singleton, Nat.add_sub_cancel]
        have h3 : n / radix * radix ≤ n := Nat.div_mul_le_self n radix
        have h4 : radix ^ (ds.length - 1) * radix ≤ n / radix * radix :=
          Nat.mul_le_mul_right _ hlo
        have h5 : radix ^ (ds.length - 1) * radix = radix ^ (ds.length - 1 + 1) :=
          (pow_succ radix _).symm
        rw [show ds.length - 1 + 1 = ds.length by omega] at h5
        omega
      · simp only [List.length_append, List.length_singleton]
        have h3 : (n / radix + 1) * radix ≤ radix ^ ds.length * radix :=
          Nat.mul_le_mul_right _ (by omega)
        have h4 : radix ^ ds.length * radix = radix ^ (ds.length + 1) :=
          (pow_succ radix _).symm
        have hdm := Nat.div_add_mod n radix
        have hmod := Nat.mod_lt n (show 0 < radix by omega)
        have h5 : (n / radix + 1) * radix = radix * (n / radix) + radix := by ring
        omega

theorem isDigitChar_48 (radix : Nat) (h : 1 ≤ radix) : isDigitChar 48 radix := by
  unfold isDigitChar
  rw [charVal_48]
  exact ⟨Or.inl ⟨by omega, by omega⟩, by omega⟩

theorem uintToStrRadix_spec (n radix : Nat) (h2 : 2 ≤ radix) (h36 : radix ≤ 36) :
    (∀ c ∈ uintToStrRadix n radix, isDigitChar c radix) ∧
    digitsVal radix (uintToStrRadix n radix) 0 = n ∧
    uintToStrRadix n radix ≠ [] ∧
    (∀ L, 1 ≤ L → n < radix ^ L → (uintToStrRadix n radix).length ≤ L) := by
  unfold uintToStrRadix
  by_cases h0 : n = 0
  · rw [if_pos h0]
    refine ⟨?_, ?_, by simp, ?_⟩
    · intro c hc
      simp only [List.mem_singleton] at hc
      subst hc
      exact isDigitChar_48 radix (by omega)
    · show digitsVal radix [] (0 * radix + charVal 48) = n
      rw [charVal_48]
      unfold digitsVal
      omega
    · intro L hL _
      simpa using hL
  · rw [if_neg h0]
    obtain ⟨ds, hds, hne, hdig, hval, hlo, hhi⟩ :=
      uintToStrGo_spec radix h2 h36 (n + 1) n [] (by omega) (by omega)
    rw [List.append_nil] at hds
    rw [hds]
    refine ⟨hdig, hval, hne, ?_⟩
    intro L hL hnL
    have hlen1 : 1 ≤ ds.length := by
      rcases ds with _ | _
      · exact absurd rfl hne
      · simp
    have hpow : radix ^ (ds.length - 1) < radix ^ L := by omega
    have := (Nat.pow_lt_pow_iff_right (show 1 < radix by omega)).mp hpow
    omega

theorem msfPoly_foldl_init (b : Nat) (w : List Nat) : ∀ a : Nat,
    w.foldl (fun acc d => acc * b + d) a = a * b ^ w.length + msfPoly b w := by
  induction w with
  | nil =>
    intro a
    simp [msfPoly]
  | cons d w ih =>
    intro a
    show w.foldl _ (a * b + d) = _
    rw [ih (a * b + d)]
    show _ = a * b ^ (d :: w).length + w.foldl _ (0 * b + d)
    rw [ih (0 * b + d)]
    simp only [List.length_cons]
    ring

theorem msfPoly_cons (b d : Nat) (w : List Nat) :
    msfPoly b (d :: w) = d * b ^ w.length + msfPoly b w := by
  show w.foldl _ (0 * b + d) = _
  rw [msfPoly_foldl_init]
  ring_nf

theorem msfPoly_append_singleton (b : Nat) (w : List Nat) (d : Nat) :
    msfPoly b (w ++ [d]) = msfPoly b w * b + d := by
  unfold msfPoly
  rw [List.foldl_append]
  rfl

theorem msfPoly_reverse (b : Nat) (v : List Nat) :
    msfPoly b v.reverse = polyVal b v := by
  induction v with
  | nil => rfl
  | cons d v ih =>
    rw [List.reverse_cons, msfPoly_append_singleton, ih]
    show _ = d + b * polyVal b v
    ring

theorem usub64_small (a b : Nat) (hb : b ≤ a) (ha : a < 2 ^ uintBits) :
    usub64 a b = a - b := by
  unfold usub64
  have h64 : (2:Nat) ^ uintBits = 18446744073709551616 := by decide
  rw [h64] at ha ⊢
  omega

theorem vecFromElem48_small (n : Nat) (h : n ≤ 32) :
    vecFromElem48 n = some (List.replicate n 48) := by
  unfold vecFromElem48
  rw [if_pos]
  have h64 : (2:Nat) ^ uintBits = 18446744073709551616 := by decide
  omega

/-- A successful pass of the `fill_concat` body: when every digit is a
proper chunk (below `radix ^ L`), every pad fits and the result is the
exact-width concatenation, valid, of the expected length and value. -/
theorem fillConcatGo_spec (radix L : Nat) (h2 : 2 ≤ radix) (h36 : radix ≤ 36)
    (hL : 1 ≤ L) (hL32 : L ≤ 32) :
    ∀ w, (∀ e ∈ w, e < radix ^ L) →
    ∃ s, fillConcatGo radix L w = some s ∧
      (∀ c ∈ s, isDigitChar c radix) ∧
      s.length = L * w.length ∧
      digitsVal radix s 0 = msfPoly (radix ^ L) w := by
  have hL64 : L < 2 ^ uintBits := by
    have h64 : (2:Nat) ^ uintBits = 18446744073709551616 := by decide
    omega
  intro w
  induction w with
  | nil =>
    intro _
    exact ⟨[], rfl, by intro c hc; simp at hc, by simp, rfl⟩
  | cons d rest ih =>
    intro hd
    have hdL : d < radix ^ L := hd d (by simp)
    have hslen : (uintToStrRadix d radix).length ≤ L :=
      (uintToStrRadix_spec d radix h2 h36).2.2.2 L hL hdL
    obtain ⟨s0, hs0, hdig0, hlen0, hval0⟩ := ih (fun e he => hd e (by simp [he]))
    simp only [fillConcatGo]
    rw [usub64_small L _ hslen hL64,
      vecFromElem48_small (L - (uintToStrRadix d radix).length) (by omega), hs0]
    dsimp only
    refine ⟨_, rfl, ?_, ?_, ?_⟩
    · intro c hc
      rw [List.mem_append] at hc
      rcases hc with hc | hc
      · rw [List.mem_append] at hc
        rcases hc with hc | hc
        · rw [List.eq_of_mem_replicate hc]
          exact isDigitChar_48 radix (by omega)
        · exact (uintToStrRadix_spec d radix h2 h36).1 c hc
      · exact hdig0 c hc
    · rw [List.length_append, List.length_append, List.length_replicate, hlen0]
      simp only [List.length_cons]
      rw [Nat.mul_succ]
      omega
    · rw [List.append_assoc, digitsVal_replicate_zero, digitsVal_append,
        digitsVal_acc]
      have hval : digitsVal radix (uintToStrRadix d radix) 0 = d :=
        (uintToStrRadix_spec d radix h2 h36).2.1
      rw [hval, hlen0, hval0, msfPoly_cons, ← pow_mul]

/-- The rendering of the chunk base itself: one character more than the
unit width. -/
theorem uintToStrRadix_pow_len (radix L : Nat) (h2 : 2 ≤ radix) (h36 : radix ≤ 36) :
    L < (uintToStrRadix (radix ^ L) radix).length ∧
    (uintToStrRadix (radix ^ L) radix).length ≤ L + 1 := by
  have hn0 : radix ^ L ≠ 0 := by
    have := Nat.pos_pow_of_pos L (show 0 < radix by omega)
    omega
  unfold uintToStrRadix
  rw [if_neg hn0]
  obtain ⟨ds, hds, hne, hdig, hval, hlo, hhi⟩ :=
    uintToStrGo_spec radix h2 h36 (radix ^ L + 1) (radix ^ L) [] (by omega) (by omega)
  rw [List.append_nil] at hds
  rw [hds]
  constructor
  · exact (Nat.pow_lt_pow_iff_right (show 1 < radix by omega)).mp hhi
  · have := (Nat.pow_le_pow_iff_right (show 1 < radix by omega)).mp hlo
    omega

/-- A leading chunk whose rendering overflows the unit width: the pad
width wraps past the address space and the allocation aborts. -/
theorem fillConcatGo_fatal (radix L : Nat) (h : Nat) (t : List Nat)
    (hL32 : L ≤ 32) (hlen : L < (uintToStrRadix h radix).length)
    (hlen2 : (uintToStrRadix h radix).length ≤ 33) :
    fillConcatGo radix L (h :: t) = none := by
  have hnone : vecFromElem48 (usub64 L (uintToStrRadix h radix).length) = none := by
    unfold vecFromElem48 usub64
    have h64 : (2:Nat) ^ uintBits = 18446744073709551616 := by decide
    rw [h64, if_neg (by omega)]
  simp only [fillConcatGo]
  rw [hnone]

/-- `fill_concat` succeeds exactly on proper chunk lists, with the
digit string of the carried value. -/
theorem fill_concat_spec (v : List Nat) (radix L : Nat) (h2 : 2 ≤ radix)
    (h36 : radix ≤ 36) (hL : 1 ≤ L) (hL32 : L ≤ 32)
    (hd : ∀ e ∈ v, e < radix ^ L) :
    ∃ s, fill_concat v radix L = some s ∧
      (∀ c ∈ s, isDigitChar c radix) ∧
      digitsVal radix s 0 = polyVal (radix ^ L) v ∧
      (polyVal (radix ^ L) v ≠ 0 → s ≠ []) ∧
      (v = [] → s = [48]) := by
  unfold fill_concat
  by_cases hv : v.isEmpty
  · rw [if_pos hv]
    have hvnil : v = [] := by
      rcases v with _ | _
      · rfl
      · simp at hv
    subst hvnil
    refine ⟨[48], rfl, ?_, ?_, ?_, fun _ => rfl⟩
    · intro c hc
      simp only [List.mem_singleton] at hc
      subst hc
      exact isDigitChar_48 radix (by omega)
    · show digitsVal radix [] (0 * radix + charVal 48) = _
      rw [charVal_48]
      simp [polyVal, digitsVal]
    · intro hnz
      exact absurd rfl hnz
  · rw [if_neg hv]
    have hdrev : ∀ e ∈ v.reverse, e < radix ^ L := fun e he =>
      hd e (List.mem_reverse.mp he)
    obtain ⟨s0, hs0, hdig0, hlen0, hval0⟩ :=
      fillConcatGo_spec radix L h2 h36 hL hL32 v.reverse hdrev
    rw [hs0]
    dsimp only
    refine ⟨_, rfl, ?_, ?_, ?_, ?_⟩
    · intro c hc
      exact hdig0 c (mem_of_mem_dropWhile _ c hc)
    · rw [digitsVal_dropWhile, hval0, msfPoly_reverse]
    · intro hnz
      refine dropWhile_ne_nil_of_val radix _ ?_
      rw [hval0, msfPoly_reverse]
      exact hnz
    · intro hvnil
      subst hvnil
      simp at hv

/-- `fill_concat` on a chunk list ending in the chunk base itself:
the leading rendered chunk is one character too wide and the formatting
aborts. -/
theorem fill_concat_fatal (t : List Nat) (radix L : Nat) (h2 : 2 ≤ radix)
    (h36 : radix ≤ 36) (hL32 : L ≤ 32) :
    fill_concat (t ++ [radix ^ L]) radix L = none := by
  unfold fill_concat
  rw [if_neg (by simp)]
  have hrev : (t ++ [radix ^ L]).reverse = radix ^ L :: t.reverse := by simp
  rw [hrev]
  obtain ⟨hgt, hle⟩ := uintToStrRadix_pow_len radix L h2 h36
  rw [fillConcatGo_fatal radix L (radix ^ L) t.reverse hL32 hgt (by omega)]

/-- The radix table: every entry is the exact power `radix ^ unit_len`,
at most one BigDigit. -/
theorem get_radix_base_spec (radix : Nat) (h2 : 2 ≤ radix) (h16 : radix ≤ 16) :
    ∃ base L, get_radix_base radix = some (base, L) ∧ base = radix ^ L ∧
      1 ≤ L ∧ L ≤ 32 ∧ base ≤ digitBase ∧ 2 ≤ base := by
  interval_cases radix <;>
    exact ⟨_, _, rfl, by decide, by decide, by decide, by decide, by decide⟩

/-- `BigUint::from_uint` below `2^64`: well-formed, value preserved. -/
theorem from_uint_wf_spec (n : Nat) (h : n < 2 ^ uintBits) :
    WF (BigUint.from_uint n) ∧ (BigUint.from_uint n).toVal = n := by
  unfold BigUint.from_uint fromUint
  rw [Nat.mod_eq_of_lt h]
  have hsq : digitBase * digitBase = 2 ^ uintBits := digitBase_sq
  have hB : 0 < digitBase := digitBase_pos
  have hdm := Nat.div_add_mod n digitBase
  have hmlt : n % digitBase < digitBase := Nat.mod_lt _ hB
  have hdlt : n / digitBase < digitBase := by
    rw [Nat.div_lt_iff_lt_mul hB]
    omega
  rcases hq : n / digitBase with _ | q
  · rcases hr : n % digitBase with _ | r
    · show WF BigUint.zero ∧ BigUint.zero.toVal = n
      rw [hq, hr] at hdm
      refine ⟨wf_zero, ?_⟩
      rw [toVal_zero]
      omega
    · show WF (BigUint.new [r + 1]) ∧ (BigUint.new [r + 1]).toVal = n
      rw [hq, hr] at hdm
      rw [hr] at hmlt
      refine ⟨⟨bounded_new _ ?_, normal_new _⟩, ?_⟩
      · intro d hd
        simp only [List.mem_singleton] at hd
        omega
      · rw [new_toVal, listVal_cons, listVal_nil]
        omega
  · show WF (BigUint.new [n % digitBase, q + 1]) ∧
      (BigUint.new [n % digitBase, q + 1]).toVal = n
    rw [hq] at hdm hdlt
    refine ⟨⟨bounded_new _ ?_, normal_new _⟩, ?_⟩
    · intro d hd
      simp only [List.mem_cons, List.mem_singleton] at hd
      rcases hd with hd | hd | hd
      · omega
      · omega
      · simp at hd
    · rw [new_toVal, listVal_cons, listVal_cons, listVal_nil]
      ring_nf at hdm ⊢
      omega

theorem polyVal_cons (b x : Nat) (v : List Nat) :
    polyVal b (x :: v) = x + b * polyVal b v := rfl

theorem polyVal_digitBase (v : List Nat) : polyVal digitBase v = listVal v := rfl

theorem is_not_zero_iff (r : BigUint) (hr : WF r) :
    r.is_not_zero = true ↔ r.toVal ≠ 0 := by
  unfold BigUint.is_not_zero
  constructor
  · intro h h0
    have hz := (is_zero_iff r hr).mpr h0
    unfold BigUint.is_zero at hz
    rw [hz] at h
    simp at h
  · intro h
    by_contra hne
    have : r.data.isEmpty = true := by
      rcases he : r.data.isEmpty with _ | _
      · rw [he] at hne
        simp at hne
      · rfl
    exact h ((is_zero_iff r hr).mp this)

/-- The `convert_base` loop: emits base-`divider` digits of the value,
least significant first; every digit except possibly the last is a
proper digit, and the last is at most the divider itself (the
`while r > divider` guard lets a final chunk equal to the divider
through).  Outside the family `b^(k+1) <= r < b^(k+1) + b^k` every
digit is proper; on the family the last digit equals the divider. -/
theorem convert_base_loop_spec : ∀ fuel (r divider : BigUint), WF r → WF divider →
    2 ≤ divider.toVal → divider.toVal < digitBase → r.toVal + 2 ≤ fuel →
    ∃ ds, convert_base_loop fuel r divider = some ds ∧
      polyVal divider.toVal ds = r.toVal ∧
      (∀ e ∈ ds.dropLast, e < divider.toVal) ∧
      (∀ e ∈ ds, e ≤ divider.toVal) ∧
      (r.toVal = 0 → ds = []) ∧
      ((∀ k, ¬(divider.toVal ^ (k + 1) ≤ r.toVal ∧
          r.toVal < divider.toVal ^ (k + 1) + divider.toVal ^ k)) →
        ∀ e ∈ ds, e < divider.toVal) ∧
      (∀ k, divider.toVal ^ (k + 1) ≤ r.toVal →
        r.toVal < divider.toVal ^ (k + 1) + divider.toVal ^ k →
        ∃ t, ds = t ++ [divider.toVal]) := by
  intro fuel
  induction fuel with
  | zero => intro r divider _ _ _ _ h; omega
  | succ fuel ih =>
    intro r divider hr hdiv h2 hB hfuel
    simp only [convert_base_loop]
    by_cases hgt : 0 < r.cmp divider
    · rw [if_pos hgt]
      have hgtv : divider.toVal < r.toVal := (cmp_pos_iff r divider hr hdiv).mp hgt
      obtain ⟨d, r0, hdm, heq, hlt, hwd, hwr0⟩ :=
        divmod_spec r divider hr hdiv (by omega)
      have hd1 : 1 ≤ d.toVal := by
        by_contra hd0
        have : d.toVal = 0 := by omega
        rw [this, Nat.mul_zero] at heq
        omega
      have hdsmall : d.toVal + 2 ≤ fuel := by
        have h2d : 2 * d.toVal ≤ divider.toVal * d.toVal :=
          Nat.mul_le_mul_right _ h2
        omega
      obtain ⟨rest, hrest, hval, hlt1, hle1, hz1, hA1, hB1⟩ :=
        ih d divider hwd hdiv h2 hB hdsmall
      rw [hdm]
      dsimp only
      rw [hrest]
      dsimp only
      have hr0u : r0.to_uint % digitBase = r0.toVal := by
        have h64 : r0.toVal < 2 ^ uintBits := by
          have : digitBase < 2 ^ uintBits := by decide
          omega
        rw [(to_uint_spec r0 hwr0).1 h64]
        exact Nat.mod_eq_of_lt (by omega)
      refine ⟨r0.to_uint % digitBase :: rest, rfl, ?_, ?_, ?_, ?_, ?_, ?_⟩
      · rw [polyVal_cons, hr0u, hval]
        omega
      · intro e he
        rcases rest with _ | ⟨y, t⟩
        · simp at he
        · rw [List.dropLast_cons_of_ne_nil (by simp)] at he
          rcases List.mem_cons.mp he with he | he
          · rw [he, hr0u]
            omega
          · exact hlt1 e he
      · intro e he
        rcases List.mem_cons.mp he with he | he
        · rw [he, hr0u]
          omega
        · exact hle1 e he
      · intro h0
        omega
      · intro hnofam e he
        rcases List.mem_cons.mp he with he | he
        · rw [he, hr0u]
          omega
        · refine hA1 ?_ e he
          intro k hk
          obtain ⟨hk1, hk2⟩ := hk
          have hp1 : divider.toVal ^ (k + 1 + 1) =
              divider.toVal ^ (k + 1) * divider.toVal := pow_succ _ _
          have hp2 : divider.toVal ^ (k + 1) =
              divider.toVal ^ k * divider.toVal := pow_succ _ _
          have hm1 : divider.toVal ^ (k + 1) * divider.toVal ≤
              d.toVal * divider.toVal := Nat.mul_le_mul_right _ hk1
          have hm2 : (d.toVal + 1) * divider.toVal ≤
              (divider.toVal ^ (k + 1) + divider.toVal ^ k) * divider.toVal :=
            Nat.mul_le_mul_right _ (by omega)
          have he1 : (d.toVal + 1) * divider.toVal =
              d.toVal * divider.toVal + divider.toVal := by ring
          have he2 : (divider.toVal ^ (k + 1) + divider.toVal ^ k) * divider.toVal
              = divider.toVal ^ (k + 1) * divider.toVal +
                divider.toVal ^ k * divider.toVal := by ring
          have hcm : divider.toVal * d.toVal = d.toVal * divider.toVal :=
            Nat.mul_comm _ _
          exact hnofam (k + 1) ⟨by omega, by omega⟩
      · intro k hk1 hk2
        have hkne : k ≠ 0 := by
          intro h0
          subst h0
          have hb1 : divider.toVal ^ (0 + 1) = divider.toVal := by ring
          have hb0 : divider.toVal ^ 0 = 1 := pow_zero _
          omega
        have hpk1 : divider.toVal ^ (k + 1) = divider.toVal * divider.toVal ^ k :=
          pow_succ' _ _
        have hcm : divider.toVal * d.toVal = d.toVal * divider.toVal :=
          Nat.mul_comm _ _
        have hlow : divider.toVal ^ k ≤ d.toVal := by
          have hstep : divider.toVal * divider.toVal ^ k <
              divider.toVal * (d.toVal + 1) := by
            have he1 : divider.toVal * (d.toVal + 1) =
                divider.toVal * d.toVal + divider.toVal := by ring
            omega
          have := Nat.lt_of_mul_lt_mul_left hstep
          omega
        have hpk3 : divider.toVal ^ k = divider.toVal * divider.toVal ^ (k - 1) := by
          conv_lhs => rw [show k = k - 1 + 1 by omega]
          rw [pow_succ']
        have hupp : d.toVal < divider.toVal ^ k + divider.toVal ^ (k - 1) := by
          have hstep2 : divider.toVal * d.toVal <
              divider.toVal * (divider.toVal ^ k + divider.toVal ^ (k - 1)) := by
            have he2 : divider.toVal * (divider.toVal ^ k + divider.toVal ^ (k - 1))
                = divider.toVal * divider.toVal ^ k +
                  divider.toVal * divider.toVal ^ (k - 1) := by ring
            omega
          exact Nat.lt_of_mul_lt_mul_left hstep2
        obtain ⟨t, ht⟩ := hB1 (k - 1)
          (by rw [show k - 1 + 1 = k by omega]; omega)
          (by rw [show k - 1 + 1 = k by omega]; omega)
        refine ⟨r0.to_uint % digitBase :: t, ?_⟩
        rw [ht]
        rfl
    · rw [if_neg hgt]
      have hle : r.toVal ≤ divider.toVal := by
        have := cmp_pos_iff r divider hr hdiv
        omega
      by_cases hz : r.is_not_zero = true
      · rw [if_pos hz]
        have hr0 : r.toVal ≠ 0 := (is_not_zero_iff r hr).mp hz
        have hru : r.to_uint % digitBase = r.toVal := by
          have h64 : r.toVal < 2 ^ uintBits := by
            have : digitBase < 2 ^ uintBits := by decide
            omega
          rw [(to_uint_spec r hr).1 h64]
          exact Nat.mod_eq_of_lt (by omega)
        refine ⟨[r.to_uint % digitBase], rfl, ?_, ?_, ?_, ?_, ?_, ?_⟩
        · rw [polyVal_cons, hru]
          show r.toVal + divider.toVal * polyVal divider.toVal [] = r.toVal
          show r.toVal + divider.toVal * 0 = r.toVal
          omega
        · intro e he
          simp at he
        · intro e he
          simp only [List.mem_singleton] at he
          rw [he, hru]
          omega
        · intro h0
          exact absurd h0 hr0
        · intro hnofam e he
          simp only [List.mem_singleton] at he
          rw [he, hru]
          rcases Nat.eq_or_lt_of_le hle with heqv | hlt2
          · exfalso
            have hb1 : divider.toVal ^ (0 + 1) = divider.toVal := by ring
            have hb0 : divider.toVal ^ 0 = 1 := pow_zero _
            exact hnofam 0 ⟨by omega, by omega⟩
          · exact hlt2
        · intro k hk1 hk2
          have hk0 : k = 0 := by
            by_contra h0
            have hk2' : 2 ≤ k + 1 := by omega
            have hmono : divider.toVal ^ 2 ≤ divider.toVal ^ (k + 1) :=
              Nat.pow_le_pow_right (by omega) hk2'
            have hsq2 : divider.toVal ^ 2 = divider.toVal * divider.toVal :=
              pow_two _
            have h2b : 2 * divider.toVal ≤ divider.toVal * divider.toVal :=
              Nat.mul_le_mul_right _ h2
            omega
          subst hk0
          have hb1 : divider.toVal ^ (0 + 1) = divider.toVal := by ring
          have hb0 : divider.toVal ^ 0 = 1 := pow_zero _
          have hreq : r.toVal = divider.toVal := by omega
          refine ⟨[], ?_⟩
          rw [List.nil_append, hru, hreq]
      · rw [if_neg hz]
        have hr0 : r.toVal = 0 := by
          by_contra hne
          exact hz ((is_not_zero_iff r hr).mpr hne)
        refine ⟨[], rfl, by simpa [polyVal] using hr0.symm, ?_, ?_, fun _ => rfl,
          ?_, ?_⟩
        · intro e he
          simp at he
        · intro e he
          simp at he
        · intro _ e he
          simp at he
        · intro k hk1 hk2
          exfalso
          have h1 : 1 ≤ divider.toVal ^ (k + 1) := Nat.one_le_pow _ _ (by omega)
          omega

/-- `to_str_radix` for radix 2..16 on the good inputs: for the
digit-filling bases it always succeeds, and otherwise it succeeds on
every value outside the fatal family; the result is a nonempty string
of digits of the radix whose value is the number, `"0"` exactly for
zero. -/
theorem to_str_radix_spec (x : BigUint) (radix : Nat) (hx : WF x)
    (h2 : 2 ≤ radix) (h16 : radix ≤ 16) (base L : Nat)
    (hgrb : get_radix_base radix = some (base, L))
    (hok : base = digitBase ∨
      ∀ k, ¬(base ^ (k + 1) ≤ x.toVal ∧ x.toVal < base ^ (k + 1) + base ^ k)) :
    ∃ s, BigUint.to_str_radix x radix = some s ∧
      (∀ c ∈ s, isDigitChar c radix) ∧
      digitsVal radix s 0 = x.toVal ∧ s ≠ [] ∧
      (x.toVal = 0 → s = [48]) := by
  obtain ⟨base2, L2, hgrb2, hbpow, hL1, hL32, hble, hb2⟩ :=
    get_radix_base_spec radix h2 h16
  rw [hgrb2] at hgrb
  simp only [Option.some.injEq, Prod.mk.injEq] at hgrb
  obtain ⟨hbeq, hLeq⟩ := hgrb
  rw [hbeq] at hbpow hble hb2 hgrb2
  rw [hLeq] at hbpow hL1 hL32 hgrb2
  unfold BigUint.to_str_radix
  rw [hgrb2]
  dsimp only
  by_cases hfast : base = digitBase
  · rw [if_pos hfast]
    have hpowB : radix ^ L = digitBase := by rw [← hbpow, hfast]
    have hd : ∀ e ∈ x.data, e < radix ^ L := by
      intro e he
      rw [hpowB]
      exact hx.1 e he
    obtain ⟨s, hfc, hvalid, hval, hnz, hnil48⟩ :=
      fill_concat_spec x.data radix L h2 (by omega) hL1 hL32 hd
    refine ⟨s, hfc, hvalid, ?_, ?_, ?_⟩
    · rw [hval, hpowB, polyVal_digitBase]
      rfl
    · by_cases h0 : x.toVal = 0
      · have hdnil : x.data = [] := by
          have := eq_zero_of_toVal_eq_zero x hx h0
          rw [this]
          rfl
        rw [hnil48 hdnil]
        simp
      · refine hnz ?_
        rw [hpowB, polyVal_digitBase]
        exact h0
    · intro h0
      have hdnil : x.data = [] := by
        have := eq_zero_of_toVal_eq_zero x hx h0
        rw [this]
        rfl
      exact hnil48 hdnil
  · rw [if_neg hfast]
    have hnofam := hok.resolve_left hfast
    have hbase64 : base < 2 ^ uintBits := by
      have h1 : digitBase < 2 ^ uintBits := by decide
      omega
    obtain ⟨hwb, hvb⟩ := from_uint_wf_spec base hbase64
    have hblt : base < digitBase := by omega
    obtain ⟨ds, hloop, hdval, hdlt, hdle, hdz, hdA, hdB⟩ :=
      convert_base_loop_spec (x.toVal + 2) x (BigUint.from_uint base) hx hwb
        (by omega) (by omega) (by omega)
    rw [hloop]
    dsimp only
    rw [hvb] at hdval hdlt hdle hdA
    have hd2 : ∀ e ∈ ds, e < radix ^ L := by
      intro e he
      rw [← hbpow]
      exact hdA hnofam e he
    obtain ⟨s, hfc, hvalid, hval, hnz, hnil48⟩ :=
      fill_concat_spec ds radix L h2 (by omega) hL1 hL32 hd2
    refine ⟨s, hfc, hvalid, ?_, ?_, ?_⟩
    · rw [hval, ← hbpow]
      exact hdval
    · by_cases h0 : x.toVal = 0
      · rw [hnil48 (hdz h0)]
        simp
      · refine hnz ?_
        rw [← hbpow, hdval]
        exact h0
    · intro h0
      exact hnil48 (hdz h0)

/-- `to_str_radix` on the fatal family: for a non-digit-filling base,
whenever some `k` has `base^(k+1) <= x < base^(k+1) + base^k` the last
`convert_base` chunk equals the base itself, its rendering is one
character wider than the unit width, the pad width wraps around `2^64`
and the `vec::from_elem` allocation can never be satisfied: the
formatting call never returns. -/
theorem to_str_radix_fatal (x : BigUint) (radix : Nat) (hx : WF x)
    (h2 : 2 ≤ radix) (h16 : radix ≤ 16) (base L : Nat)
    (hgrb : get_radix_base radix = some (base, L))
    (hneq : base ≠ digitBase) (k : Nat)
    (hk1 : base ^ (k + 1) ≤ x.toVal)
    (hk2 : x.toVal < base ^ (k + 1) + base ^ k) :
    BigUint.to_str_radix x radix = none := by
  obtain ⟨base2, L2, hgrb2, hbpow, hL1, hL32, hble, hb2⟩ :=
    get_radix_base_spec radix h2 h16
  rw [hgrb2] at hgrb
  simp only [Option.some.injEq, Prod.mk.injEq] at hgrb
  obtain ⟨hbeq, hLeq⟩ := hgrb
  rw [hbeq] at hbpow hble hb2 hgrb2
  rw [hLeq] at hbpow hL1 hL32 hgrb2
  unfold BigUint.to_str_radix
  rw [hgrb2]
  dsimp only
  rw [if_neg hneq]
  have hbase64 : base < 2 ^ uintBits := by
    have h1 : digitBase < 2 ^ uintBits := by decide
    omega
  obtain ⟨hwb, hvb⟩ := from_uint_wf_spec base hbase64
  have hblt : base < digitBase := by omega
  obtain ⟨ds, hloop, hdval, hdlt, hdle, hdz, hdA, hdB⟩ :=
    convert_base_loop_spec (x.toVal + 2) x (BigUint.from_uint base) hx hwb
      (by omega) (by omega) (by omega)
  rw [hloop]
  dsimp only
  rw [hvb] at hdB
  obtain ⟨t, ht⟩ := hdB k hk1 hk2
  rw [ht, hbpow]
  exact fill_concat_fatal t radix L h2 (by omega) hL32

/-- The chunking loop of `BigUint::parse_bytes`: working right to left
over a prefix of valid digit bytes, it accumulates exactly the prefix's
value at the current power. -/
theorem parse_bytes_loop_spec (buf : List Nat) (radix L : Nat) (base_num : BigUint)
    (h2 : 2 ≤ radix) (hL : 1 ≤ L)
    (hbase : base_num.toVal = radix ^ L) (hwb : WF base_num)
    (hbB : radix ^ L ≤ digitBase) :
    ∀ fuel e n power, 1 ≤ e → e ≤ buf.length →
      (∀ c ∈ buf.take e, isDigitChar c radix) →
      WF n → WF power → e ≤ fuel →
      ∃ u, parse_bytes_loop buf radix L base_num fuel e n power = some u ∧ WF u ∧
        u.toVal = n.toVal + digitsVal radix (buf.take e) 0 * power.toVal := by
  intro fuel
  induction fuel with
  | zero => intro e n power h1 _ _ _ _ h6; omega
  | succ fuel ih =>
    intro e n power he1 helen hvalid hwn hwp hefuel
    simp only [parse_bytes_loop]
    have htlen : (buf.take e).length = e := by
      rw [List.length_take]
      omega
    have hdB : digitBase < 2 ^ uintBits := by decide
    by_cases hcase : e ≤ L
    · have hstart : max e L - L = 0 := by omega
      rw [hstart]
      rw [List.drop_zero]
      have hne : buf.take e ≠ [] := by
        intro h
        rw [h] at htlen
        simp at htlen
        omega
      rw [uintParseBytes_spec (buf.take e) radix hne hvalid]
      dsimp only
      rw [if_pos hcase]
      set d := digitsVal radix (buf.take e) 0 with hd
      have hdlt : d < radix ^ L := by
        have h1 : d < radix ^ (buf.take e).length :=
          digitsVal_lt radix _ (by omega) (fun c hc => (hvalid c hc).2)
        have h3 : radix ^ (buf.take e).length ≤ radix ^ L :=
          Nat.pow_le_pow_right (by omega) (by omega)
        omega
      obtain ⟨hwd, hvd⟩ := from_uint_wf_spec d (by omega)
      obtain ⟨hvm, hwm⟩ := mul_toVal (BigUint.from_uint d) power hwd hwp
      refine ⟨_, rfl, add_wf _ _ hwn.1 hwm.1, ?_⟩
      · rw [add_toVal _ _ hwn.1 hwm.1, hvm, hvd]
    · have hstart : max e L - L = e - L := by omega
      rw [hstart]
      have hchunklen : ((buf.take e).drop (e - L)).length = L := by
        rw [List.length_drop, htlen]
        omega
      have hchsub : ∀ c ∈ (buf.take e).drop (e - L), isDigitChar c radix := by
        intro c hc
        exact hvalid c (List.mem_of_mem_drop hc)
      have hchne : (buf.take e).drop (e - L) ≠ [] := by
        intro h
        rw [h] at hchunklen
        simp at hchunklen
        omega
      rw [uintParseBytes_spec _ radix hchne hchsub]
      dsimp only
      rw [if_neg hcase]
      set d := digitsVal radix ((buf.take e).drop (e - L)) 0 with hd
      have hdlt : d < radix ^ L := by
        have h1 : d < radix ^ ((buf.take e).drop (e - L)).length :=
          digitsVal_lt radix _ (by omega) (fun c hc => (hchsub c hc).2)
        rw [hchunklen] at h1
        exact h1
      obtain ⟨hwd, hvd⟩ := from_uint_wf_spec d (by omega)
      obtain ⟨hvm, hwm⟩ := mul_toVal (BigUint.from_uint d) power hwd hwp
      have hwn2 : WF (n.add ((BigUint.from_uint d).mul power)) :=
        add_wf _ _ hwn.1 hwm.1
      obtain ⟨hvp2, hwp2⟩ := mul_toVal power base_num hwp hwb
      have hsub : ∀ c ∈ buf.take (e - L), isDigitChar c radix := by
        intro c hc
        have h1 : buf.take (e - L) = (buf.take e).take (e - L) := by
          rw [List.take_take]
          congr 1
          omega
        rw [h1] at hc
        exact hvalid c (List.mem_of_mem_take hc)
      obtain ⟨u, hu, hwu, hvu⟩ := ih (e - L) (n.add ((BigUint.from_uint d).mul power))
        (power.mul base_num) (by omega) (by omega) hsub hwn2 hwp2 (by omega)
      refine ⟨u, hu, hwu, ?_⟩
      rw [hvu, add_toVal _ _ hwn.1 hwm.1, hvm, hvd, hvp2, hbase]
      have hsplit : buf.take e = buf.take (e - L) ++ (buf.take e).drop (e - L) := by
        conv_lhs => rw [← List.take_append_drop (e - L) (buf.take e)]
        rw [List.take_take]
        congr 2
        omega
      rw [hsplit, digitsVal_append,
        digitsVal_acc radix ((buf.take e).drop (e - L))
          (digitsVal radix (buf.take (e - L)) 0), hchunklen]
      rw [← hd]
      ring

/-- `BigUint::parse_bytes` on a nonempty valid digit string returns the
canonical magnitude of its value. -/
theorem parse_bytes_correct (s : List Nat) (radix : Nat) (h2 : 2 ≤ radix)
    (h16 : radix ≤ 16) (hne : s ≠ [])
    (hvalid : ∀ c ∈ s, isDigitChar c radix) :
    ∃ u, BigUint.parse_bytes s radix = some u ∧ WF u ∧
      u.toVal = digitsVal radix s 0 := by
  obtain ⟨base, L, hgrb, hbpow, hL1, hL32, hble, hb2⟩ := get_radix_base_spec radix h2 h16
  unfold BigUint.parse_bytes
  rw [hgrb]
  dsimp only
  have hbase64 : base < 2 ^ uintBits := by
    have h1 : digitBase < 2 ^ uintBits := by decide
    omega
  obtain ⟨hwb, hvb⟩ := from_uint_wf_spec base hbase64
  have hlen1 : 1 ≤ s.length := by
    rcases s with _ | _
    · exact absurd rfl hne
    · simp
  obtain ⟨u, hu, hwu, hvu⟩ := parse_bytes_loop_spec s radix L (BigUint.from_uint base)
    h2 hL1 (by rw [hvb, hbpow]) hwb (by rw [← hbpow]; exact hble)
    (s.length + 1) s.length BigUint.zero BigUint.one hlen1 le_rfl
    (by rw [List.take_length]; exact hvalid) wf_zero wf_one (by omega)
  refine ⟨u, hu, hwu, ?_⟩
  rw [hvu, toVal_zero, toVal_one, List.take_length]
  ring

/-- C4 (amended): formatting then parsing round-trips a well-formed
magnitude at radix 2..16 whenever formatting returns at all.  It does
for the digit-filling radices (those whose table base is one BigDigit,
i.e. 2, 4, 16) on every input, and otherwise exactly for the values
outside the family `base^(k+1) <= x < base^(k+1) + base^k`, whose
leading `convert_base` chunk equals the chunk base: there the chunk
renders one character wider than the unit width, the pad width wraps
around `2^64`, and the `vec::from_elem` allocation aborts the task, so
formatting never returns.  Zero still formats as `"0"`. -/
theorem claim_C4 (x : BigUint) (radix : Nat) (hx : WF x) (h2 : 2 ≤ radix)
    (h16 : radix ≤ 16) :
    ∃ base L, get_radix_base radix = some (base, L) ∧
      ((base = digitBase ∨
          ∀ k, ¬(base ^ (k + 1) ≤ x.toVal ∧
            x.toVal < base ^ (k + 1) + base ^ k)) →
        ∃ s, BigUint.to_str_radix x radix = some s ∧
          BigUint.from_str_radix s radix = some x ∧
          (x.toVal = 0 → s = [48])) ∧
      (base ≠ digitBase → ∀ k, base ^ (k + 1) ≤ x.toVal →
        x.toVal < base ^ (k + 1) + base ^ k →
        BigUint.to_str_radix x radix = none) := by
  obtain ⟨base, L, hgrb, hbpow, hL1, hL32, hble, hb2⟩ :=
    get_radix_base_spec radix h2 h16
  refine ⟨base, L, hgrb, ?_, ?_⟩
  · intro hok
    obtain ⟨s, hs, hvalid, hval, hne, h48⟩ :=
      to_str_radix_spec x radix hx h2 h16 base L hgrb hok
    obtain ⟨u, hu, hwu, huval⟩ := parse_bytes_correct s radix h2 h16 hne hvalid
    have hux : u = x := wf_val_inj u x hwu hx (by rw [huval, hval])
    refine ⟨s, hs, ?_, h48⟩
    unfold BigUint.from_str_radix
    rw [hu, hux]
  · intro hneq k hk1 hk2
    exact to_str_radix_fatal x radix hx h2 h16 base L hgrb hneq k hk1 hk2

/-- C4 counterexample to the unconditional round trip: the magnitude
`10^9` is well formed and `10` is a radix in range, yet formatting it
returns nothing: its single `convert_base` chunk equals the chunk base
`10^9`, renders in 10 characters against the unit width 9, the pad
width wraps to `2^64 - 1` and the allocation aborts.  In particular no
string round-trips it. -/
theorem claim_C4_counterexample :
    WF (BigUint.mk [1000000000]) ∧ 2 ≤ 10 ∧ (10:Nat) ≤ 16 ∧
    BigUint.to_str_radix (BigUint.mk [1000000000]) 10 = none ∧
    ¬∃ s, BigUint.to_str_radix (BigUint.mk [1000000000]) 10 = some s ∧
      BigUint.from_str_radix s 10 = some (BigUint.mk [1000000000]) := by
  refine ⟨by decide, by decide, by decide, ?_, ?_⟩
  · decide
  · rintro ⟨s, hs, _⟩
    have hnone : BigUint.to_str_radix (BigUint.mk [1000000000]) 10 = none := by
      decide
    rw [hnone] at hs
    exact Option.noConfusion hs

/-- C4 witness. -/
theorem claim_C4_witness :
    WF (BigUint.mk [314]) ∧ 2 ≤ 10 ∧ (10:Nat) ≤ 16 ∧
    (∃ base L, get_radix_base 10 = some (base, L) ∧
      ((base = digitBase ∨
          ∀ k, ¬(base ^ (k + 1) ≤ (BigUint.mk [314]).toVal ∧
            (BigUint.mk [314]).toVal < base ^ (k + 1) + base ^ k)) →
        ∃ s, BigUint.to_str_radix (BigUint.mk [314]) 10 = some s ∧
          BigUint.from_str_radix s 10 = some (BigUint.mk [314]) ∧
          ((BigUint.mk [314]).toVal = 0 → s = [48])) ∧
      (base ≠ digitBase → ∀ k, base ^ (k + 1) ≤ (BigUint.mk [314]).toVal →
        (BigUint.mk [314]).toVal < base ^ (k + 1) + base ^ k →
        BigUint.to_str_radix (BigUint.mk [314]) 10 = none)) :=
  ⟨by decide, by decide, by decide,
    claim_C4 (BigUint.mk [314]) 10 (by decide) (by decide) (by decide)⟩


end BigintRs
